import Mathlib

/-!
# Rolling-window indicators of `src/cpp/analytics.cpp`

A shallow embedding of the five `extern "C"` routines `calculate_sma`,
`calculate_ema`, `calculate_rsi`, `calculate_stddev` and
`calculate_max_drawdown`, followed by the properties proved about them.

Conventions of the embedding.

* A C `double` is a `Dbl`: a rational, one of the two infinities, or the
  not-a-number `NAN`.  The operations of `Dbl` are exact: they do not round.  The
  sign of zero is left out: `0.0` and `-0.0` are one value, as they are for `==`
  and `<`, and the routines divide by no zero that could be negative.
* The routines are embedded twice.  `calculate_sma`, ..., `calculate_max_drawdown`
  compute with the exact operations: what is proved of them is proved of the
  formulas, in exact arithmetic.  `Rounded.calculate_sma`, ...,
  `Rounded.calculate_max_drawdown` are the same routines with a rounding `rnd` after
  every operation; with `rnd = round64`, the rounding to the nearest binary64 number,
  ties to even, overflow to an infinity, they compute what the compiled code computes
  on binary64 samples (every operation rounded once, no fused multiply-add).  The
  properties that rounding or overflow can break are stated of both.
* A C `int` is an `Int`: the routines compute `window + 1`, `window - 1`, `i - j`
  and `i - 1` only, far from the overflow of an `int` for every buffer that fits
  in memory.
* A buffer (`const double*`, `double*`, `std::vector<double>`) is a `List Dbl`.
  A read or a write outside the buffer is undefined behaviour in C; here it makes
  the routine return `none`.  The output buffer is passed in and handed back.
* A `for` loop is `forLoop`, which threads the loop-carried variables through the
  iterations in increasing order of the index.
* The routines are defined on every buffer of doubles.  The theorems are about
  series of finite samples, `qs.map Dbl.fin` for a list `qs` of rationals, of the
  length `qs.length` that is passed as `length`, and about an output buffer of
  that length with any content.
-/

namespace Analytics

/-! ## Doubles -/

/-- Values of a C `double`: a finite value, `+inf`, `-inf` or `NAN`.  A binary64
number is a finite value `q` with `round64 q = Dbl.fin q`. -/
inductive Dbl where
  | fin (q : ℚ)
  | pinf
  | ninf
  | nan
deriving DecidableEq, Repr

namespace Dbl

/-- The infinity that a nonzero finite value divided by zero, or an infinity
multiplied by a nonzero finite value, gives; `NAN` for zero. -/
def ofSign (s : ℚ) : Dbl :=
  if 0 < s then pinf else if s < 0 then ninf else nan

/-- Conversion of an `int` to a `double`. -/
def ofInt (n : Int) : Dbl := fin (n : ℚ)

/-- Unary minus. -/
def neg : Dbl → Dbl
  | fin a => fin (-a)
  | pinf => ninf
  | ninf => pinf
  | nan => nan

/-- Addition of doubles, before rounding: the exact sum of two finite values. -/
def add : Dbl → Dbl → Dbl
  | fin a, fin b => fin (a + b)
  | fin _, pinf => pinf
  | fin _, ninf => ninf
  | pinf, fin _ => pinf
  | pinf, pinf => pinf
  | ninf, fin _ => ninf
  | ninf, ninf => ninf
  | _, _ => nan

/-- Subtraction of doubles. -/
def sub (a b : Dbl) : Dbl := add a (neg b)

/-- Multiplication of doubles, before rounding: the exact product of two finite
values. -/
def mul : Dbl → Dbl → Dbl
  | fin a, fin b => fin (a * b)
  | fin a, pinf => ofSign a
  | fin a, ninf => ofSign (-a)
  | pinf, fin b => ofSign b
  | ninf, fin b => ofSign (-b)
  | pinf, pinf => pinf
  | ninf, ninf => pinf
  | pinf, ninf => ninf
  | ninf, pinf => ninf
  | _, _ => nan

/-- Division of doubles, before rounding: the exact quotient of two finite values;
a finite value over zero is an infinity, or `NAN` when the value is zero too. -/
def div : Dbl → Dbl → Dbl
  | fin a, fin b => if b = 0 then ofSign a else fin (a / b)
  | fin _, pinf => fin 0
  | fin _, ninf => fin 0
  | pinf, fin b => if 0 ≤ b then pinf else ninf
  | ninf, fin b => if 0 ≤ b then ninf else pinf
  | _, _ => nan

/-- The comparison `a < b` of C: false as soon as one side is `NAN`. -/
def lt : Dbl → Dbl → Bool
  | fin a, fin b => decide (a < b)
  | fin _, pinf => true
  | ninf, fin _ => true
  | ninf, pinf => true
  | _, _ => false

/-- The comparison `a > b` of C. -/
def gt (a b : Dbl) : Bool := lt b a

/-- The comparison `a == b` of C: `NAN` equals nothing. -/
def eq : Dbl → Dbl → Bool
  | fin a, fin b => decide (a = b)
  | pinf, pinf => true
  | ninf, ninf => true
  | _, _ => false

/-- The comparison `a != b` of C. -/
def ne (a b : Dbl) : Bool := !(eq a b)

/-- The function `std::sqrt`, given the square root `sqrtQ` it computes on the
finite values that are not negative. -/
def sqrt (sqrtQ : ℚ → ℚ) : Dbl → Dbl
  | fin a => if a < 0 then nan else fin (sqrtQ a)
  | pinf => pinf
  | _ => nan

instance : Add Dbl := ⟨add⟩
instance : Sub Dbl := ⟨sub⟩
instance : Mul Dbl := ⟨mul⟩
instance : Div Dbl := ⟨div⟩
instance : Neg Dbl := ⟨neg⟩

end Dbl

/-! ## Buffers and loops -/

/-- The read `buf[k]`; `none` outside the buffer. -/
def readAt (buf : List Dbl) (k : Int) : Option Dbl :=
  if 0 ≤ k then buf[k.toNat]? else none

/-- The write `buf[k] = v`; `none` outside the buffer. -/
def writeAt (buf : List Dbl) (k : Int) (v : Dbl) : Option (List Dbl) :=
  if 0 ≤ k ∧ k.toNat < buf.length then some (buf.set k.toNat v) else none

/-- The loop `for (int i = lo; i < lo + n; ++i) body`, from the loop-carried
state `s`: the first `n` iterations are run, then the iteration `i = lo + n`. -/
def forLoop {σ : Type} (lo : Int) (body : Int → σ → Option σ) : Nat → σ → Option σ
  | 0, s => some s
  | n + 1, s => (forLoop lo body n s).bind (body (lo + n))

/-! ## The routines -/

/-- The routine `calculate_sma`: simple moving average. -/
def calculate_sma (data : List Dbl) (length window : Int) (result : List Dbl) :
    Option (List Dbl) :=
  forLoop 0 (fun i result =>
    if i < window - 1 then
      writeAt result i Dbl.nan
    else do
      let sum ← forLoop 0 (fun j sum => do
        let x ← readAt data (i - j)
        pure (sum + x)) window.toNat (Dbl.fin 0)
      writeAt result i (sum / Dbl.ofInt window)) length.toNat result

/-- The routine `calculate_ema`: exponential moving average, seeded with the mean
of the first `window` samples. -/
def calculate_ema (data : List Dbl) (length window : Int) (result : List Dbl) :
    Option (List Dbl) := do
  let multiplier := Dbl.fin 2 / Dbl.ofInt (window + 1)
  let sum ← forLoop 0 (fun i sum => do
    let x ← readAt data i
    pure (sum + x)) window.toNat (Dbl.fin 0)
  let prev_ema := sum / Dbl.ofInt window
  let (_, result) ← forLoop 0 (fun i (prev_ema, result) =>
    if i < window - 1 then do
      let result ← writeAt result i Dbl.nan
      pure (prev_ema, result)
    else if i = window - 1 then do
      let result ← writeAt result i prev_ema
      pure (prev_ema, result)
    else do
      let x ← readAt data i
      let current_ema := (x - prev_ema) * multiplier + prev_ema
      let result ← writeAt result i current_ema
      pure (current_ema, result)) length.toNat (prev_ema, result)
  pure result

/-- The routine `calculate_rsi`: relative strength index with Wilder's smoothing.
The two `std::vector<double>` of `length` zeros cannot be built for a negative
`length`. -/
def calculate_rsi (data : List Dbl) (length window : Int) (result : List Dbl) :
    Option (List Dbl) :=
  if length ≤ window then some result
  else if length < 0 then none
  else do
    let gains := List.replicate length.toNat (Dbl.fin 0)
    let losses := List.replicate length.toNat (Dbl.fin 0)
    let (gains, losses) ← forLoop 1 (fun i (gains, losses) => do
      let a ← readAt data i
      let b ← readAt data (i - 1)
      let change := a - b
      if Dbl.gt change (Dbl.fin 0) then do
        let gains ← writeAt gains i change
        pure (gains, losses)
      else do
        let losses ← writeAt losses i (-change)
        pure (gains, losses)) (length - 1).toNat (gains, losses)
    let (avg_gain, avg_loss) ← forLoop 1 (fun i (avg_gain, avg_loss) => do
      let g ← readAt gains i
      let l ← readAt losses i
      pure (avg_gain + g, avg_loss + l)) window.toNat (Dbl.fin 0, Dbl.fin 0)
    let avg_gain := avg_gain / Dbl.ofInt window
    let avg_loss := avg_loss / Dbl.ofInt window
    let (_, result) ← forLoop 0 (fun i ((avg_gain, avg_loss), result) =>
      if i < window then do
        let result ← writeAt result i Dbl.nan
        pure ((avg_gain, avg_loss), result)
      else do
        let (avg_gain, avg_loss) ←
          if i > window then do
            let g ← readAt gains i
            let l ← readAt losses i
            pure ((avg_gain * Dbl.ofInt (window - 1) + g) / Dbl.ofInt window,
                  (avg_loss * Dbl.ofInt (window - 1) + l) / Dbl.ofInt window)
          else pure (avg_gain, avg_loss)
        if Dbl.eq avg_loss (Dbl.fin 0) then do
          let result ← writeAt result i (Dbl.fin 100)
          pure ((avg_gain, avg_loss), result)
        else do
          let rs := avg_gain / avg_loss
          let result ← writeAt result i (Dbl.fin 100 - Dbl.fin 100 / (Dbl.fin 1 + rs))
          pure ((avg_gain, avg_loss), result)) length.toNat ((avg_gain, avg_loss), result)
    pure result

/-- The routine `calculate_stddev`: rolling sample standard deviation; `sqrtQ` is
the square root that `std::sqrt` computes on finite values. -/
def calculate_stddev (sqrtQ : ℚ → ℚ) (data : List Dbl) (length window : Int)
    (result : List Dbl) : Option (List Dbl) :=
  forLoop 0 (fun i result =>
    if i < window - 1 then
      writeAt result i Dbl.nan
    else do
      let sum ← forLoop 0 (fun j sum => do
        let x ← readAt data (i - j)
        pure (sum + x)) window.toNat (Dbl.fin 0)
      let mean := sum / Dbl.ofInt window
      let sq_sum ← forLoop 0 (fun j sq_sum => do
        let x ← readAt data (i - j)
        let diff := x - mean
        pure (sq_sum + diff * diff)) window.toNat (Dbl.fin 0)
      writeAt result i (Dbl.sqrt sqrtQ (sq_sum / Dbl.ofInt (window - 1)))) length.toNat result

/-- The routine `calculate_max_drawdown`: decline from the running peak, the peak
starting at `-1e9`. -/
def calculate_max_drawdown (data : List Dbl) (length : Int) (result : List Dbl) :
    Option (List Dbl) := do
  let (_, result) ← forLoop 0 (fun i (peak, result) => do
    let x ← readAt data i
    let peak := if Dbl.gt x peak then x else peak
    if Dbl.ne peak (Dbl.fin 0) then do
      let result ← writeAt result i ((x - peak) / peak)
      pure (peak, result)
    else do
      let result ← writeAt result i (Dbl.fin 0)
      pure (peak, result)) length.toNat (Dbl.fin (-1000000000), result)
  pure result


/-! ## Vocabulary of the statements -/

/-- The buffer in which the cells `0 .. n-1` hold `g 0 .. g (n-1)` and the others
are those of `buf`. -/
def filled (g : Nat → Dbl) (n : Nat) (buf : List Dbl) : List Dbl :=
  (List.range n).map g ++ buf.drop n

/-- The `W` trailing samples that end at index `i`: `qs[i-W+1], ..., qs[i]`. -/
def trailing (qs : List ℚ) (W i : Nat) : List ℚ :=
  (qs.drop (i + 1 - W)).take W

/-- The value `calculate_ema` holds in `prev_ema` once the iterations `0 .. n-1` of
its main loop are done: the seed, then one smoothing step for every index from
`W` on. -/
def emaState (qs : List ℚ) (W : Nat) : Nat → ℚ
  | 0 => (qs.take W).sum / W
  | n + 1 =>
    if n + 1 ≤ W then emaState qs W n
    else (qs.getD n 0 - emaState qs W n) * (2 / ((W : ℚ) + 1)) + emaState qs W n

/-- The value `calculate_max_drawdown` holds in `peak` once the iterations
`0 .. n-1` of its loop are done. -/
def peakState (qs : List ℚ) : Nat → ℚ
  | 0 => -1000000000
  | n + 1 => if peakState qs n < qs.getD n 0 then qs.getD n 0 else peakState qs n

/-- The value `calculate_max_drawdown` writes when the sample is `x` and the peak,
already updated, is `p`. -/
def drawdown (x p : ℚ) : ℚ :=
  if p = 0 then 0 else (x - p) / p

/-- The value `calculate_rsi` leaves in `gains[j]`: the rise from sample `j - 1` to
sample `j` when there is one, `0` otherwise (and `0` for `j = 0`, never written). -/
def gainAt (qs : List ℚ) (j : Nat) : ℚ :=
  if 0 < qs.getD j 0 - qs.getD (j - 1) 0 then qs.getD j 0 - qs.getD (j - 1) 0 else 0

/-- The value `calculate_rsi` leaves in `losses[j]`: the fall from sample `j - 1`
to sample `j` when there is no rise, `0` otherwise. -/
def lossAt (qs : List ℚ) (j : Nat) : ℚ :=
  if 0 < qs.getD j 0 - qs.getD (j - 1) 0 then 0 else -(qs.getD j 0 - qs.getD (j - 1) 0)

/-- The vector `gains` (or `losses`) of length `N` once the cells `1 .. n` are
written with `x 1 .. x n`, the others still `0`. -/
def prefixBuf (x : Nat → ℚ) (N n : Nat) : List Dbl :=
  (List.range N).map (fun j => Dbl.fin (if j ≤ n then x j else 0))

/-- The value `calculate_rsi` holds in `avg_gain` (with `x` the gains) or `avg_loss`
(with `x` the losses) once the iterations `0 .. n-1` of its main loop are done: the
first average, then one step of Wilder's smoothing for every index above `W`. -/
def wilder (x : Nat → ℚ) (W : Nat) : Nat → ℚ
  | 0 => ((List.range W).map (fun j => x (j + 1))).sum / W
  | n + 1 => if W < n then (wilder x W n * ((W : ℚ) - 1) + x n) / W else wilder x W n

/-- The value `calculate_rsi` writes for the averages `ag` and `al`. -/
def rsiValue (ag al : ℚ) : ℚ :=
  if al = 0 then 100 else 100 - 100 / (1 + ag / al)

/-- The loss of the contract of RSI, in the words of the specification:
`loss[j] = max(data[j-1] - data[j], 0)`. -/
def lossSpec (qs : List ℚ) (j : Nat) : ℚ :=
  max (qs.getD (j - 1) 0 - qs.getD j 0) 0

/-! ## Binary64 rounding

The routines above compute with exact rationals.  The real `double` rounds every
sum, difference, product, quotient and square root to the nearest binary64 value,
ties to even, and overflows to an infinity.  `round64` is that rounding, and the
namespace `Rounded` holds the five routines again, line for line, with every
arithmetic operation followed by a rounding `rnd`.  With `rnd = Dbl.fin` they are the
exact routines; with `rnd = round64` they are the routines as compiled for binary64
without fused multiply-add (the sign of zero is still left out). -/

/-- The length of the binary writing of `n`, by halving at most `f` times. -/
def bitLengthAux : Nat → Nat → Nat
  | 0, _ => 0
  | f + 1, n => if n = 0 then 0 else bitLengthAux f (n / 2) + 1

/-- The length of the binary writing of `n`: `2^(bitLength n - 1) ≤ n < 2^(bitLength n)`
for `n > 0`. -/
def bitLength (n : Nat) : Nat := bitLengthAux n n

/-- The product `a * 2^k` for `k ≥ 0`, and `a` for `k < 0`. -/
def shl (a : Nat) (k : Int) : Nat := a * 2 ^ k.toNat

/-- The integer `e` with `2^e ≤ a / d < 2^(e+1)`, for `a, d > 0`: the difference of
the two binary lengths, or one less. -/
def floorLog2 (a d : Nat) : Int :=
  let L : Int := (bitLength a : Int) - (bitLength d : Int)
  if shl d L ≤ shl a (-L) then L else L - 1

/-- The exponent of the last bit that binary64 keeps of `a / d`: 52 places under
the leading bit, and never under `-1074` (subnormal numbers). -/
def lastBit (a d : Nat) : Int :=
  max (floorLog2 a d - 52) (-1074)

/-- The integer nearest to `a / d / 2^E`, ties to even. -/
def mantissa (a d : Nat) (E : Int) : Nat :=
  let num := shl a (-E)
  let den := shl d E
  let k := num / den
  let r := num % den
  if den < 2 * r ∨ (2 * r = den ∧ k % 2 = 1) then k + 1 else k

/-- The power `2^E` of an integer `E`. -/
def pow2 (E : Int) : ℚ :=
  if 0 ≤ E then ((2 ^ E.toNat : Nat) : ℚ) else 1 / ((2 ^ (-E).toNat : Nat) : ℚ)

/-- The binary64 value nearest to `q`, ties to even: 53 significant bits, exponent of
the last bit from `-1074` (subnormal numbers) to `971`, an infinity from
`2^1024 - 2^970` on. -/
def round64 (q : ℚ) : Dbl :=
  if q = 0 then Dbl.fin 0
  else
    let E := lastBit q.num.natAbs q.den
    let M := mantissa q.num.natAbs q.den E
    if 971 < E ∨ (E = 971 ∧ M = 2 ^ 53) then
      (if 0 < q then Dbl.pinf else Dbl.ninf)
    else
      Dbl.fin (if 0 < q then (M : ℚ) * pow2 E else -((M : ℚ) * pow2 E))

/-- The greatest `r + s` with `s < 2^b` and `(r + s)^2 ≤ n`, bit by bit. -/
def isqrtAux (n : Nat) : Nat → Nat → Nat
  | 0, r => r
  | b + 1, r =>
    if (r + 2 ^ b) * (r + 2 ^ b) ≤ n then isqrtAux n b (r + 2 ^ b) else isqrtAux n b r

/-- The integer square root: the greatest `r` with `r^2 ≤ n`. -/
def isqrt (n : Nat) : Nat := isqrtAux n (bitLength n / 2 + 1) 0

/-- The square root of `std::sqrt` on a positive binary64 value: the binary64 value
nearest to the square root, which is read off an integer square root with at least
56 bits and the mark of an inexact result. -/
def sqrt64 (q : ℚ) : ℚ :=
  if q ≤ 0 then 0
  else
    let n := q.num.natAbs
    let d := q.den
    let t := 56 + (bitLength d + 1) / 2
    let S := isqrt (n * 2 ^ (2 * t) / d)
    let sticky := if S * S * d = n * 2 ^ (2 * t) then 0 else 1
    match round64 (((2 * S + sticky : Nat) : ℚ) / ((2 ^ (t + 1) : Nat) : ℚ)) with
    | Dbl.fin r => r
    | _ => 0

namespace Rounded

/-- The rounding of the result of one arithmetic operation: a finite result is
rounded, an infinity or `NAN` is kept. -/
def rd (rnd : ℚ → Dbl) : Dbl → Dbl
  | Dbl.fin q => rnd q
  | x => x

/-- The routine `calculate_sma`, every operation rounded. -/
def calculate_sma (rnd : ℚ → Dbl) (data : List Dbl) (length window : Int)
    (result : List Dbl) : Option (List Dbl) :=
  forLoop 0 (fun i result =>
    if i < window - 1 then
      writeAt result i Dbl.nan
    else do
      let sum ← forLoop 0 (fun j sum => do
        let x ← readAt data (i - j)
        pure (rd rnd (sum + x))) window.toNat (Dbl.fin 0)
      writeAt result i (rd rnd (sum / Dbl.ofInt window))) length.toNat result

/-- The routine `calculate_ema`, every operation rounded. -/
def calculate_ema (rnd : ℚ → Dbl) (data : List Dbl) (length window : Int)
    (result : List Dbl) : Option (List Dbl) := do
  let multiplier := rd rnd (Dbl.fin 2 / Dbl.ofInt (window + 1))
  let sum ← forLoop 0 (fun i sum => do
    let x ← readAt data i
    pure (rd rnd (sum + x))) window.toNat (Dbl.fin 0)
  let prev_ema := rd rnd (sum / Dbl.ofInt window)
  let (_, result) ← forLoop 0 (fun i (prev_ema, result) =>
    if i < window - 1 then do
      let result ← writeAt result i Dbl.nan
      pure (prev_ema, result)
    else if i = window - 1 then do
      let result ← writeAt result i prev_ema
      pure (prev_ema, result)
    else do
      let x ← readAt data i
      let current_ema := rd rnd (rd rnd (rd rnd (x - prev_ema) * multiplier) + prev_ema)
      let result ← writeAt result i current_ema
      pure (current_ema, result)) length.toNat (prev_ema, result)
  pure result

/-- The routine `calculate_rsi`, every operation rounded. -/
def calculate_rsi (rnd : ℚ → Dbl) (data : List Dbl) (length window : Int)
    (result : List Dbl) : Option (List Dbl) :=
  if length ≤ window then some result
  else if length < 0 then none
  else do
    let gains := List.replicate length.toNat (Dbl.fin 0)
    let losses := List.replicate length.toNat (Dbl.fin 0)
    let (gains, losses) ← forLoop 1 (fun i (gains, losses) => do
      let a ← readAt data i
      let b ← readAt data (i - 1)
      let change := rd rnd (a - b)
      if Dbl.gt change (Dbl.fin 0) then do
        let gains ← writeAt gains i change
        pure (gains, losses)
      else do
        let losses ← writeAt losses i (-change)
        pure (gains, losses)) (length - 1).toNat (gains, losses)
    let (avg_gain, avg_loss) ← forLoop 1 (fun i (avg_gain, avg_loss) => do
      let g ← readAt gains i
      let l ← readAt losses i
      pure (rd rnd (avg_gain + g), rd rnd (avg_loss + l))) window.toNat
        (Dbl.fin 0, Dbl.fin 0)
    let avg_gain := rd rnd (avg_gain / Dbl.ofInt window)
    let avg_loss := rd rnd (avg_loss / Dbl.ofInt window)
    let (_, result) ← forLoop 0 (fun i ((avg_gain, avg_loss), result) =>
      if i < window then do
        let result ← writeAt result i Dbl.nan
        pure ((avg_gain, avg_loss), result)
      else do
        let (avg_gain, avg_loss) ←
          if i > window then do
            let g ← readAt gains i
            let l ← readAt losses i
            pure (rd rnd (rd rnd (rd rnd (avg_gain * Dbl.ofInt (window - 1)) + g)
                    / Dbl.ofInt window),
                  rd rnd (rd rnd (rd rnd (avg_loss * Dbl.ofInt (window - 1)) + l)
                    / Dbl.ofInt window))
          else pure (avg_gain, avg_loss)
        if Dbl.eq avg_loss (Dbl.fin 0) then do
          let result ← writeAt result i (Dbl.fin 100)
          pure ((avg_gain, avg_loss), result)
        else do
          let rs := rd rnd (avg_gain / avg_loss)
          let result ← writeAt result i
            (rd rnd (Dbl.fin 100 - rd rnd (Dbl.fin 100 / rd rnd (Dbl.fin 1 + rs))))
          pure ((avg_gain, avg_loss), result)) length.toNat ((avg_gain, avg_loss), result)
    pure result

/-- The routine `calculate_stddev`, every operation rounded; `sqrtQ` is the square
root that `std::sqrt` computes on finite values, already rounded. -/
def calculate_stddev (rnd : ℚ → Dbl) (sqrtQ : ℚ → ℚ) (data : List Dbl)
    (length window : Int) (result : List Dbl) : Option (List Dbl) :=
  forLoop 0 (fun i result =>
    if i < window - 1 then
      writeAt result i Dbl.nan
    else do
      let sum ← forLoop 0 (fun j sum => do
        let x ← readAt data (i - j)
        pure (rd rnd (sum + x))) window.toNat (Dbl.fin 0)
      let mean := rd rnd (sum / Dbl.ofInt window)
      let sq_sum ← forLoop 0 (fun j sq_sum => do
        let x ← readAt data (i - j)
        let diff := rd rnd (x - mean)
        pure (rd rnd (sq_sum + rd rnd (diff * diff)))) window.toNat (Dbl.fin 0)
      writeAt result i (Dbl.sqrt sqrtQ (rd rnd (sq_sum / Dbl.ofInt (window - 1)))))
    length.toNat result

/-- The routine `calculate_max_drawdown`, every operation rounded. -/
def calculate_max_drawdown (rnd : ℚ → Dbl) (data : List Dbl) (length : Int)
    (result : List Dbl) : Option (List Dbl) := do
  let (_, result) ← forLoop 0 (fun i (peak, result) => do
    let x ← readAt data i
    let peak := if Dbl.gt x peak then x else peak
    if Dbl.ne peak (Dbl.fin 0) then do
      let result ← writeAt result i (rd rnd (rd rnd (x - peak) / peak))
      pure (peak, result)
    else do
      let result ← writeAt result i (Dbl.fin 0)
      pure (peak, result)) length.toNat (Dbl.fin (-1000000000), result)
  pure result

end Rounded

/-! ## Vocabulary of the statements about the rounded routines -/

/-- What the proofs use of a rounding to nearest: `0`, `1` and `100` are kept, the
rounding is odd, and a value above a number that the rounding keeps is rounded to a
value above that number, or to `+inf`. -/
structure Rounding (rnd : ℚ → Dbl) : Prop where
  zero : rnd 0 = Dbl.fin 0
  one : rnd 1 = Dbl.fin 1
  hundred : rnd 100 = Dbl.fin 100
  neg : ∀ q, rnd (-q) = -(rnd q)
  above : ∀ a q, rnd a = Dbl.fin a → a ≤ q →
    rnd q = Dbl.pinf ∨ ∃ r, rnd q = Dbl.fin r ∧ a ≤ r

namespace Rounded

/-- The value of `sum` in `calculate_sma` and `calculate_stddev` at index `i` once
`data[i], ..., data[i - n + 1]` are added. -/
def backSum (rnd : ℚ → Dbl) (qs : List ℚ) (i : Nat) : Nat → Dbl
  | 0 => Dbl.fin 0
  | n + 1 => rd rnd (backSum rnd qs i n + Dbl.fin (qs.getD (i - n) 0))

/-- The value of `sum` in `calculate_ema` once `data[0], ..., data[n - 1]` are
added. -/
def fwdSum (rnd : ℚ → Dbl) (qs : List ℚ) : Nat → Dbl
  | 0 => Dbl.fin 0
  | n + 1 => rd rnd (fwdSum rnd qs n + Dbl.fin (qs.getD n 0))

/-- The value of `prev_ema` once the iterations `0 .. n-1` of the main loop of
`calculate_ema` are done. -/
def emaState (rnd : ℚ → Dbl) (qs : List ℚ) (W : Nat) : Nat → Dbl
  | 0 => rd rnd (fwdSum rnd qs W / Dbl.ofInt W)
  | n + 1 =>
    if n + 1 ≤ W then emaState rnd qs W n
    else rd rnd (rd rnd (rd rnd (Dbl.fin (qs.getD n 0) - emaState rnd qs W n)
      * rd rnd (Dbl.fin 2 / Dbl.ofInt ((W : Int) + 1))) + emaState rnd qs W n)

/-- The value of `sq_sum` in `calculate_stddev` at index `i`, for the mean `mean`,
once the deviations of `data[i], ..., data[i - n + 1]` are added. -/
def sqSum (rnd : ℚ → Dbl) (qs : List ℚ) (i : Nat) (mean : Dbl) : Nat → Dbl
  | 0 => Dbl.fin 0
  | n + 1 => rd rnd (sqSum rnd qs i mean n
      + rd rnd (rd rnd (Dbl.fin (qs.getD (i - n) 0) - mean)
          * rd rnd (Dbl.fin (qs.getD (i - n) 0) - mean)))

/-- The value `calculate_stddev` writes at an index `i ≥ W - 1`. -/
def stddevCell (rnd : ℚ → Dbl) (sqrtQ : ℚ → ℚ) (qs : List ℚ) (W i : Nat) : Dbl :=
  Dbl.sqrt sqrtQ (rd rnd (sqSum rnd qs i (rd rnd (backSum rnd qs i W / Dbl.ofInt W)) W
    / Dbl.ofInt ((W : Int) - 1)))

/-- The value of `change` in `calculate_rsi` at index `j`. -/
def change (rnd : ℚ → Dbl) (qs : List ℚ) (j : Nat) : Dbl :=
  rd rnd (Dbl.fin (qs.getD j 0) - Dbl.fin (qs.getD (j - 1) 0))

/-- The value `calculate_rsi` leaves in `gains[j]`. -/
def gainAt (rnd : ℚ → Dbl) (qs : List ℚ) (j : Nat) : Dbl :=
  if j = 0 then Dbl.fin 0
  else if Dbl.gt (change rnd qs j) (Dbl.fin 0) then change rnd qs j else Dbl.fin 0

/-- The value `calculate_rsi` leaves in `losses[j]`. -/
def lossAt (rnd : ℚ → Dbl) (qs : List ℚ) (j : Nat) : Dbl :=
  if j = 0 then Dbl.fin 0
  else if Dbl.gt (change rnd qs j) (Dbl.fin 0) then Dbl.fin 0 else -(change rnd qs j)

/-- The vector `gains` (or `losses`) of length `N` once the cells `1 .. n` are
written with `x 1 .. x n`, the others still `0`. -/
def prefixBuf (x : Nat → Dbl) (N n : Nat) : List Dbl :=
  (List.range N).map (fun j => if j ≤ n then x j else Dbl.fin 0)

/-- The sum `x 1 + ... + x n` as the first-average loop of `calculate_rsi` forms
it. -/
def firstSum (rnd : ℚ → Dbl) (x : Nat → Dbl) : Nat → Dbl
  | 0 => Dbl.fin 0
  | n + 1 => rd rnd (firstSum rnd x n + x (n + 1))

/-- The value of `avg_gain` (with `x` the gains) or `avg_loss` (with `x` the losses)
once the iterations `0 .. n-1` of the main loop of `calculate_rsi` are done. -/
def wilder (rnd : ℚ → Dbl) (x : Nat → Dbl) (W : Nat) : Nat → Dbl
  | 0 => rd rnd (firstSum rnd x W / Dbl.ofInt W)
  | n + 1 =>
    if W < n then
      rd rnd (rd rnd (rd rnd (wilder rnd x W n * Dbl.ofInt ((W : Int) - 1)) + x n)
        / Dbl.ofInt W)
    else wilder rnd x W n

/-- The value `calculate_rsi` writes for the averages `ag` and `al`. -/
def rsiCell (rnd : ℚ → Dbl) (ag al : Dbl) : Dbl :=
  if Dbl.eq al (Dbl.fin 0) then Dbl.fin 100
  else rd rnd (Dbl.fin 100 - rd rnd (Dbl.fin 100 / rd rnd (Dbl.fin 1 + rd rnd (ag / al))))

/-- The value `calculate_max_drawdown` writes when the sample is `x` and the peak,
already updated, is `p`. -/
def drawdown (rnd : ℚ → Dbl) (x p : ℚ) : Dbl :=
  if p = 0 then Dbl.fin 0 else rd rnd (rd rnd (Dbl.fin x - Dbl.fin p) / Dbl.fin p)

end Rounded

/-- A double that is `+inf` or a finite value `≥ 0`. -/
def Dbl.NonNeg (v : Dbl) : Prop :=
  v = Dbl.pinf ∨ ∃ q, v = Dbl.fin q ∧ 0 ≤ q

/-- A double that is `NAN`, `+inf` or a finite value `≥ 0`. -/
def Dbl.NonNegOrNan (v : Dbl) : Prop :=
  v = Dbl.nan ∨ Dbl.NonNeg v

/-! # Theorems -/

/-! ## Doubles: arithmetic on finite values -/

namespace Dbl

@[simp] theorem fin_add (a b : ℚ) : fin a + fin b = fin (a + b) := rfl

@[simp] theorem fin_sub (a b : ℚ) : fin a - fin b = fin (a - b) := by
  show fin (a + -b) = fin (a - b)
  rw [sub_eq_add_neg]

@[simp] theorem fin_mul (a b : ℚ) : fin a * fin b = fin (a * b) := rfl

@[simp] theorem fin_neg (a : ℚ) : -fin a = fin (-a) := rfl

theorem fin_div (a b : ℚ) (hb : b ≠ 0) : fin a / fin b = fin (a / b) := by
  show (if b = 0 then ofSign a else fin (a / b)) = fin (a / b)
  rw [if_neg hb]

@[simp] theorem gt_fin (a b : ℚ) : gt (fin a) (fin b) = decide (b < a) := rfl

@[simp] theorem eq_fin (a b : ℚ) : eq (fin a) (fin b) = decide (a = b) := rfl

@[simp] theorem ne_fin (a b : ℚ) : ne (fin a) (fin b) = !decide (a = b) := rfl

end Dbl

/-! ## Buffers and loops: general facts -/

theorem readAt_map (qs : List ℚ) (k : Int) (n : Nat) (hk : k = n) (h : n < qs.length) :
    readAt (qs.map Dbl.fin) k = some (Dbl.fin (qs.getD n 0)) := by
  subst hk
  simp [readAt, List.getD_eq_getElem?_getD, List.getElem?_eq_getElem h]

theorem forLoop_succ {σ : Type} (lo : Int) (body : Int → σ → Option σ) (n : Nat) (s : σ) :
    forLoop lo body (n + 1) s = (forLoop lo body n s).bind (body (lo + n)) := rfl

theorem filled_length (g : Nat → Dbl) (n : Nat) (buf : List Dbl) (h : n ≤ buf.length) :
    (filled g n buf).length = buf.length := by
  simp [filled]; omega

theorem filled_all (g : Nat → Dbl) (buf : List Dbl) :
    filled g buf.length buf = (List.range buf.length).map g := by
  simp [filled]

theorem writeAt_filled (g : Nat → Dbl) (n : Nat) (buf : List Dbl) (h : n < buf.length) :
    writeAt (filled g n buf) (n : Int) (g n) = some (filled g (n + 1) buf) := by
  have hlen : (filled g n buf).length = buf.length := filled_length g n buf (le_of_lt h)
  unfold writeAt
  rw [if_pos ⟨Int.natCast_nonneg n, by simpa [hlen] using h⟩]
  congr 1
  simp only [Int.toNat_ofNat, filled]
  rw [List.set_append_right _ _ (by simp)]
  simp only [List.length_map, List.length_range, Nat.sub_self]
  rw [List.drop_eq_getElem_cons h, List.set_cons_zero, List.range_succ, List.map_append]
  simp

/-- A loop whose iteration `k` only writes `g k` into cell `k` fills the cells
`0 .. n-1` with `g 0 .. g (n-1)`. -/
theorem forLoop_fill (body : Int → List Dbl → Option (List Dbl)) (g : Nat → Dbl) (n : Nat)
    (buf : List Dbl) (hn : n ≤ buf.length)
    (hbody : ∀ k, k < n → ∀ b, body (k : Int) b = writeAt b k (g k)) :
    forLoop 0 body n buf = some (filled g n buf) := by
  induction n with
  | zero => simp [forLoop, filled]
  | succ m ih =>
    rw [forLoop_succ, ih (Nat.le_of_succ_le hn) (fun k hk => hbody k (Nat.lt_succ_of_lt hk))]
    simp only [Option.some_bind, zero_add]
    rw [hbody m (Nat.lt_succ_self m), writeAt_filled g m buf hn]

/-- The same for a loop that carries a state `st k` next to the buffer. -/
theorem forLoop_fill_state {τ : Type} (body : Int → τ × List Dbl → Option (τ × List Dbl))
    (st : Nat → τ) (g : Nat → Dbl) (n : Nat) (buf : List Dbl) (hn : n ≤ buf.length)
    (hbody : ∀ k, k < n → ∀ b,
      body (k : Int) (st k, b) = (writeAt b k (g k)).map (fun b' => (st (k + 1), b'))) :
    forLoop 0 body n (st 0, buf) = some (st n, filled g n buf) := by
  induction n with
  | zero => simp [forLoop, filled]
  | succ m ih =>
    rw [forLoop_succ, ih (Nat.le_of_succ_le hn) (fun k hk => hbody k (Nat.lt_succ_of_lt hk))]
    simp only [Option.some_bind, zero_add]
    rw [hbody m (Nat.lt_succ_self m), writeAt_filled g m buf hn]
    rfl

theorem getElem?_filled_all (g : Nat → Dbl) (buf : List Dbl) (i : Nat) (h : i < buf.length) :
    (filled g buf.length buf)[i]? = some (g i) := by
  rw [filled_all]; simp [h]

/-! ## Sums over a window -/

/-- The loop that sums `data[i - j]` for `j = 0 .. n-1`. -/
theorem backSum_loop (qs : List ℚ) (i n : Nat) (hn : n ≤ i + 1) (hi : i < qs.length) :
    forLoop 0 (fun j sum => do
        let x ← readAt (qs.map Dbl.fin) ((i : Int) - j)
        pure (sum + x)) n (Dbl.fin 0)
      = some (Dbl.fin ((List.range n).map (fun j => qs.getD (i - j) 0)).sum) := by
  induction n with
  | zero => simp [forLoop]
  | succ m ih =>
    rw [forLoop_succ, ih (Nat.le_of_succ_le hn)]
    have hr := readAt_map qs ((i : Int) - (0 + (m : Int))) (i - m) (by omega) (by omega)
    simp only [Option.some_bind, hr, bind, pure, Dbl.fin_add, List.range_succ, List.map_append,
      List.sum_append, List.map_cons, List.map_nil, List.sum_cons, List.sum_nil, add_zero]

theorem backSum_eq_trailing (qs : List ℚ) (i n : Nat) (hn : n ≤ i + 1) (hi : i < qs.length) :
    ((List.range n).map (fun j => qs.getD (i - j) 0)).sum = (trailing qs n i).sum := by
  induction n with
  | zero => simp [trailing]
  | succ m ih =>
    have h1 : i + 1 - (m + 1) = i - m := by omega
    have h2 : i - m + 1 = i + 1 - m := by omega
    have hlt : i - m < qs.length := by omega
    rw [List.range_succ, List.map_append, List.sum_append, ih (Nat.le_of_succ_le hn)]
    simp only [trailing, h1, List.map_cons, List.map_nil, List.sum_cons, List.sum_nil, add_zero]
    rw [List.drop_eq_getElem_cons hlt, List.take_succ_cons, List.sum_cons, h2,
      List.getD_eq_getElem _ _ hlt]
    ring


/-! ## `calculate_sma` -/

/-- The value `calculate_sma` leaves in cell `i`. -/
theorem calculate_sma_eq (qs : List ℚ) (W : Nat) (buf : List Dbl) (hW : 1 ≤ W)
    (hbuf : buf.length = qs.length) :
    calculate_sma (qs.map Dbl.fin) qs.length W buf
      = some ((List.range qs.length).map (fun i =>
          if i + 1 < W then Dbl.nan else Dbl.fin ((trailing qs W i).sum / W))) := by
  unfold calculate_sma
  simp only [Int.toNat_ofNat]
  rw [forLoop_fill _ (fun i =>
    if i + 1 < W then Dbl.nan else Dbl.fin ((trailing qs W i).sum / W)) qs.length buf
    (le_of_eq hbuf.symm), ← hbuf, filled_all]
  intro k hk b
  by_cases h : k + 1 < W
  · rw [if_pos (by omega), if_pos h]
  · have hne : (W : ℚ) ≠ 0 := by positivity
    rw [if_neg (by omega), if_neg h,
      backSum_loop qs k W (by omega) hk, backSum_eq_trailing qs k W (by omega) hk]
    simp only [Option.some_bind, bind, Dbl.ofInt, Int.cast_natCast, Dbl.fin_div _ _ hne]

theorem trailing_length (qs : List ℚ) (W i : Nat) (hW : W ≤ i + 1) (hi : i < qs.length) :
    (trailing qs W i).length = W := by
  simp [trailing]; omega

theorem getElem?_trailing (qs : List ℚ) (W i k : Nat) (hk : k < W) :
    (trailing qs W i)[k]? = qs[i + 1 - W + k]? := by
  simp [trailing, List.getElem?_take, hk]

/-- The loop that sums `data[i]` for `i = 0 .. n-1`. -/
theorem fwdSum_loop (qs : List ℚ) (n : Nat) (hn : n ≤ qs.length) :
    forLoop 0 (fun i sum => do
        let x ← readAt (qs.map Dbl.fin) i
        pure (sum + x)) n (Dbl.fin 0)
      = some (Dbl.fin (qs.take n).sum) := by
  induction n with
  | zero => simp [forLoop]
  | succ m ih =>
    have hm : m < qs.length := hn
    rw [forLoop_succ, ih (Nat.le_of_succ_le hn)]
    have hr := readAt_map qs (0 + (m : Int)) m (by omega) hm
    simp only [Option.some_bind, hr, bind, pure, Dbl.fin_add, List.take_succ,
      List.sum_append, List.getElem?_eq_getElem hm, Option.toList_some, List.sum_cons,
      List.sum_nil, add_zero, List.getD_eq_getElem _ _ hm]

theorem emaState_step (qs : List ℚ) (W n : Nat) (hn : W ≤ n) :
    emaState qs W (n + 1)
      = (qs.getD n 0 - emaState qs W n) * (2 / ((W : ℚ) + 1)) + emaState qs W n := by
  rw [emaState, if_neg (by omega)]

/-- The output of `calculate_ema`, cell by cell. -/
theorem calculate_ema_eq (qs : List ℚ) (W : Nat) (buf : List Dbl) (hW : 1 ≤ W)
    (hWN : W ≤ qs.length) (hbuf : buf.length = qs.length) :
    calculate_ema (qs.map Dbl.fin) qs.length W buf
      = some ((List.range qs.length).map (fun i =>
          if i + 1 < W then Dbl.nan else Dbl.fin (emaState qs W (i + 1)))) := by
  have hne : (W : ℚ) ≠ 0 := by positivity
  have hne1 : (W : ℚ) + 1 ≠ 0 := by positivity
  unfold calculate_ema
  simp only [Int.toNat_ofNat]
  rw [fwdSum_loop qs W hWN]
  simp only [Option.some_bind, bind, Dbl.ofInt, Int.cast_natCast, Dbl.fin_div _ _ hne]
  rw [show (List.take W qs).sum / (W : ℚ) = emaState qs W 0 from rfl,
    forLoop_fill_state _ (fun k => Dbl.fin (emaState qs W k))
    (fun i => if i + 1 < W then Dbl.nan else Dbl.fin (emaState qs W (i + 1)))
    qs.length buf (le_of_eq hbuf.symm)]
  · simp only [Option.some_bind, pure, ← hbuf, filled_all]
  · intro k hk b
    by_cases h1 : k + 1 < W
    · rw [if_pos (by omega), if_pos h1, emaState, if_pos (by omega)]
      cases writeAt b k Dbl.nan <;> rfl
    · by_cases h2 : k + 1 = W
      · rw [if_neg (by omega), if_pos (by omega), if_neg h1, emaState, if_pos (by omega)]
        cases writeAt b k (Dbl.fin (emaState qs W k)) <;> rfl
      · rw [if_neg (by omega), if_neg (by omega), if_neg h1, emaState_step qs W k (by omega),
          readAt_map qs k k rfl hk]
        simp only [Option.some_bind, Int.cast_add, Int.cast_natCast, Int.cast_one,
          Dbl.fin_div _ _ hne1, Dbl.fin_sub, Dbl.fin_mul, Dbl.fin_add]
        cases writeAt b k _ <;> rfl

theorem getElem?_ema (qs : List ℚ) (W i : Nat) (hWi : W ≤ i + 1) (hi : i < qs.length) :
    ((List.range qs.length).map (fun i =>
        if i + 1 < W then Dbl.nan else Dbl.fin (emaState qs W (i + 1))))[i]?
      = some (Dbl.fin (emaState qs W (i + 1))) := by
  simp [hi, Nat.not_lt.mpr hWi]

/-- Claim C2: with `1 ≤ W ≤ N`, `calculate_ema` returns, and for `W - 1 < i < N` the
cells `i - 1` and `i` of its output hold finite values `prev` and `cur` with
`cur = α·qs[i] + (1 - α)·prev`, `α = 2 / (W + 1)`; this is the form
`(qs[i] - prev)·α + prev` that the code computes (exact arithmetic). -/
theorem calculate_ema_recurrence (qs : List ℚ) (W : Nat) (buf : List Dbl) (hW : 1 ≤ W)
    (hWN : W ≤ qs.length) (hbuf : buf.length = qs.length) :
    ∃ out, calculate_ema (qs.map Dbl.fin) qs.length W buf = some out ∧
      ∀ i, W - 1 < i → i < qs.length →
        ∃ prev cur : ℚ, out[i - 1]? = some (Dbl.fin prev) ∧ out[i]? = some (Dbl.fin cur) ∧
          cur = (qs.getD i 0 - prev) * (2 / ((W : ℚ) + 1)) + prev ∧
          cur = 2 / ((W : ℚ) + 1) * qs.getD i 0 + (1 - 2 / ((W : ℚ) + 1)) * prev := by
  refine ⟨_, calculate_ema_eq qs W buf hW hWN hbuf, ?_⟩
  intro i hWi hi
  refine ⟨emaState qs W i, emaState qs W (i + 1), ?_, getElem?_ema qs W i (by omega) hi, ?_, ?_⟩
  · have h := getElem?_ema qs W (i - 1) (by omega) (by omega)
    rwa [show i - 1 + 1 = i by omega] at h
  · exact emaState_step qs W i (by omega)
  · rw [emaState_step qs W i (by omega)]; ring

/-- The hypotheses of `calculate_ema_recurrence` hold for `[0, 10, 11]` with `W = 2`. -/
theorem calculate_ema_recurrence_witness :
    ∃ out, calculate_ema (([0, 10, 11] : List ℚ).map Dbl.fin) ([0, 10, 11] : List ℚ).length
        (2 : Nat) [Dbl.nan, Dbl.nan, Dbl.nan] = some out ∧
      ∀ i, 2 - 1 < i → i < ([0, 10, 11] : List ℚ).length →
        ∃ prev cur : ℚ, out[i - 1]? = some (Dbl.fin prev) ∧ out[i]? = some (Dbl.fin cur) ∧
          cur = (([0, 10, 11] : List ℚ).getD i 0 - prev) * (2 / (((2 : Nat) : ℚ) + 1)) + prev ∧
          cur = 2 / (((2 : Nat) : ℚ) + 1) * ([0, 10, 11] : List ℚ).getD i 0
            + (1 - 2 / (((2 : Nat) : ℚ) + 1)) * prev :=
  calculate_ema_recurrence [0, 10, 11] 2 [Dbl.nan, Dbl.nan, Dbl.nan] (by decide) (by decide)
    (by decide)

/-! ### Seed, monotonicity and bounds of the exponential average -/

/-- In a strictly increasing series an earlier sample is below a later one. -/
theorem getD_lt_of_chain (qs : List ℚ) (hinc : qs.Chain' (· < ·)) (i j : Nat) (hij : i < j)
    (hj : j < qs.length) : qs.getD i 0 < qs.getD j 0 := by
  have hp : qs.Pairwise (· < ·) := List.chain'_iff_pairwise.mp hinc
  rw [List.getD_eq_getElem _ _ (by omega : i < qs.length), List.getD_eq_getElem _ _ hj]
  exact List.pairwise_iff_getElem.mp hp i j (by omega) hj hij

theorem getD_le_of_chain (qs : List ℚ) (hinc : qs.Chain' (· < ·)) (i j : Nat) (hij : i ≤ j)
    (hj : j < qs.length) : qs.getD i 0 ≤ qs.getD j 0 := by
  rcases Nat.eq_or_lt_of_le hij with h | h
  · rw [h]
  · exact le_of_lt (getD_lt_of_chain qs hinc i j h hj)

/-- The output of `calculate_max_drawdown`, cell by cell. -/
theorem calculate_max_drawdown_eq (qs : List ℚ) (buf : List Dbl)
    (hbuf : buf.length = qs.length) :
    calculate_max_drawdown (qs.map Dbl.fin) qs.length buf
      = some ((List.range qs.length).map (fun i =>
          Dbl.fin (drawdown (qs.getD i 0) (peakState qs (i + 1))))) := by
  unfold calculate_max_drawdown
  simp only [Int.toNat_ofNat]
  rw [show (-1000000000 : ℚ) = peakState qs 0 from rfl,
    forLoop_fill_state _ (fun k => Dbl.fin (peakState qs k))
      (fun i => Dbl.fin (drawdown (qs.getD i 0) (peakState qs (i + 1))))
      qs.length buf (le_of_eq hbuf.symm)]
  · simp only [Option.some_bind, bind, pure, ← hbuf, filled_all]
  · intro k hk b
    simp only [bind, pure, readAt_map qs k k rfl hk, Option.some_bind, Dbl.gt_fin]
    have hp : (if decide (peakState qs k < qs.getD k 0) = true then Dbl.fin (qs.getD k 0)
        else Dbl.fin (peakState qs k)) = Dbl.fin (peakState qs (k + 1)) := by
      rw [peakState, apply_ite Dbl.fin]
      simp only [decide_eq_true_eq]
    rw [hp]
    by_cases h0 : peakState qs (k + 1) = 0
    · simp only [Dbl.ne_fin, h0, decide_True, Bool.not_true, drawdown, if_pos]
      cases writeAt b k (Dbl.fin 0) <;> rfl
    · simp only [Dbl.ne_fin, h0, decide_False, Bool.not_false, drawdown, if_neg,
        Dbl.fin_sub, Dbl.fin_div _ _ h0, if_true, not_false_eq_true]
      cases writeAt b k _ <;> rfl

theorem getElem?_drawdown (qs : List ℚ) (i : Nat) (hi : i < qs.length) :
    ((List.range qs.length).map (fun i =>
        Dbl.fin (drawdown (qs.getD i 0) (peakState qs (i + 1)))))[i]?
      = some (Dbl.fin (drawdown (qs.getD i 0) (peakState qs (i + 1)))) := by
  simp [hi]

/-- The peak is at least every sample read so far. -/
theorem le_peakState (qs : List ℚ) (n j : Nat) (hj : j < n) : qs.getD j 0 ≤ peakState qs n := by
  induction n with
  | zero => omega
  | succ m ih =>
    rw [peakState]
    rcases Nat.eq_or_lt_of_le (Nat.le_of_lt_succ hj) with h | h
    · subst h
      split_ifs with hlt
      · exact le_rfl
      · exact not_lt.mp hlt
    · have := ih h
      split_ifs with hlt
      · exact le_of_lt (lt_of_le_of_lt this hlt)
      · exact this

/-- The peak is the initial `-1e9` or one of the samples read so far. -/
theorem peakState_mem (qs : List ℚ) (n : Nat) :
    peakState qs n = -1000000000 ∨ ∃ j, j < n ∧ peakState qs n = qs.getD j 0 := by
  induction n with
  | zero => exact Or.inl rfl
  | succ m ih =>
    rw [peakState]
    split_ifs with hlt
    · exact Or.inr ⟨m, Nat.lt_succ_self m, rfl⟩
    · rcases ih with h | ⟨j, hj, h⟩
      · exact Or.inl h
      · exact Or.inr ⟨j, Nat.lt_succ_of_lt hj, h⟩

/-- Claim C5: when every sample is above the initial peak `-1e9`,
`calculate_max_drawdown` returns, and cell `i` of its output is `0` if `M = 0` and
`(qs[i] - M) / M` otherwise, where `M` is the greatest of `qs[0], ..., qs[i]` (exact
arithmetic).  On `[10, 8, 12, 6]` the output is `[0, -1/5, 0, -1/2]`. -/
theorem calculate_max_drawdown_running_max (qs : List ℚ) (buf : List Dbl)
    (hbuf : buf.length = qs.length) (hbig : ∀ x ∈ qs, (-1000000000 : ℚ) < x) :
    (∃ out, calculate_max_drawdown (qs.map Dbl.fin) qs.length buf = some out ∧
      ∀ i, i < qs.length →
        ∃ M, M ∈ qs.take (i + 1) ∧ (∀ x ∈ qs.take (i + 1), x ≤ M) ∧
          out[i]? = some (Dbl.fin (if M = 0 then 0 else (qs.getD i 0 - M) / M))) ∧
    (∀ buf4 : List Dbl, buf4.length = 4 →
      calculate_max_drawdown ([10, 8, 12, 6].map Dbl.fin) 4 buf4
        = some [Dbl.fin 0, Dbl.fin (-1 / 5), Dbl.fin 0, Dbl.fin (-1 / 2)]) := by
  refine ⟨⟨_, calculate_max_drawdown_eq qs buf hbuf, ?_⟩, ?_⟩
  · intro i hi
    refine ⟨peakState qs (i + 1), ?_, ?_, getElem?_drawdown qs i hi⟩
    · rcases peakState_mem qs (i + 1) with h | ⟨j, hj, h⟩
      · have h0 : qs.getD 0 0 ≤ peakState qs (i + 1) := le_peakState qs (i + 1) 0 (by omega)
        have h1 : (-1000000000 : ℚ) < qs.getD 0 0 := by
          rw [List.getD_eq_getElem _ _ (by omega : 0 < qs.length)]
          exact hbig _ (List.getElem_mem _)
        rw [h] at h0
        exact absurd h1 (not_lt.mpr h0)
      · have hjN : j < qs.length := by omega
        rw [h, List.getD_eq_getElem _ _ hjN, List.mem_take_iff_getElem]
        exact ⟨j, by simp; omega, rfl⟩
    · intro x hx
      obtain ⟨k, hk, rfl⟩ := List.getElem_of_mem hx
      have hk1 : k < i + 1 := by
        have := hk; simp at this; omega
      have hkN : k < qs.length := by omega
      rw [List.getElem_take, ← List.getD_eq_getElem _ 0 hkN]
      exact le_peakState qs (i + 1) k hk1
  · intro buf4 h4
    have h := calculate_max_drawdown_eq [10, 8, 12, 6] buf4 (by simpa using h4)
    rw [show ((([10, 8, 12, 6] : List ℚ).length : Nat) : Int) = 4 from rfl] at h
    rw [h]
    simp [List.range_succ, peakState, drawdown]
    norm_num

/-- The hypotheses of `calculate_max_drawdown_running_max` hold for `[5, 4, 8]`. -/
theorem calculate_max_drawdown_running_max_witness :
    ∃ out, calculate_max_drawdown (([5, 4, 8] : List ℚ).map Dbl.fin)
        ([5, 4, 8] : List ℚ).length [Dbl.nan, Dbl.nan, Dbl.nan] = some out ∧
      ∀ i, i < ([5, 4, 8] : List ℚ).length →
        ∃ M, M ∈ ([5, 4, 8] : List ℚ).take (i + 1) ∧
          (∀ x ∈ ([5, 4, 8] : List ℚ).take (i + 1), x ≤ M) ∧
          out[i]? = some (Dbl.fin
            (if M = 0 then 0 else (([5, 4, 8] : List ℚ).getD i 0 - M) / M)) :=
  (calculate_max_drawdown_running_max [5, 4, 8] [Dbl.nan, Dbl.nan, Dbl.nan] (by decide)
    (by intro x hx; simp at hx; rcases hx with h | h | h <;> rw [h] <;> norm_num)).1

/-- Claim C6 fails as stated: on `[-2, -4]` the running peak is `-2`, and
`calculate_max_drawdown` writes `(-4 - -2) / -2 = 1` at index `1`, which is not
`≤ 0`. -/
theorem calculate_max_drawdown_positive_output :
    calculate_max_drawdown (([-2, -4] : List ℚ).map Dbl.fin) 2 [Dbl.nan, Dbl.nan]
      = some [Dbl.fin 0, Dbl.fin 1] ∧ ¬ ((1 : ℚ) ≤ 0) := by
  refine ⟨?_, by norm_num⟩
  have h := calculate_max_drawdown_eq [-2, -4] [Dbl.nan, Dbl.nan] (by decide)
  rw [show ((([-2, -4] : List ℚ).length : Nat) : Int) = 2 from rfl] at h
  rw [h]
  simp [List.range_succ, peakState, drawdown]
  norm_num

/-- Claim C6, amended: `calculate_max_drawdown` returns, and at every index `i`
that has a sample `qs[j] ≥ 0` at or before it (so that the running peak is not
negative), cell `i` of its output holds a finite value `≤ 0` (exact
arithmetic). -/
theorem calculate_max_drawdown_nonpos (qs : List ℚ) (buf : List Dbl)
    (hbuf : buf.length = qs.length) :
    ∃ out, calculate_max_drawdown (qs.map Dbl.fin) qs.length buf = some out ∧
      ∀ i, i < qs.length → (∃ j, j ≤ i ∧ 0 ≤ qs.getD j 0) →
        ∃ v : ℚ, out[i]? = some (Dbl.fin v) ∧ v ≤ 0 := by
  refine ⟨_, calculate_max_drawdown_eq qs buf hbuf, ?_⟩
  rintro i hi ⟨j, hj, h0⟩
  refine ⟨_, getElem?_drawdown qs i hi, ?_⟩
  have hp : 0 ≤ peakState qs (i + 1) := le_trans h0 (le_peakState qs (i + 1) j (by omega))
  have hx : qs.getD i 0 ≤ peakState qs (i + 1) := le_peakState qs (i + 1) i (by omega)
  unfold drawdown
  split_ifs with h
  · exact le_rfl
  · exact div_nonpos_of_nonpos_of_nonneg (by linarith) hp

/-- The hypothesis of `calculate_max_drawdown_nonpos` holds for `[10, 8, 12, 6]`. -/
theorem calculate_max_drawdown_nonpos_witness :
    ∃ out, calculate_max_drawdown (([10, 8, 12, 6] : List ℚ).map Dbl.fin)
        ([10, 8, 12, 6] : List ℚ).length [Dbl.nan, Dbl.nan, Dbl.nan, Dbl.nan] = some out ∧
      ∀ i, i < ([10, 8, 12, 6] : List ℚ).length →
        (∃ j, j ≤ i ∧ 0 ≤ ([10, 8, 12, 6] : List ℚ).getD j 0) →
        ∃ v : ℚ, out[i]? = some (Dbl.fin v) ∧ v ≤ 0 :=
  calculate_max_drawdown_nonpos [10, 8, 12, 6] [Dbl.nan, Dbl.nan, Dbl.nan, Dbl.nan]
    (by decide)

/-- Claim C7 at a series that starts below `-1e9`: `[-3e9, -2e9]` is strictly
increasing, the peak stays at its initial `-1e9`, and `calculate_max_drawdown`
writes `2` and `1` where the claim has `0` and `0`. -/
theorem calculate_max_drawdown_below_initial_peak :
    ([-3000000000, -2000000000] : List ℚ).Chain' (· < ·) ∧
    calculate_max_drawdown (([-3000000000, -2000000000] : List ℚ).map Dbl.fin) 2
      [Dbl.nan, Dbl.nan] = some [Dbl.fin 2, Dbl.fin 1] := by
  refine ⟨by norm_num, ?_⟩
  have h := calculate_max_drawdown_eq [-3000000000, -2000000000] [Dbl.nan, Dbl.nan] (by decide)
  rw [show ((([-3000000000, -2000000000] : List ℚ).length : Nat) : Int) = 2 from rfl] at h
  rw [h]
  simp [List.range_succ, peakState, drawdown]
  norm_num

/-- On a strictly increasing series whose first sample is at least the initial
peak `-1e9`, `calculate_max_drawdown` writes `0` in every cell. -/
theorem calculate_max_drawdown_increasing (qs : List ℚ) (buf : List Dbl)
    (hbuf : buf.length = qs.length) (hinc : qs.Chain' (· < ·))
    (h0 : (-1000000000 : ℚ) ≤ qs.getD 0 0) :
    ∃ out, calculate_max_drawdown (qs.map Dbl.fin) qs.length buf = some out ∧
      ∀ i, i < qs.length → out[i]? = some (Dbl.fin 0) := by
  refine ⟨_, calculate_max_drawdown_eq qs buf hbuf, ?_⟩
  intro i hi
  rw [getElem?_drawdown qs i hi]
  have hx : qs.getD i 0 ≤ peakState qs (i + 1) := le_peakState qs (i + 1) i (by omega)
  have hp : peakState qs (i + 1) = qs.getD i 0 := by
    rcases peakState_mem qs (i + 1) with h | ⟨j, hj, h⟩
    · have : qs.getD 0 0 ≤ qs.getD i 0 := getD_le_of_chain qs hinc 0 i (Nat.zero_le i) hi
      rw [h] at hx ⊢
      linarith
    · have : qs.getD j 0 ≤ qs.getD i 0 := getD_le_of_chain qs hinc j i (by omega) hi
      rw [h] at hx ⊢
      linarith
  unfold drawdown
  rw [hp]
  split_ifs <;> simp

/-! ## `calculate_stddev` -/

/-- The loop that sums the squares of `data[i - j] - m` for `j = 0 .. n-1`. -/
theorem sqSum_loop (qs : List ℚ) (m : ℚ) (i n : Nat) (hn : n ≤ i + 1) (hi : i < qs.length) :
    forLoop 0 (fun j sq_sum =>
        (readAt (qs.map Dbl.fin) ((i : Int) - j)).bind fun x =>
          some (sq_sum + (x - Dbl.fin m) * (x - Dbl.fin m))) n (Dbl.fin 0)
      = some (Dbl.fin ((List.range n).map (fun j => (qs.getD (i - j) 0 - m) ^ 2)).sum) := by
  induction n with
  | zero => simp [forLoop]
  | succ k ih =>
    rw [forLoop_succ, ih (Nat.le_of_succ_le hn)]
    have hr := readAt_map qs ((i : Int) - (0 + (k : Int))) (i - k) (by omega) (by omega)
    simp only [Option.some_bind, hr, Dbl.fin_sub, Dbl.fin_mul, Dbl.fin_add, List.range_succ,
      List.map_append, List.sum_append, List.map_cons, List.map_nil, List.sum_cons, List.sum_nil,
      add_zero, pow_two]

theorem backMapSum_eq_trailing (qs : List ℚ) (f : ℚ → ℚ) (i n : Nat) (hn : n ≤ i + 1)
    (hi : i < qs.length) :
    ((List.range n).map (fun j => f (qs.getD (i - j) 0))).sum
      = ((trailing qs n i).map f).sum := by
  induction n with
  | zero => simp [trailing]
  | succ m ih =>
    have h1 : i + 1 - (m + 1) = i - m := by omega
    have h2 : i - m + 1 = i + 1 - m := by omega
    have hlt : i - m < qs.length := by omega
    rw [List.range_succ, List.map_append, List.sum_append, ih (Nat.le_of_succ_le hn)]
    simp only [trailing, h1, List.map_cons, List.map_nil, List.sum_cons, List.sum_nil, add_zero]
    rw [List.drop_eq_getElem_cons hlt, List.take_succ_cons, List.map_cons, List.sum_cons, h2,
      List.getD_eq_getElem _ _ hlt]
    ring

theorem sum_sq_nonneg (l : List ℚ) (m : ℚ) : 0 ≤ (l.map (fun x => (x - m) ^ 2)).sum := by
  apply List.sum_nonneg
  intro y hy
  obtain ⟨x, _, rfl⟩ := List.mem_map.mp hy
  positivity

/-- The output of `calculate_stddev`, cell by cell. -/
theorem calculate_stddev_eq (sqrtQ : ℚ → ℚ) (qs : List ℚ) (W : Nat) (buf : List Dbl)
    (hW : 2 ≤ W) (hbuf : buf.length = qs.length) :
    calculate_stddev sqrtQ (qs.map Dbl.fin) qs.length W buf
      = some ((List.range qs.length).map (fun i =>
          if i + 1 < W then Dbl.nan
          else Dbl.fin (sqrtQ (((trailing qs W i).map
            (fun x => (x - (trailing qs W i).sum / W) ^ 2)).sum / ((W : ℚ) - 1))))) := by
  have hne : (W : ℚ) ≠ 0 := by positivity
  have hW2 : (2 : ℚ) ≤ W := by exact_mod_cast hW
  have hne1 : (W : ℚ) - 1 ≠ 0 := by linarith
  unfold calculate_stddev
  simp only [Int.toNat_ofNat]
  rw [forLoop_fill _ (fun i =>
      if i + 1 < W then Dbl.nan
      else Dbl.fin (sqrtQ (((trailing qs W i).map
        (fun x => (x - (trailing qs W i).sum / W) ^ 2)).sum / ((W : ℚ) - 1))))
    qs.length buf (le_of_eq hbuf.symm), ← hbuf, filled_all]
  intro k hk b
  by_cases h : k + 1 < W
  · rw [if_pos (by omega), if_pos h]
  · rw [if_neg (by omega), if_neg h,
      backSum_loop qs k W (by omega) hk, backSum_eq_trailing qs k W (by omega) hk]
    simp only [Option.some_bind, bind, pure, Dbl.ofInt, Int.cast_natCast, Dbl.fin_div _ _ hne]
    rw [sqSum_loop qs _ k W (by omega) hk,
      backMapSum_eq_trailing qs (fun x => (x - (trailing qs W k).sum / W) ^ 2) k W (by omega) hk]
    simp only [Option.some_bind, Int.cast_sub, Int.cast_natCast, Int.cast_one,
      Dbl.fin_div _ _ hne1]
    have hv : ¬ (((trailing qs W k).map
        (fun x => (x - (trailing qs W k).sum / W) ^ 2)).sum / ((W : ℚ) - 1) < 0) := by
      apply not_lt.mpr
      apply div_nonneg (sum_sq_nonneg _ _)
      linarith
    simp only [Dbl.sqrt, if_neg hv]

theorem gainAt_zero (qs : List ℚ) : gainAt qs 0 = 0 := by simp [gainAt]

theorem lossAt_zero (qs : List ℚ) : lossAt qs 0 = 0 := by simp [lossAt]

theorem gainAt_eq_max (qs : List ℚ) (j : Nat) :
    gainAt qs j = max (qs.getD j 0 - qs.getD (j - 1) 0) 0 := by
  unfold gainAt
  split_ifs with h
  · rw [max_eq_left (le_of_lt h)]
  · rw [max_eq_right (not_lt.mp h)]

theorem lossAt_eq_max (qs : List ℚ) (j : Nat) :
    lossAt qs j = max (qs.getD (j - 1) 0 - qs.getD j 0) 0 := by
  unfold lossAt
  split_ifs with h
  · rw [max_eq_right (by linarith)]
  · rw [max_eq_left (by linarith)]; ring

theorem gainAt_nonneg (qs : List ℚ) (j : Nat) : 0 ≤ gainAt qs j := by
  rw [gainAt_eq_max]; exact le_max_right _ _

theorem lossAt_nonneg (qs : List ℚ) (j : Nat) : 0 ≤ lossAt qs j := by
  rw [lossAt_eq_max]; exact le_max_right _ _

theorem prefixBuf_length (x : Nat → ℚ) (N n : Nat) : (prefixBuf x N n).length = N := by
  simp [prefixBuf]

theorem prefixBuf_zero (x : Nat → ℚ) (N : Nat) (hx : x 0 = 0) :
    prefixBuf x N 0 = List.replicate N (Dbl.fin 0) := by
  apply List.ext_getElem
  · simp [prefixBuf]
  · intro k h1 h2
    simp only [prefixBuf, List.getElem_map, List.getElem_range, List.getElem_replicate]
    by_cases hk : k ≤ 0
    · rw [if_pos hk, Nat.le_zero.mp hk, hx]
    · rw [if_neg hk]

theorem prefixBuf_set (x : Nat → ℚ) (N n : Nat) :
    (prefixBuf x N n).set (n + 1) (Dbl.fin (x (n + 1))) = prefixBuf x N (n + 1) := by
  apply List.ext_getElem
  · simp [prefixBuf]
  · intro k h1 h2
    simp only [prefixBuf, List.getElem_set, List.getElem_map, List.getElem_range]
    by_cases hk : n + 1 = k
    · subst hk; simp
    · rw [if_neg hk]
      by_cases hkn : k ≤ n
      · rw [if_pos hkn, if_pos (by omega)]
      · rw [if_neg hkn, if_neg (by omega)]

theorem prefixBuf_succ_of_zero (x : Nat → ℚ) (N n : Nat) (hx : x (n + 1) = 0) :
    prefixBuf x N (n + 1) = prefixBuf x N n := by
  apply List.ext_getElem
  · simp [prefixBuf]
  · intro k h1 h2
    simp only [prefixBuf, List.getElem_map, List.getElem_range]
    by_cases hk : k ≤ n
    · rw [if_pos hk, if_pos (by omega)]
    · rw [if_neg hk]
      by_cases hk1 : k ≤ n + 1
      · rw [if_pos hk1, show k = n + 1 by omega, hx]
      · rw [if_neg hk1]

theorem readAt_prefixBuf (x : Nat → ℚ) (N n : Nat) (k : Int) (j : Nat) (hk : k = j)
    (hjn : j ≤ n) (hjN : j < N) : readAt (prefixBuf x N n) k = some (Dbl.fin (x j)) := by
  subst hk
  simp [readAt, prefixBuf, hjN, hjn]

theorem writeAt_prefixBuf (x : Nat → ℚ) (N n : Nat) (k : Int) (hk : k = ((n + 1 : Nat) : Int))
    (hn : n + 1 < N) :
    writeAt (prefixBuf x N n) k (Dbl.fin (x (n + 1))) = some (prefixBuf x N (n + 1)) := by
  subst hk
  unfold writeAt
  rw [if_pos ⟨Int.natCast_nonneg _, by simpa [prefixBuf_length] using hn⟩, Int.toNat_ofNat,
    prefixBuf_set x N n]

/-- A loop whose iteration `k` takes the state `st k` to the state `st (k + 1)`. -/
theorem forLoop_eq_of_step {σ : Type} (lo : Int) (body : Int → σ → Option σ) (st : Nat → σ)
    (n : Nat) (hstep : ∀ k, k < n → body (lo + k) (st k) = some (st (k + 1))) :
    forLoop lo body n (st 0) = some (st n) := by
  induction n with
  | zero => rfl
  | succ m ih =>
    rw [forLoop_succ, ih (fun k hk => hstep k (Nat.lt_succ_of_lt hk))]
    exact hstep m (Nat.lt_succ_self m)

theorem wilder_nonneg (x : Nat → ℚ) (W : Nat) (hW : 1 ≤ W) (hx : ∀ j, 0 ≤ x j) (n : Nat) :
    0 ≤ wilder x W n := by
  have hW1 : (1 : ℚ) ≤ W := by exact_mod_cast hW
  induction n with
  | zero =>
    rw [wilder]
    apply div_nonneg _ (by positivity)
    apply List.sum_nonneg
    intro y hy
    obtain ⟨j, _, rfl⟩ := List.mem_map.mp hy
    exact hx _
  | succ m ih =>
    rw [wilder]
    split_ifs
    · apply div_nonneg _ (by positivity)
      have := hx m
      nlinarith
    · exact ih

theorem wilder_first (x : Nat → ℚ) (W n : Nat) (hn : n ≤ W + 1) :
    wilder x W n = ((List.range W).map (fun j => x (j + 1))).sum / W := by
  induction n with
  | zero => rfl
  | succ m ih => rw [wilder, if_neg (by omega), ih (by omega)]

theorem wilder_keep (x : Nat → ℚ) (W n : Nat) (hn : n ≤ W) :
    wilder x W (n + 1) = wilder x W n := by
  rw [wilder, if_neg (by omega)]

theorem wilder_step (x : Nat → ℚ) (W n : Nat) (hn : W < n) :
    wilder x W (n + 1) = (wilder x W n * ((W : ℚ) - 1) + x n) / W := by
  rw [wilder, if_pos hn]

/-- The last step of an iteration of the main loop of `calculate_rsi`. -/
theorem rsi_write (ag al : ℚ) (hag : 0 ≤ ag) (hal : 0 ≤ al) (b : List Dbl) (k : Int) :
    (if Dbl.eq (Dbl.fin al) (Dbl.fin 0) = true then
        (writeAt b k (Dbl.fin 100)).bind fun r => some ((Dbl.fin ag, Dbl.fin al), r)
      else
        (writeAt b k (Dbl.fin 100 - Dbl.fin 100 / (Dbl.fin 1 + Dbl.fin ag / Dbl.fin al))).bind
          fun r => some ((Dbl.fin ag, Dbl.fin al), r))
      = (writeAt b k (Dbl.fin (rsiValue ag al))).map
          (fun b' => ((Dbl.fin ag, Dbl.fin al), b')) := by
  unfold rsiValue
  by_cases h : al = 0
  · simp only [Dbl.eq_fin, h, decide_True, if_true]
    cases writeAt b k (Dbl.fin 100) <;> rfl
  · have hpos : 0 < al := lt_of_le_of_ne hal (Ne.symm h)
    have hrs : 0 ≤ ag / al := div_nonneg hag hal
    have h1 : (1 : ℚ) + ag / al ≠ 0 := by linarith
    simp only [Dbl.eq_fin, h, decide_False, if_false, Dbl.fin_div _ _ h, Dbl.fin_add,
      Dbl.fin_div _ _ h1, Dbl.fin_sub, Bool.false_eq_true]
    cases writeAt b k _ <;> rfl

/-- The output of `calculate_rsi`, cell by cell. -/
theorem calculate_rsi_eq (qs : List ℚ) (W : Nat) (buf : List Dbl) (hW : 1 ≤ W)
    (hWN : W < qs.length) (hbuf : buf.length = qs.length) :
    calculate_rsi (qs.map Dbl.fin) qs.length W buf
      = some ((List.range qs.length).map (fun i =>
          if i < W then Dbl.nan
          else Dbl.fin (rsiValue (wilder (gainAt qs) W (i + 1)) (wilder (lossAt qs) W (i + 1))))) := by
  have hne : (W : ℚ) ≠ 0 := by positivity
  have hN1 : ((qs.length : Int) - 1).toNat = qs.length - 1 := by omega
  have hinit : (List.replicate qs.length (Dbl.fin 0), List.replicate qs.length (Dbl.fin 0))
      = ((fun n => (prefixBuf (gainAt qs) qs.length n, prefixBuf (lossAt qs) qs.length n)) 0) := by
    simp only [prefixBuf_zero _ _ (gainAt_zero qs), prefixBuf_zero _ _ (lossAt_zero qs)]
  unfold calculate_rsi
  rw [if_neg (by omega), if_neg (by omega)]
  simp only [Int.toNat_ofNat, bind, pure, hN1]
  rw [hinit, forLoop_eq_of_step 1 _
    (fun n => (prefixBuf (gainAt qs) qs.length n, prefixBuf (lossAt qs) qs.length n))
    (qs.length - 1)]
  · simp only [Option.some_bind]
    rw [show ((Dbl.fin 0, Dbl.fin 0) : Dbl × Dbl)
        = (fun n => (Dbl.fin ((List.range n).map (fun j => gainAt qs (j + 1))).sum,
            Dbl.fin ((List.range n).map (fun j => lossAt qs (j + 1))).sum)) 0 from rfl,
      forLoop_eq_of_step 1 _
        (fun n => (Dbl.fin ((List.range n).map (fun j => gainAt qs (j + 1))).sum,
            Dbl.fin ((List.range n).map (fun j => lossAt qs (j + 1))).sum)) W]
    · simp only [Option.some_bind, Dbl.ofInt, Int.cast_natCast, Dbl.fin_div _ _ hne]
      rw [show (((List.range W).map (fun j => gainAt qs (j + 1))).sum / (W : ℚ))
            = wilder (gainAt qs) W 0 from rfl,
        show (((List.range W).map (fun j => lossAt qs (j + 1))).sum / (W : ℚ))
            = wilder (lossAt qs) W 0 from rfl,
        forLoop_fill_state _
          (fun k => (Dbl.fin (wilder (gainAt qs) W k), Dbl.fin (wilder (lossAt qs) W k)))
          (fun i => if i < W then Dbl.nan
            else Dbl.fin (rsiValue (wilder (gainAt qs) W (i + 1)) (wilder (lossAt qs) W (i + 1))))
          qs.length buf (le_of_eq hbuf.symm)]
      · simp only [Option.some_bind, ← hbuf, filled_all]
      · intro k hk b
        have hag := wilder_nonneg (gainAt qs) W hW (gainAt_nonneg qs) (k + 1)
        have hal := wilder_nonneg (lossAt qs) W hW (lossAt_nonneg qs) (k + 1)
        by_cases h1 : k < W
        · rw [if_pos (by omega), if_pos h1, wilder_keep _ W k (by omega),
            wilder_keep _ W k (by omega)]
          cases writeAt b k Dbl.nan <;> rfl
        · rw [if_neg (by omega), if_neg h1]
          by_cases h2 : W < k
          · have hg := readAt_prefixBuf (gainAt qs) qs.length (qs.length - 1) (k : Int) k rfl
              (by omega) (by omega)
            have hl := readAt_prefixBuf (lossAt qs) qs.length (qs.length - 1) (k : Int) k rfl
              (by omega) (by omega)
            rw [if_pos (by omega)]
            simp only [hg, hl, Option.some_bind, Dbl.ofInt, Int.cast_sub, Int.cast_natCast,
              Int.cast_one, Dbl.fin_mul, Dbl.fin_add, Dbl.fin_div _ _ hne]
            rw [← wilder_step (gainAt qs) W k h2, ← wilder_step (lossAt qs) W k h2]
            exact rsi_write _ _ hag hal b k
          · rw [if_neg (by omega)]
            simp only [Option.some_bind]
            rw [← wilder_keep (gainAt qs) W k (by omega), ← wilder_keep (lossAt qs) W k (by omega)]
            exact rsi_write _ _ hag hal b k
    · intro k hk
      have hg := readAt_prefixBuf (gainAt qs) qs.length (qs.length - 1) (1 + (k : Int)) (k + 1)
        (by omega) (by omega) (by omega)
      have hl := readAt_prefixBuf (lossAt qs) qs.length (qs.length - 1) (1 + (k : Int)) (k + 1)
        (by omega) (by omega) (by omega)
      simp only [hg, hl, Option.some_bind, Dbl.fin_add, List.range_succ, List.map_append,
        List.sum_append, List.map_cons, List.map_nil, List.sum_cons, List.sum_nil, add_zero]
  · intro k hk
    have hr1 := readAt_map qs (1 + (k : Int)) (k + 1) (by omega) (by omega)
    have hr2 := readAt_map qs (1 + (k : Int) - 1) k (by omega) (by omega)
    simp only [hr1, hr2, Option.some_bind, Dbl.fin_sub, Dbl.gt_fin, decide_eq_true_eq, Dbl.fin_neg]
    have hch : qs.getD (k + 1) 0 - qs.getD (k + 1 - 1) 0 = qs.getD (k + 1) 0 - qs.getD k 0 := by
      rw [Nat.add_sub_cancel]
    by_cases hpos : 0 < qs.getD (k + 1) 0 - qs.getD k 0
    · have hg : gainAt qs (k + 1) = qs.getD (k + 1) 0 - qs.getD k 0 := by
        rw [gainAt, hch, if_pos hpos]
      have hl : lossAt qs (k + 1) = 0 := by rw [lossAt, hch, if_pos hpos]
      rw [if_pos hpos, ← hg,
        writeAt_prefixBuf (gainAt qs) qs.length k (1 + (k : Int)) (by omega) (by omega),
        prefixBuf_succ_of_zero (lossAt qs) qs.length k hl]
      rfl
    · have hg : gainAt qs (k + 1) = 0 := by rw [gainAt, hch, if_neg hpos]
      have hl : lossAt qs (k + 1) = -(qs.getD (k + 1) 0 - qs.getD k 0) := by
        rw [lossAt, hch, if_neg hpos]
      rw [if_neg hpos, ← hl,
        writeAt_prefixBuf (lossAt qs) qs.length k (1 + (k : Int)) (by omega) (by omega),
        prefixBuf_succ_of_zero (gainAt qs) qs.length k hg]
      rfl

theorem lossAt_eq_lossSpec (qs : List ℚ) : lossAt qs = lossSpec qs :=
  funext (fun j => lossAt_eq_max qs j)

theorem getElem?_rsi (qs : List ℚ) (W i : Nat) (hWi : W ≤ i) (hi : i < qs.length) :
    ((List.range qs.length).map (fun i =>
        if i < W then Dbl.nan
        else Dbl.fin (rsiValue (wilder (gainAt qs) W (i + 1)) (wilder (lossAt qs) W (i + 1)))))[i]?
      = some (Dbl.fin
          (rsiValue (wilder (gainAt qs) W (i + 1)) (wilder (lossAt qs) W (i + 1)))) := by
  simp [hi, Nat.not_lt.mpr hWi]

theorem rsiValue_bounds (ag al : ℚ) (hag : 0 ≤ ag) (hal : 0 ≤ al) :
    0 ≤ rsiValue ag al ∧ rsiValue ag al ≤ 100 := by
  unfold rsiValue
  split_ifs with h
  · constructor <;> norm_num
  · have hpos : 0 < al := lt_of_le_of_ne hal (Ne.symm h)
    have hrs : 0 ≤ ag / al := div_nonneg hag hal
    have h1 : (0 : ℚ) < 1 + ag / al := by linarith
    have hq : 100 / (1 + ag / al) ≤ 100 := by
      rw [div_le_iff₀ h1]; nlinarith
    have hq0 : 0 < 100 / (1 + ag / al) := by positivity
    constructor <;> linarith

theorem rsiValue_eq_hundred_iff (ag al : ℚ) (hag : 0 ≤ ag) (hal : 0 ≤ al) :
    rsiValue ag al = 100 ↔ al = 0 := by
  unfold rsiValue
  constructor
  · intro h
    by_contra hne
    rw [if_neg hne] at h
    have hpos : 0 < al := lt_of_le_of_ne hal (Ne.symm hne)
    have hrs : 0 ≤ ag / al := div_nonneg hag hal
    have hq0 : 0 < 100 / (1 + ag / al) := by positivity
    linarith
  · intro h
    rw [if_pos h]

/-- In exact arithmetic, with `1 ≤ W < N`, `calculate_rsi` returns, and for
`W ≤ i < N` cell `i` of its output holds a finite value `v` with `0 ≤ v ≤ 100`. -/
theorem calculate_rsi_bounds_exact (qs : List ℚ) (W : Nat) (buf : List Dbl) (hW : 1 ≤ W)
    (hWN : W < qs.length) (hbuf : buf.length = qs.length) :
    ∃ out, calculate_rsi (qs.map Dbl.fin) qs.length W buf = some out ∧
      ∀ i, W ≤ i → i < qs.length →
        ∃ v : ℚ, out[i]? = some (Dbl.fin v) ∧ 0 ≤ v ∧ v ≤ 100 := by
  refine ⟨_, calculate_rsi_eq qs W buf hW hWN hbuf, ?_⟩
  intro i hWi hi
  exact ⟨_, getElem?_rsi qs W i hWi hi,
    rsiValue_bounds _ _ (wilder_nonneg _ W hW (gainAt_nonneg qs) _)
      (wilder_nonneg _ W hW (lossAt_nonneg qs) _)⟩


/-- The first average of non-negative values is `0` exactly when they all are. -/
theorem first_average_eq_zero_iff (x : Nat → ℚ) (hx : ∀ j, 0 ≤ x j) (W : Nat) (hW : 1 ≤ W) :
    ((List.range W).map (fun j => x (j + 1))).sum / (W : ℚ) = 0
      ↔ ∀ j, 1 ≤ j → j ≤ W → x j = 0 := by
  have hne : (W : ℚ) ≠ 0 := by positivity
  rw [div_eq_zero_iff, or_iff_left hne]
  constructor
  · intro h j h1 hj
    have hmem : x j ∈ (List.range W).map (fun j => x (j + 1)) :=
      List.mem_map.mpr ⟨j - 1, by simp; omega, by rw [show j - 1 + 1 = j by omega]⟩
    refine List.all_zero_of_le_zero_le_of_sum_eq_zero ?_ h hmem
    intro y hy
    obtain ⟨k, _, rfl⟩ := List.mem_map.mp hy
    exact hx _
  · intro h
    apply List.sum_eq_zero
    intro y hy
    obtain ⟨k, hk, rfl⟩ := List.mem_map.mp hy
    exact h (k + 1) (by omega) (by simpa using hk)

/-- With a window of at least two samples, the smoothed average of non-negative
values is `0` exactly when all the values so far are. -/
theorem wilder_eq_zero_iff (x : Nat → ℚ) (hx : ∀ j, 0 ≤ x j) (W : Nat) (hW : 2 ≤ W) (i : Nat)
    (hWi : W ≤ i) : wilder x W (i + 1) = 0 ↔ ∀ j, 1 ≤ j → j ≤ i → x j = 0 := by
  have hW2 : (2 : ℚ) ≤ W := by exact_mod_cast hW
  have hne : (W : ℚ) ≠ 0 := by positivity
  induction i, hWi using Nat.le_induction with
  | base =>
    rw [wilder_first x W (W + 1) le_rfl]
    exact first_average_eq_zero_iff x hx W (by omega)
  | succ m hm ih =>
    have hw := wilder_nonneg x W (by omega) hx (m + 1)
    have hxm := hx (m + 1)
    rw [wilder_step x W (m + 1) (by omega), div_eq_zero_iff, or_iff_left hne]
    constructor
    · intro h j h1 hj
      have h0 : wilder x W (m + 1) = 0 := by nlinarith
      rcases Nat.eq_or_lt_of_le hj with he | hl
      · rw [he]; nlinarith
      · exact ih.mp h0 j h1 (by omega)
    · intro h
      rw [ih.mpr (fun j h1 hj => h j h1 (by omega)), h (m + 1) (by omega) le_rfl]
      ring

/-- With a window of one sample the smoothed average is the last value. -/
theorem wilder_one (x : Nat → ℚ) (i : Nat) (hi : 1 ≤ i) : wilder x 1 (i + 1) = x i := by
  rcases Nat.eq_or_lt_of_le hi with he | hl
  · rw [← he, wilder_first x 1 2 le_rfl]
    simp [List.range_succ]
  · rw [wilder_step x 1 i hl]
    simp

theorem lossSpec_eq_zero_iff (qs : List ℚ) (j : Nat) :
    lossSpec qs j = 0 ↔ qs.getD (j - 1) 0 ≤ qs.getD j 0 := by
  unfold lossSpec
  constructor
  · intro h
    have := le_max_left (qs.getD (j - 1) 0 - qs.getD j 0) 0
    linarith
  · intro h
    exact max_eq_right (by linarith)

/-- Claim C12 fails as stated: on `[2, 1, 3]` with `W = 1 < 3`, `calculate_rsi`
writes exactly `100` at index `2` although `loss[1] = max(2 - 1, 0) = 1` is not
`0`; it does so in exact arithmetic and in binary64 alike. -/
theorem calculate_rsi_saturation_fails :
    calculate_rsi (([2, 1, 3] : List ℚ).map Dbl.fin) 3 1 [Dbl.nan, Dbl.nan, Dbl.nan]
      = some [Dbl.nan, Dbl.fin 0, Dbl.fin 100] ∧
    ¬ (∀ j, 1 ≤ j → j ≤ 2 → lossSpec [2, 1, 3] j = 0) ∧
    Rounded.calculate_rsi round64 (([2, 1, 3] : List ℚ).map Dbl.fin) 3 1
        [Dbl.nan, Dbl.nan, Dbl.nan]
      = some [Dbl.nan, Dbl.fin 0, Dbl.fin 100] := by
  refine ⟨?_, ?_, by decide!⟩
  · have h := calculate_rsi_eq [2, 1, 3] 1 [Dbl.nan, Dbl.nan, Dbl.nan] (by decide) (by decide)
      (by decide)
    rw [show ((([2, 1, 3] : List ℚ).length : Nat) : Int) = 3 from rfl,
      show ((1 : Nat) : Int) = 1 from rfl] at h
    rw [h]
    simp [List.range_succ, wilder, gainAt, lossAt, rsiValue]
    norm_num
  · intro h
    have := h 1 le_rfl (by decide)
    simp [lossSpec] at this
    norm_num at this

/-- In exact arithmetic, with `1 ≤ W < N`, `calculate_rsi` returns, and for
`W ≤ i < N`: cell `i` is exactly `100` when `loss[j] = 0` for every `1 ≤ j ≤ i`;
with `2 ≤ W` the converse holds too, so that cell `i` is `100` if and only if all the
losses up to `i` are `0`; with `W = 1` the smoothing keeps no history and cell `i` is
`100` if and only if `loss[i] = 0`. -/
theorem calculate_rsi_saturation_exact (qs : List ℚ) (W : Nat) (buf : List Dbl) (hW : 1 ≤ W)
    (hWN : W < qs.length) (hbuf : buf.length = qs.length) :
    ∃ out, calculate_rsi (qs.map Dbl.fin) qs.length W buf = some out ∧
      ∀ i, W ≤ i → i < qs.length →
        ((∀ j, 1 ≤ j → j ≤ i → lossSpec qs j = 0) → out[i]? = some (Dbl.fin 100)) ∧
        (2 ≤ W → out[i]? = some (Dbl.fin 100) → ∀ j, 1 ≤ j → j ≤ i → lossSpec qs j = 0) ∧
        (W = 1 → (out[i]? = some (Dbl.fin 100) ↔ lossSpec qs i = 0)) := by
  refine ⟨_, calculate_rsi_eq qs W buf hW hWN hbuf, ?_⟩
  intro i hWi hi
  have hag := wilder_nonneg (gainAt qs) W hW (gainAt_nonneg qs) (i + 1)
  have hal := wilder_nonneg (lossAt qs) W hW (lossAt_nonneg qs) (i + 1)
  have hiff : ((List.range qs.length).map (fun i =>
        if i < W then Dbl.nan
        else Dbl.fin (rsiValue (wilder (gainAt qs) W (i + 1)) (wilder (lossAt qs) W (i + 1)))))[i]?
      = some (Dbl.fin 100) ↔ wilder (lossAt qs) W (i + 1) = 0 := by
    rw [getElem?_rsi qs W i hWi hi, ← rsiValue_eq_hundred_iff _ _ hag hal]
    constructor
    · intro h; injection h with h; injection h
    · intro h; rw [h]
  rw [hiff, ← lossAt_eq_lossSpec]
  refine ⟨?_, ?_, ?_⟩
  · intro h
    by_cases h2 : 2 ≤ W
    · exact (wilder_eq_zero_iff _ (lossAt_nonneg qs) W h2 i hWi).mpr h
    · have h1 : W = 1 := by omega
      subst h1
      rw [wilder_one _ i hWi]
      exact h i hWi le_rfl
  · intro h2 h
    exact (wilder_eq_zero_iff _ (lossAt_nonneg qs) W h2 i hWi).mp h
  · intro h1
    subst h1
    rw [wilder_one _ i hWi]


/-! ### Sign of the standard deviation -/

theorem getElem?_stddev (sqrtQ : ℚ → ℚ) (qs : List ℚ) (W i : Nat) (hWi : W ≤ i + 1)
    (hi : i < qs.length) :
    ((List.range qs.length).map (fun i =>
        if i + 1 < W then Dbl.nan
        else Dbl.fin (sqrtQ (((trailing qs W i).map
          (fun x => (x - (trailing qs W i).sum / W) ^ 2)).sum / ((W : ℚ) - 1)))))[i]?
      = some (Dbl.fin (sqrtQ (((trailing qs W i).map
          (fun x => (x - (trailing qs W i).sum / W) ^ 2)).sum / ((W : ℚ) - 1)))) := by
  simp [hi, Nat.not_lt.mpr hWi]

/-- In exact arithmetic, let `std::sqrt` send `0` to `0` and a value that is not
negative to one that is not negative.  With `2 ≤ W`, `calculate_stddev` returns, and
for `W - 1 ≤ i < N` cell `i` of its output holds a finite value `v ≥ 0`, which is `0`
when the `W` trailing samples that end at `i` are all equal (the bound `W ≤ N`
follows from `W - 1 ≤ i < N`). -/
theorem calculate_stddev_nonneg_exact (sqrtQ : ℚ → ℚ) (hs0 : sqrtQ 0 = 0)
    (hsn : ∀ x, 0 ≤ x → 0 ≤ sqrtQ x) (qs : List ℚ) (W : Nat) (buf : List Dbl) (hW : 2 ≤ W)
    (hbuf : buf.length = qs.length) :
    ∃ out, calculate_stddev sqrtQ (qs.map Dbl.fin) qs.length W buf = some out ∧
      ∀ i, W - 1 ≤ i → i < qs.length →
        ∃ v : ℚ, out[i]? = some (Dbl.fin v) ∧ 0 ≤ v ∧
          (∀ c, (∀ x ∈ trailing qs W i, x = c) → v = 0) := by
  have hW2 : (2 : ℚ) ≤ W := by exact_mod_cast hW
  have hne : (W : ℚ) ≠ 0 := by positivity
  refine ⟨_, calculate_stddev_eq sqrtQ qs W buf hW hbuf, ?_⟩
  intro i hWi hi
  refine ⟨_, getElem?_stddev sqrtQ qs W i (by omega) hi, ?_, ?_⟩
  · apply hsn
    apply div_nonneg (sum_sq_nonneg _ _)
    linarith
  · intro c hc
    have hlen := trailing_length qs W i (by omega) hi
    have hsum : (trailing qs W i).sum = (W : ℚ) * c := by
      rw [List.sum_eq_card_nsmul _ c hc, hlen, nsmul_eq_mul]
    have hmean : (trailing qs W i).sum / (W : ℚ) = c := by
      rw [hsum]; field_simp
    have hzero : ((trailing qs W i).map
        (fun x => (x - (trailing qs W i).sum / W) ^ 2)).sum = 0 := by
      apply List.sum_eq_zero
      intro y hy
      obtain ⟨x, hx, rfl⟩ := List.mem_map.mp hy
      rw [hmean, hc x hx]
      ring
    rw [hzero, zero_div, hs0]


/-! ### The standard deviation over a window of one sample -/

/-- With `window = 1` the loop of the squared deviations at index `i` ends with
the sum `0`. -/
theorem sqSum_window_one (qs : List ℚ) (i : Nat) (hi : i < qs.length) :
    forLoop 0 (fun j sq_sum =>
        (readAt (qs.map Dbl.fin) ((i : Int) - j)).bind fun x =>
          some (sq_sum + (x - Dbl.fin (qs.getD i 0) / Dbl.ofInt 1)
            * (x - Dbl.fin (qs.getD i 0) / Dbl.ofInt 1))) 1 (Dbl.fin 0)
      = some (Dbl.fin 0) := by
  have h1 : Dbl.fin (qs.getD i 0) / Dbl.ofInt 1 = Dbl.fin (qs.getD i 0 / 1) := by
    simp only [Dbl.ofInt, Int.cast_one]
    exact Dbl.fin_div _ _ one_ne_zero
  rw [h1, sqSum_loop qs _ i 1 (by omega) hi]
  simp [List.range_succ]

/-- The output of `calculate_stddev` for `window = 1`: `NAN` in every cell. -/
theorem calculate_stddev_eq_one (sqrtQ : ℚ → ℚ) (qs : List ℚ) (buf : List Dbl)
    (hbuf : buf.length = qs.length) :
    calculate_stddev sqrtQ (qs.map Dbl.fin) qs.length 1 buf
      = some (List.replicate qs.length Dbl.nan) := by
  have hrep : List.replicate qs.length Dbl.nan
      = (List.range qs.length).map (fun _ => Dbl.nan) := by
    apply List.ext_getElem <;> simp
  unfold calculate_stddev
  rw [hrep, Int.toNat_ofNat, show (1 : Int).toNat = 1 from rfl,
    forLoop_fill _ (fun _ => Dbl.nan) qs.length buf (le_of_eq hbuf.symm), ← hbuf, filled_all]
  intro k hk b
  have hsum := backSum_loop qs k 1 (by omega) hk
  rw [if_neg (by omega), hsum]
  simp only [Option.some_bind, bind, pure, List.range_succ, List.range_zero, List.nil_append,
    List.map_cons, List.map_nil, List.sum_cons, List.sum_nil, add_zero, Nat.sub_zero]
  rw [sqSum_window_one qs k hk]
  rfl

/-- Claim C19: with `window = 1`, at every index `i < N` the loop of the squared
deviations of `calculate_stddev` ends with the sum `0`, the divisor `window - 1` is
`0`, the square root of `0 / 0` is `NAN`, and `calculate_stddev` returns with `NAN`
in every cell, whatever the samples. -/
theorem calculate_stddev_window_one (sqrtQ : ℚ → ℚ) (qs : List ℚ) (buf : List Dbl)
    (hbuf : buf.length = qs.length) :
    (∀ i, i < qs.length →
      forLoop 0 (fun j sq_sum =>
          (readAt (qs.map Dbl.fin) ((i : Int) - j)).bind fun x =>
            some (sq_sum + (x - Dbl.fin (qs.getD i 0) / Dbl.ofInt 1)
              * (x - Dbl.fin (qs.getD i 0) / Dbl.ofInt 1))) 1 (Dbl.fin 0)
        = some (Dbl.fin 0)) ∧
    Dbl.ofInt (1 - 1) = Dbl.fin 0 ∧
    Dbl.sqrt sqrtQ (Dbl.fin 0 / Dbl.ofInt (1 - 1)) = Dbl.nan ∧
    calculate_stddev sqrtQ (qs.map Dbl.fin) qs.length 1 buf
      = some (List.replicate qs.length Dbl.nan) :=
  ⟨fun i hi => sqSum_window_one qs i hi, by simp [Dbl.ofInt], rfl,
    calculate_stddev_eq_one sqrtQ qs buf hbuf⟩

/-- The hypothesis of `calculate_stddev_window_one` holds for `[1, 2, 3]`. -/
theorem calculate_stddev_window_one_witness :
    calculate_stddev id (([1, 2, 3] : List ℚ).map Dbl.fin) ([1, 2, 3] : List ℚ).length 1
      [Dbl.pinf, Dbl.pinf, Dbl.pinf]
      = some (List.replicate ([1, 2, 3] : List ℚ).length Dbl.nan) :=
  (calculate_stddev_window_one id [1, 2, 3] [Dbl.pinf, Dbl.pinf, Dbl.pinf] (by decide)).2.2.2

/-! ### Short series: the guard of `calculate_rsi`, the seed of `calculate_ema` -/

/-- The guard of `calculate_rsi`: nothing is done when `length ≤ window`. -/
theorem calculate_rsi_of_le (data : List Dbl) (length window : Int) (result : List Dbl)
    (h : length ≤ window) : calculate_rsi data length window result = some result := by
  unfold calculate_rsi
  rw [if_pos h]

/-- Claim C16: when `length ≤ window`, `calculate_rsi` returns with the output
buffer as it was, and this for every input buffer, the empty one included: no cell
is written and no sample is read. -/
theorem calculate_rsi_noop (data : List Dbl) (length window : Int) (result : List Dbl)
    (h : length ≤ window) :
    calculate_rsi data length window result = some result ∧
    calculate_rsi [] length window result = some result :=
  ⟨calculate_rsi_of_le data length window result h, calculate_rsi_of_le [] length window result h⟩

/-- The hypothesis of `calculate_rsi_noop` holds for `length = window = 3`. -/
theorem calculate_rsi_noop_witness :
    calculate_rsi [Dbl.fin 1, Dbl.fin 2, Dbl.fin 3] 3 3 [Dbl.pinf, Dbl.ninf, Dbl.fin 7]
      = some [Dbl.pinf, Dbl.ninf, Dbl.fin 7] ∧
    calculate_rsi [] 3 3 [Dbl.pinf, Dbl.ninf, Dbl.fin 7]
      = some [Dbl.pinf, Dbl.ninf, Dbl.fin 7] :=
  calculate_rsi_noop [Dbl.fin 1, Dbl.fin 2, Dbl.fin 3] 3 3 [Dbl.pinf, Dbl.ninf, Dbl.fin 7]
    (by decide)

theorem readAt_eq_none_iff (buf : List Dbl) (k : Int) :
    readAt buf k = none ↔ k < 0 ∨ (buf.length : Int) ≤ k := by
  unfold readAt
  split_ifs with h
  · rw [List.getElem?_eq_none_iff]; omega
  · simp; omega

theorem writeAt_eq_none_iff (buf : List Dbl) (k : Int) (v : Dbl) :
    writeAt buf k v = none ↔ k < 0 ∨ (buf.length : Int) ≤ k := by
  unfold writeAt
  split_ifs with h
  · simp; omega
  · simp; omega

/-- A loop that has failed stays failed when more iterations are asked for. -/
theorem forLoop_none {σ : Type} (lo : Int) (body : Int → σ → Option σ) (n m : Nat) (s : σ)
    (h : forLoop lo body n s = none) (hnm : n ≤ m) : forLoop lo body m s = none := by
  induction m, hnm using Nat.le_induction with
  | base => exact h
  | succ k _ ih => rw [forLoop_succ, ih]; rfl

/-- On a series shorter than the window, the seed loop of `calculate_ema` reads
`data[N]`, past the input, and the routine does not return. -/
theorem calculate_ema_short (qs : List ℚ) (W : Nat) (buf : List Dbl) (h : qs.length < W) :
    calculate_ema (qs.map Dbl.fin) qs.length W buf = none := by
  have hread : readAt (qs.map Dbl.fin) (0 + (qs.length : Int)) = none := by
    rw [readAt_eq_none_iff]; simp
  have hseed : forLoop 0 (fun i sum => do
      let x ← readAt (qs.map Dbl.fin) i
      pure (sum + x)) (qs.length + 1) (Dbl.fin 0) = none := by
    rw [forLoop_succ, fwdSum_loop qs qs.length le_rfl]
    simp only [Option.some_bind, bind, hread, Option.none_bind]
  unfold calculate_ema
  simp only [Int.toNat_ofNat]
  rw [forLoop_none 0 _ (qs.length + 1) W _ hseed h]
  rfl

/-- Claim C18 at `data = [1, 2]`, `window = 3`: the seed loop of `calculate_ema`
sums `data[0]` and `data[1]`, then reads `data[2]`, which is outside the input of
length `2`; the routine does not return. -/
theorem calculate_ema_reads_past_input :
    forLoop 0 (fun i sum => do
        let x ← readAt (([1, 2] : List ℚ).map Dbl.fin) i
        pure (sum + x)) 2 (Dbl.fin 0) = some (Dbl.fin 3) ∧
    readAt (([1, 2] : List ℚ).map Dbl.fin) 2 = none ∧
    calculate_ema (([1, 2] : List ℚ).map Dbl.fin) 2 3 [Dbl.nan, Dbl.nan] = none := by
  refine ⟨?_, rfl, ?_⟩
  · rw [fwdSum_loop [1, 2] 2 (by decide)]
    norm_num
  · exact calculate_ema_short [1, 2] 3 [Dbl.nan, Dbl.nan] (by decide)


/-! ### Cells written, sentinels, accesses -/

/-- With `1 ≤ W`, the output of `calculate_stddev` does not depend on what the
output buffer held. -/
theorem calculate_stddev_total (sqrtQ : ℚ → ℚ) (qs : List ℚ) (W : Nat) (hW : 1 ≤ W) :
    ∃ out : List Dbl, out.length = qs.length ∧
      ∀ buf : List Dbl, buf.length = qs.length →
        calculate_stddev sqrtQ (qs.map Dbl.fin) qs.length W buf = some out := by
  rcases Nat.eq_or_lt_of_le hW with h1 | h2
  · subst h1
    exact ⟨List.replicate qs.length Dbl.nan, List.length_replicate _ _, fun buf hbuf => by
      rw [show ((1 : Nat) : Int) = 1 from rfl]
      exact calculate_stddev_eq_one sqrtQ qs buf hbuf⟩
  · exact ⟨_, by simp, fun buf hbuf => calculate_stddev_eq sqrtQ qs W buf h2 hbuf⟩

/-- Claim C17: a read or a write returns `none` exactly when its index is outside
`[0, length of the buffer)`, and a routine returns only if none of its accesses
does.  On a series and an output buffer of length `N`: with `1 ≤ W ≤ N`,
`calculate_sma`, `calculate_ema` and `calculate_stddev` return; with `1 ≤ W < N` so
does `calculate_rsi`, whose vectors `gains` and `losses` have length `N`; and
`calculate_max_drawdown` returns for every `N`. -/
theorem accesses_in_bounds (sqrtQ : ℚ → ℚ) (qs : List ℚ) (W : Nat) (buf : List Dbl)
    (hbuf : buf.length = qs.length) :
    (∀ (b : List Dbl) (k : Int), readAt b k = none ↔ k < 0 ∨ (b.length : Int) ≤ k) ∧
    (∀ (b : List Dbl) (k : Int) (v : Dbl),
      writeAt b k v = none ↔ k < 0 ∨ (b.length : Int) ≤ k) ∧
    (1 ≤ W → W ≤ qs.length →
      (∃ out, calculate_sma (qs.map Dbl.fin) qs.length W buf = some out) ∧
      (∃ out, calculate_ema (qs.map Dbl.fin) qs.length W buf = some out) ∧
      (∃ out, calculate_stddev sqrtQ (qs.map Dbl.fin) qs.length W buf = some out)) ∧
    (1 ≤ W → W < qs.length →
      ∃ out, calculate_rsi (qs.map Dbl.fin) qs.length W buf = some out) ∧
    (∃ out, calculate_max_drawdown (qs.map Dbl.fin) qs.length buf = some out) := by
  refine ⟨readAt_eq_none_iff, writeAt_eq_none_iff, fun hW hWN =>
      ⟨⟨_, calculate_sma_eq qs W buf hW hbuf⟩, ⟨_, calculate_ema_eq qs W buf hW hWN hbuf⟩, ?_⟩,
    fun hW h => ⟨_, calculate_rsi_eq qs W buf hW h hbuf⟩,
    ⟨_, calculate_max_drawdown_eq qs buf hbuf⟩⟩
  obtain ⟨out, _, h⟩ := calculate_stddev_total sqrtQ qs W hW
  exact ⟨out, h buf hbuf⟩

/-- The hypothesis of `accesses_in_bounds` holds for `[4, 8, 6]`; here with
`W = 3 = N`. -/
theorem accesses_in_bounds_witness :
    (∃ out, calculate_sma (([4, 8, 6] : List ℚ).map Dbl.fin) ([4, 8, 6] : List ℚ).length
        (3 : Nat) [Dbl.nan, Dbl.nan, Dbl.nan] = some out) ∧
    (∃ out, calculate_ema (([4, 8, 6] : List ℚ).map Dbl.fin) ([4, 8, 6] : List ℚ).length
        (3 : Nat) [Dbl.nan, Dbl.nan, Dbl.nan] = some out) ∧
    (∃ out, calculate_stddev id (([4, 8, 6] : List ℚ).map Dbl.fin)
        ([4, 8, 6] : List ℚ).length (3 : Nat) [Dbl.nan, Dbl.nan, Dbl.nan] = some out) :=
  (accesses_in_bounds id [4, 8, 6] 3 [Dbl.nan, Dbl.nan, Dbl.nan] (by decide)).2.2.1
    (by decide) (by decide)

/-- Claim C15 fails as stated: with `N = W = 2`, a valid input of the claim,
`calculate_rsi` writes no cell, and the output buffer keeps what it held. -/
theorem calculate_rsi_writes_nothing :
    calculate_rsi (([1, 2] : List ℚ).map Dbl.fin) 2 2 [Dbl.pinf, Dbl.pinf]
      = some [Dbl.pinf, Dbl.pinf] ∧
    calculate_rsi (([1, 2] : List ℚ).map Dbl.fin) 2 2 [Dbl.ninf, Dbl.ninf]
      = some [Dbl.ninf, Dbl.ninf] :=
  ⟨rfl, rfl⟩

/-- Claim C15, amended: each of `calculate_sma`, `calculate_ema` and
`calculate_stddev` with `1 ≤ W ≤ N`, `calculate_rsi` with `1 ≤ W < N`, and
`calculate_max_drawdown` on every series, returns an output of length `N` that does
not depend on what the output buffer held: every one of the `N` cells is written.
When `N = W`, `calculate_rsi` hands the buffer back as it was. -/
theorem complete_fill (sqrtQ : ℚ → ℚ) (qs : List ℚ) (W : Nat) (hW : 1 ≤ W) :
    (W ≤ qs.length →
      (∃ out : List Dbl, out.length = qs.length ∧ ∀ buf : List Dbl, buf.length = qs.length →
        calculate_sma (qs.map Dbl.fin) qs.length W buf = some out) ∧
      (∃ out : List Dbl, out.length = qs.length ∧ ∀ buf : List Dbl, buf.length = qs.length →
        calculate_ema (qs.map Dbl.fin) qs.length W buf = some out) ∧
      (∃ out : List Dbl, out.length = qs.length ∧ ∀ buf : List Dbl, buf.length = qs.length →
        calculate_stddev sqrtQ (qs.map Dbl.fin) qs.length W buf = some out)) ∧
    (W < qs.length →
      ∃ out : List Dbl, out.length = qs.length ∧ ∀ buf : List Dbl, buf.length = qs.length →
        calculate_rsi (qs.map Dbl.fin) qs.length W buf = some out) ∧
    (∃ out : List Dbl, out.length = qs.length ∧ ∀ buf : List Dbl, buf.length = qs.length →
      calculate_max_drawdown (qs.map Dbl.fin) qs.length buf = some out) ∧
    (W = qs.length → ∀ buf : List Dbl,
      calculate_rsi (qs.map Dbl.fin) qs.length W buf = some buf) := by
  refine ⟨fun hWN => ⟨⟨_, by simp, fun buf hbuf => calculate_sma_eq qs W buf hW hbuf⟩,
      ⟨_, by simp, fun buf hbuf => calculate_ema_eq qs W buf hW hWN hbuf⟩,
      calculate_stddev_total sqrtQ qs W hW⟩,
    fun h => ⟨_, by simp, fun buf hbuf => calculate_rsi_eq qs W buf hW h hbuf⟩,
    ⟨_, by simp, fun buf hbuf => calculate_max_drawdown_eq qs buf hbuf⟩, ?_⟩
  intro h buf
  exact calculate_rsi_of_le _ _ _ buf (by rw [h])

/-- The hypothesis of `complete_fill` holds for `W = 3`; here with the series
`[4, 8, 6]`, of length `3`. -/
theorem complete_fill_witness :
    (∃ out : List Dbl, out.length = ([4, 8, 6] : List ℚ).length ∧
      ∀ buf : List Dbl, buf.length = ([4, 8, 6] : List ℚ).length →
        calculate_max_drawdown (([4, 8, 6] : List ℚ).map Dbl.fin)
          ([4, 8, 6] : List ℚ).length buf = some out) ∧
    ((3 : Nat) = ([4, 8, 6] : List ℚ).length → ∀ buf : List Dbl,
      calculate_rsi (([4, 8, 6] : List ℚ).map Dbl.fin) ([4, 8, 6] : List ℚ).length
        (3 : Nat) buf = some buf) :=
  (complete_fill id [4, 8, 6] 3 (by decide)).2.2

/-- Claim C14 fails as stated: with `W = 1 ≤ N = 3`, `calculate_stddev` writes the
sentinel `NAN` in every cell, not in the `W - 1 = 0` leading cells only: cell `0`
holds `NAN` although `0 < W - 1` is false; it does so in exact arithmetic and in
binary64 alike. -/
theorem calculate_stddev_sentinel_everywhere :
    calculate_stddev id (([1, 2, 3] : List ℚ).map Dbl.fin) 3 1 [Dbl.pinf, Dbl.pinf, Dbl.pinf]
      = some [Dbl.nan, Dbl.nan, Dbl.nan] ∧ ¬ ((0 : Nat) < 1 - 1) ∧
    Rounded.calculate_stddev round64 sqrt64 (([1, 2, 3] : List ℚ).map Dbl.fin) 3 1
        [Dbl.pinf, Dbl.pinf, Dbl.pinf]
      = some [Dbl.nan, Dbl.nan, Dbl.nan] := by
  refine ⟨?_, by decide, by decide!⟩
  have h := calculate_stddev_eq_one id [1, 2, 3] [Dbl.pinf, Dbl.pinf, Dbl.pinf] (by decide)
  rw [show ((([1, 2, 3] : List ℚ).length : Nat) : Int) = 3 from rfl] at h
  rw [h]
  rfl

/-- In exact arithmetic, on a series and an output buffer of length `N`, with
`1 ≤ W ≤ N`, the outputs of `calculate_sma` and `calculate_ema`, and the output of
`calculate_stddev` when `2 ≤ W`, hold the sentinel `NAN` exactly in the cells
`i < W - 1`; with `1 ≤ W < N` the output of `calculate_rsi` holds it exactly in the
cells `i < W`; and the output of `calculate_max_drawdown` holds it in no cell. -/
theorem sentinel_positions_exact (sqrtQ : ℚ → ℚ) (qs : List ℚ) (W : Nat) (buf : List Dbl)
    (hbuf : buf.length = qs.length) :
    (1 ≤ W → W ≤ qs.length →
      (∃ out, calculate_sma (qs.map Dbl.fin) qs.length W buf = some out ∧
        ∀ i, i < qs.length → (out[i]? = some Dbl.nan ↔ i + 1 < W)) ∧
      (∃ out, calculate_ema (qs.map Dbl.fin) qs.length W buf = some out ∧
        ∀ i, i < qs.length → (out[i]? = some Dbl.nan ↔ i + 1 < W)) ∧
      (2 ≤ W → ∃ out, calculate_stddev sqrtQ (qs.map Dbl.fin) qs.length W buf = some out ∧
        ∀ i, i < qs.length → (out[i]? = some Dbl.nan ↔ i + 1 < W))) ∧
    (1 ≤ W → W < qs.length →
      ∃ out, calculate_rsi (qs.map Dbl.fin) qs.length W buf = some out ∧
        ∀ i, i < qs.length → (out[i]? = some Dbl.nan ↔ i < W)) ∧
    (∃ out, calculate_max_drawdown (qs.map Dbl.fin) qs.length buf = some out ∧
      ∀ i, i < qs.length → out[i]? ≠ some Dbl.nan) := by
  refine ⟨fun hW hWN => ⟨⟨_, calculate_sma_eq qs W buf hW hbuf, ?_⟩,
      ⟨_, calculate_ema_eq qs W buf hW hWN hbuf, ?_⟩,
      fun h2 => ⟨_, calculate_stddev_eq sqrtQ qs W buf h2 hbuf, ?_⟩⟩,
    fun hW h => ⟨_, calculate_rsi_eq qs W buf hW h hbuf, ?_⟩,
    ⟨_, calculate_max_drawdown_eq qs buf hbuf, ?_⟩⟩
  · intro i hi
    by_cases h : i + 1 < W <;> simp [hi, h]
  · intro i hi
    by_cases h : i + 1 < W <;> simp [hi, h]
  · intro i hi
    by_cases h : i + 1 < W <;> simp [hi, h]
  · intro i hi
    by_cases h : i < W <;> simp [hi, h]
  · intro i hi
    simp [hi]


/-! ### Drawdown of a positive series -/

/-- When every sample is above the initial peak, the peak after index `i` is the
greatest of the samples `qs[0], ..., qs[i]`. -/
theorem peakState_greatest (qs : List ℚ) (hbig : ∀ x ∈ qs, (-1000000000 : ℚ) < x) (i : Nat)
    (hi : i < qs.length) :
    peakState qs (i + 1) ∈ qs.take (i + 1) ∧ ∀ x ∈ qs.take (i + 1), x ≤ peakState qs (i + 1) := by
  constructor
  · rcases peakState_mem qs (i + 1) with h | ⟨j, hj, h⟩
    · have h0 : qs.getD 0 0 ≤ peakState qs (i + 1) := le_peakState qs (i + 1) 0 (by omega)
      have h1 : (-1000000000 : ℚ) < qs.getD 0 0 := by
        rw [List.getD_eq_getElem _ _ (by omega : 0 < qs.length)]
        exact hbig _ (List.getElem_mem _)
      rw [h] at h0
      exact absurd h1 (not_lt.mpr h0)
    · have hjN : j < qs.length := by omega
      rw [h, List.getD_eq_getElem _ _ hjN, List.mem_take_iff_getElem]
      exact ⟨j, by simp; omega, rfl⟩
  · intro x hx
    obtain ⟨k, hk, rfl⟩ := List.getElem_of_mem hx
    have hk1 : k < i + 1 := by
      have := hk; simp at this; omega
    have hkN : k < qs.length := by omega
    rw [List.getElem_take, ← List.getD_eq_getElem _ 0 hkN]
    exact le_peakState qs (i + 1) k hk1

/-- In exact arithmetic, when every sample is strictly positive,
`calculate_max_drawdown` returns, and cell `i` of its output holds a finite value `v`
with `-1 < v ≤ 0`, which is `0` exactly when `qs[i]` is the greatest `M` of
`qs[0], ..., qs[i]`. -/
theorem calculate_max_drawdown_range_exact (qs : List ℚ) (buf : List Dbl)
    (hbuf : buf.length = qs.length) (hpos : ∀ x ∈ qs, (0 : ℚ) < x) :
    ∃ out, calculate_max_drawdown (qs.map Dbl.fin) qs.length buf = some out ∧
      ∀ i, i < qs.length →
        ∃ v M : ℚ, out[i]? = some (Dbl.fin v) ∧ -1 < v ∧ v ≤ 0 ∧
          M ∈ qs.take (i + 1) ∧ (∀ x ∈ qs.take (i + 1), x ≤ M) ∧
          (v = 0 ↔ qs.getD i 0 = M) := by
  refine ⟨_, calculate_max_drawdown_eq qs buf hbuf, ?_⟩
  intro i hi
  obtain ⟨hmem, hmax⟩ := peakState_greatest qs
    (fun x hx => lt_trans (by norm_num) (hpos x hx)) i hi
  have hM : 0 < peakState qs (i + 1) := hpos _ (List.mem_of_mem_take hmem)
  have hx : 0 < qs.getD i 0 := by
    rw [List.getD_eq_getElem _ _ hi]; exact hpos _ (List.getElem_mem _)
  have hle : qs.getD i 0 ≤ peakState qs (i + 1) := le_peakState qs (i + 1) i (by omega)
  have hv : drawdown (qs.getD i 0) (peakState qs (i + 1))
      = (qs.getD i 0 - peakState qs (i + 1)) / peakState qs (i + 1) := by
    rw [drawdown, if_neg (ne_of_gt hM)]
  refine ⟨_, peakState qs (i + 1), getElem?_drawdown qs i hi, ?_, ?_, hmem, hmax, ?_⟩
  · rw [hv, lt_div_iff₀ hM]; linarith
  · rw [hv]; exact div_nonpos_of_nonpos_of_nonneg (by linarith) (le_of_lt hM)
  · rw [hv, div_eq_zero_iff, or_iff_left (ne_of_gt hM), sub_eq_zero]


/-! ## Binary64: what rounding and overflow do to the outputs -/

namespace Rounded

/-- Rounding with `Dbl.fin` rounds nothing. -/
theorem rd_fin (v : Dbl) : rd Dbl.fin v = v := by
  cases v <;> rfl

/-- With no rounding, `Rounded.calculate_sma` is `calculate_sma`. -/
theorem calculate_sma_fin (data : List Dbl) (length window : Int) (result : List Dbl) :
    calculate_sma Dbl.fin data length window result
      = Analytics.calculate_sma data length window result := by
  unfold calculate_sma Analytics.calculate_sma
  simp only [rd_fin]

/-- With no rounding, `Rounded.calculate_ema` is `calculate_ema`. -/
theorem calculate_ema_fin (data : List Dbl) (length window : Int) (result : List Dbl) :
    calculate_ema Dbl.fin data length window result
      = Analytics.calculate_ema data length window result := by
  unfold calculate_ema Analytics.calculate_ema
  simp only [rd_fin]

/-- With no rounding, `Rounded.calculate_rsi` is `calculate_rsi`. -/
theorem calculate_rsi_fin (data : List Dbl) (length window : Int) (result : List Dbl) :
    calculate_rsi Dbl.fin data length window result
      = Analytics.calculate_rsi data length window result := by
  unfold calculate_rsi Analytics.calculate_rsi
  simp only [rd_fin]

/-- With no rounding, `Rounded.calculate_stddev` is `calculate_stddev`. -/
theorem calculate_stddev_fin (sqrtQ : ℚ → ℚ) (data : List Dbl) (length window : Int)
    (result : List Dbl) :
    calculate_stddev Dbl.fin sqrtQ data length window result
      = Analytics.calculate_stddev sqrtQ data length window result := by
  unfold calculate_stddev Analytics.calculate_stddev
  simp only [rd_fin]

/-- With no rounding, `Rounded.calculate_max_drawdown` is `calculate_max_drawdown`. -/
theorem calculate_max_drawdown_fin (data : List Dbl) (length : Int) (result : List Dbl) :
    calculate_max_drawdown Dbl.fin data length result
      = Analytics.calculate_max_drawdown data length result := by
  unfold calculate_max_drawdown Analytics.calculate_max_drawdown
  simp only [rd_fin]

end Rounded

/-- On the doubles `0.3, 0.9` with `W = 1`, in binary64, `calculate_ema` writes
`(0.9 - 0.3) * 1.0 + 0.3 = 0.9000000000000001` at index `1`, above the sample `0.9`:
the upper bound `result[i] ≤ data[i]` holds in exact arithmetic only. -/
theorem ema_above_sample_binary64 :
    Rounded.calculate_ema round64 ([3 / 10, 9 / 10].map round64) 2 1 [Dbl.nan, Dbl.nan]
      = some [Dbl.fin (5404319552844595 / 2 ^ 54), Dbl.fin (8106479329266894 / 2 ^ 53)] ∧
    round64 (9 / 10) = Dbl.fin (8106479329266893 / 2 ^ 53) := by
  decide!

/-- On the strictly increasing doubles `-1, 0.7 * 2^-52, 0.8 * 2^-52` with `W = 1`, in
binary64, the difference `0.7 * 2^-52 + 1` is rounded up to `1 + 2^-52` and
`calculate_ema` writes `2^-52` at index `1`, above the sample, and then the sample
`0.8 * 2^-52` at index `2`, below the cell before: with rounding the outputs of a
strictly increasing series can even decrease. -/
theorem ema_decreasing_binary64 :
    [-1, 3152519739159347 / 2 ^ 104, (3602879701896397 / 2 ^ 104 : ℚ)].Chain' (· < ·) ∧
    [-1, 3152519739159347 / 2 ^ 104, (3602879701896397 / 2 ^ 104 : ℚ)].map round64
      = [-1, 3152519739159347 / 2 ^ 104, (3602879701896397 / 2 ^ 104 : ℚ)].map Dbl.fin ∧
    Rounded.calculate_ema round64
        ([-1, 3152519739159347 / 2 ^ 104, 3602879701896397 / 2 ^ 104].map Dbl.fin) 3 1
        [Dbl.nan, Dbl.nan, Dbl.nan]
      = some [Dbl.fin (-1), Dbl.fin (1 / 2 ^ 52), Dbl.fin (3602879701896397 / 2 ^ 104)] ∧
    (3152519739159347 / 2 ^ 104 : ℚ) < 1 / 2 ^ 52 ∧
    (3602879701896397 / 2 ^ 104 : ℚ) < 1 / 2 ^ 52 := by
  refine ⟨by norm_num, by decide!, by decide!, by norm_num, by norm_num⟩

/-- Claim C11 fails as stated: on the doubles `-2^1023, 2^1023, -2^1023` with
`W = 2 < N = 3`, in binary64, both differences overflow, the relative strength is
`inf / inf`, and `calculate_rsi` writes `NAN` at the defined index `2`. -/
theorem rsi_nan_binary64 :
    [-2 ^ 1023, 2 ^ 1023, (-2 ^ 1023 : ℚ)].map round64
      = [-2 ^ 1023, 2 ^ 1023, (-2 ^ 1023 : ℚ)].map Dbl.fin ∧
    Rounded.calculate_rsi round64 ([-2 ^ 1023, 2 ^ 1023, -2 ^ 1023].map round64) 3 2
        [Dbl.fin 0, Dbl.fin 0, Dbl.fin 0]
      = some [Dbl.nan, Dbl.nan, Dbl.nan] := by
  decide!

/-- On the doubles `2^-60, 0, 1` with `W = 2`, in binary64, `loss[1] = 2^-60` is not
`0`, yet the relative strength `2^60` is so large that `100 - 100 / (1 + rs)` is
rounded to `100`: with rounding, an output of exactly `100` does not tell that all the
losses are `0`, whatever the window. -/
theorem rsi_hundred_with_loss_binary64 :
    [1 / 2 ^ 60, 0, (1 : ℚ)].map round64 = [1 / 2 ^ 60, 0, (1 : ℚ)].map Dbl.fin ∧
    Rounded.calculate_rsi round64 ([1 / 2 ^ 60, 0, 1].map round64) 3 2
        [Dbl.nan, Dbl.nan, Dbl.nan]
      = some [Dbl.nan, Dbl.nan, Dbl.fin 100] ∧
    lossSpec [1 / 2 ^ 60, 0, 1] 1 ≠ 0 := by
  decide!

/-- Claim C13 fails as stated: on the doubles `0.1, 0.1, 0.1` with `W = 3`, in
binary64, the sum `0.30000000000000004` over `3` is `0.10000000000000002`, not the
sample, and `calculate_stddev` writes `1.6996749443881478e-17`, not `0`, for a
constant window. -/
theorem stddev_constant_window_binary64 :
    Rounded.calculate_stddev round64 sqrt64 ([1 / 10, 1 / 10, 1 / 10].map round64) 3 3
        [Dbl.nan, Dbl.nan, Dbl.nan]
      = some [Dbl.nan, Dbl.nan, Dbl.fin (2757880273211543 / 2 ^ 107)] ∧
    (2757880273211543 / 2 ^ 107 : ℚ) ≠ 0 := by
  decide!

/-- On the doubles `-2^1023, 2^1023, 1.5 * 2^1023` with `W = 1`, in binary64,
`calculate_ema` writes `inf` at index `1` and `NAN` at index `2`: beyond the leading
cells the sentinel can come from an overflow. -/
theorem ema_nan_after_overflow_binary64 :
    Rounded.calculate_ema round64 ([-2 ^ 1023, 2 ^ 1023, 3 * 2 ^ 1022].map round64) 3 1
        [Dbl.fin 0, Dbl.fin 0, Dbl.fin 0]
      = some [Dbl.fin (-2 ^ 1023), Dbl.pinf, Dbl.nan] := by
  decide!

/-- Claim C20 fails as stated: the doubles `1.0, 1e-17` (the second one is
`6490371073168535 / 2^109`) are strictly positive, yet in binary64 `1e-17 - 1.0` is
rounded to `-1.0` and `calculate_max_drawdown` writes `-1` at index `1`, outside
`(-1, 0]`. -/
theorem max_drawdown_minus_one_binary64 :
    [1, 1 / 10 ^ 17].map round64 = [Dbl.fin 1, Dbl.fin (6490371073168535 / 2 ^ 109)] ∧
    (∀ x ∈ [(1 : ℚ), 6490371073168535 / 2 ^ 109], 0 < x) ∧
    Rounded.calculate_max_drawdown round64 ([1, 1 / 10 ^ 17].map round64) 2
        [Dbl.nan, Dbl.nan]
      = some [Dbl.fin 0, Dbl.fin (-1)] ∧
    ¬ ((-1 : ℚ) < -1) := by
  decide!

/-! ## The rounded routines, cell by cell -/

namespace Rounded

theorem backSum_loop_rd (rnd : ℚ → Dbl) (qs : List ℚ) (i n : Nat) (hn : n ≤ i + 1)
    (hi : i < qs.length) :
    forLoop 0 (fun j sum => do
        let x ← readAt (qs.map Dbl.fin) ((i : Int) - j)
        pure (rd rnd (sum + x))) n (Dbl.fin 0)
      = some (backSum rnd qs i n) := by
  induction n with
  | zero => rfl
  | succ m ih =>
    rw [forLoop_succ, ih (Nat.le_of_succ_le hn)]
    have hr := readAt_map qs ((i : Int) - (0 + (m : Int))) (i - m) (by omega) (by omega)
    simp only [Option.some_bind, hr, bind, pure, backSum]

theorem fwdSum_loop_rd (rnd : ℚ → Dbl) (qs : List ℚ) (n : Nat) (hn : n ≤ qs.length) :
    forLoop 0 (fun i sum => do
        let x ← readAt (qs.map Dbl.fin) i
        pure (rd rnd (sum + x))) n (Dbl.fin 0)
      = some (fwdSum rnd qs n) := by
  induction n with
  | zero => rfl
  | succ m ih =>
    rw [forLoop_succ, ih (Nat.le_of_succ_le hn)]
    have hr := readAt_map qs (0 + (m : Int)) m (by omega) hn
    simp only [Option.some_bind, hr, bind, pure, fwdSum]

/-- The output of `Rounded.calculate_sma`, cell by cell. -/
theorem calculate_sma_eq_rd (rnd : ℚ → Dbl) (qs : List ℚ) (W : Nat) (buf : List Dbl)
    (hbuf : buf.length = qs.length) :
    calculate_sma rnd (qs.map Dbl.fin) qs.length W buf
      = some ((List.range qs.length).map (fun i =>
          if i + 1 < W then Dbl.nan else rd rnd (backSum rnd qs i W / Dbl.ofInt W))) := by
  unfold calculate_sma
  simp only [Int.toNat_ofNat]
  rw [forLoop_fill _ (fun i =>
      if i + 1 < W then Dbl.nan else rd rnd (backSum rnd qs i W / Dbl.ofInt W))
    qs.length buf (le_of_eq hbuf.symm), ← hbuf, filled_all]
  intro k hk b
  by_cases h : k + 1 < W
  · rw [if_pos (by omega), if_pos h]
  · rw [if_neg (by omega), if_neg h, backSum_loop_rd rnd qs k W (by omega) hk]
    rfl

theorem emaState_keep (rnd : ℚ → Dbl) (qs : List ℚ) (W n : Nat) (hn : n + 1 ≤ W) :
    emaState rnd qs W (n + 1) = emaState rnd qs W n := by
  rw [emaState, if_pos hn]

theorem emaState_step_rd (rnd : ℚ → Dbl) (qs : List ℚ) (W n : Nat) (hn : W ≤ n) :
    emaState rnd qs W (n + 1)
      = rd rnd (rd rnd (rd rnd (Dbl.fin (qs.getD n 0) - emaState rnd qs W n)
          * rd rnd (Dbl.fin 2 / Dbl.ofInt ((W : Int) + 1))) + emaState rnd qs W n) := by
  rw [emaState, if_neg (by omega)]

/-- The output of `Rounded.calculate_ema`, cell by cell. -/
theorem calculate_ema_eq_rd (rnd : ℚ → Dbl) (qs : List ℚ) (W : Nat) (buf : List Dbl)
    (hWN : W ≤ qs.length) (hbuf : buf.length = qs.length) :
    calculate_ema rnd (qs.map Dbl.fin) qs.length W buf
      = some ((List.range qs.length).map (fun i =>
          if i + 1 < W then Dbl.nan else emaState rnd qs W (i + 1))) := by
  unfold calculate_ema
  simp only [Int.toNat_ofNat]
  rw [fwdSum_loop_rd rnd qs W hWN]
  simp only [Option.some_bind, bind]
  rw [show rd rnd (fwdSum rnd qs W / Dbl.ofInt (W : Int)) = emaState rnd qs W 0 from rfl,
    forLoop_fill_state _ (fun k => emaState rnd qs W k)
      (fun i => if i + 1 < W then Dbl.nan else emaState rnd qs W (i + 1))
      qs.length buf (le_of_eq hbuf.symm)]
  · simp only [Option.some_bind, pure, ← hbuf, filled_all]
  · intro k hk b
    by_cases h1 : k + 1 < W
    · rw [if_pos (by omega), if_pos h1, emaState_keep rnd qs W k (by omega)]
      cases writeAt b k Dbl.nan <;> rfl
    · by_cases h2 : k + 1 = W
      · rw [if_neg (by omega), if_pos (by omega), if_neg h1,
          emaState_keep rnd qs W k (by omega)]
        cases writeAt b k (emaState rnd qs W k) <;> rfl
      · rw [if_neg (by omega), if_neg (by omega), if_neg h1, emaState_step_rd rnd qs W k (by omega),
          readAt_map qs k k rfl hk]
        simp only [Option.some_bind]
        cases writeAt b k _ <;> rfl

theorem sqSum_loop_rd (rnd : ℚ → Dbl) (qs : List ℚ) (mean : Dbl) (i n : Nat) (hn : n ≤ i + 1)
    (hi : i < qs.length) :
    forLoop 0 (fun j sq_sum =>
        (readAt (qs.map Dbl.fin) ((i : Int) - j)).bind fun x =>
          some (rd rnd (sq_sum + rd rnd (rd rnd (x - mean) * rd rnd (x - mean))))) n (Dbl.fin 0)
      = some (sqSum rnd qs i mean n) := by
  induction n with
  | zero => rfl
  | succ k ih =>
    rw [forLoop_succ, ih (Nat.le_of_succ_le hn)]
    have hr := readAt_map qs ((i : Int) - (0 + (k : Int))) (i - k) (by omega) (by omega)
    simp only [Option.some_bind, hr, sqSum]

/-- The output of `Rounded.calculate_stddev`, cell by cell. -/
theorem calculate_stddev_eq_rd (rnd : ℚ → Dbl) (sqrtQ : ℚ → ℚ) (qs : List ℚ) (W : Nat)
    (buf : List Dbl) (hbuf : buf.length = qs.length) :
    calculate_stddev rnd sqrtQ (qs.map Dbl.fin) qs.length W buf
      = some ((List.range qs.length).map (fun i =>
          if i + 1 < W then Dbl.nan else stddevCell rnd sqrtQ qs W i)) := by
  unfold calculate_stddev
  simp only [Int.toNat_ofNat]
  rw [forLoop_fill _ (fun i => if i + 1 < W then Dbl.nan else stddevCell rnd sqrtQ qs W i)
    qs.length buf (le_of_eq hbuf.symm), ← hbuf, filled_all]
  intro k hk b
  by_cases h : k + 1 < W
  · rw [if_pos (by omega), if_pos h]
  · rw [if_neg (by omega), if_neg h, backSum_loop_rd rnd qs k W (by omega) hk]
    simp only [Option.some_bind, bind, pure]
    rw [sqSum_loop_rd rnd qs _ k W (by omega) hk]
    rfl

/-- The output of `Rounded.calculate_max_drawdown`, cell by cell. -/
theorem calculate_max_drawdown_eq_rd (rnd : ℚ → Dbl) (qs : List ℚ) (buf : List Dbl)
    (hbuf : buf.length = qs.length) :
    calculate_max_drawdown rnd (qs.map Dbl.fin) qs.length buf
      = some ((List.range qs.length).map (fun i =>
          drawdown rnd (qs.getD i 0) (peakState qs (i + 1)))) := by
  unfold calculate_max_drawdown
  simp only [Int.toNat_ofNat]
  rw [show (-1000000000 : ℚ) = peakState qs 0 from rfl,
    forLoop_fill_state _ (fun k => Dbl.fin (peakState qs k))
      (fun i => drawdown rnd (qs.getD i 0) (peakState qs (i + 1)))
      qs.length buf (le_of_eq hbuf.symm)]
  · simp only [Option.some_bind, bind, pure, ← hbuf, filled_all]
  · intro k hk b
    simp only [bind, pure, readAt_map qs k k rfl hk, Option.some_bind, Dbl.gt_fin]
    have hp : (if decide (peakState qs k < qs.getD k 0) = true then Dbl.fin (qs.getD k 0)
        else Dbl.fin (peakState qs k)) = Dbl.fin (peakState qs (k + 1)) := by
      rw [peakState, apply_ite Dbl.fin]
      simp only [decide_eq_true_eq]
    rw [hp]
    by_cases h0 : peakState qs (k + 1) = 0
    · simp only [Dbl.ne_fin, h0, decide_True, Bool.not_true, drawdown, if_pos]
      cases writeAt b k (Dbl.fin 0) <;> rfl
    · simp only [Dbl.ne_fin, h0, decide_False, Bool.not_false, drawdown, if_neg,
        if_true, not_false_eq_true]
      cases writeAt b k _ <;> rfl

theorem gainAt_zero_rd (rnd : ℚ → Dbl) (qs : List ℚ) : gainAt rnd qs 0 = Dbl.fin 0 := by
  simp [gainAt]

theorem lossAt_zero_rd (rnd : ℚ → Dbl) (qs : List ℚ) : lossAt rnd qs 0 = Dbl.fin 0 := by
  simp [lossAt]

theorem prefixBuf_length_rd (x : Nat → Dbl) (N n : Nat) : (prefixBuf x N n).length = N := by
  simp [prefixBuf]

theorem prefixBuf_zero_rd (x : Nat → Dbl) (N : Nat) (hx : x 0 = Dbl.fin 0) :
    prefixBuf x N 0 = List.replicate N (Dbl.fin 0) := by
  apply List.ext_getElem
  · simp [prefixBuf]
  · intro k h1 h2
    simp only [prefixBuf, List.getElem_map, List.getElem_range, List.getElem_replicate]
    by_cases hk : k ≤ 0
    · rw [if_pos hk, Nat.le_zero.mp hk, hx]
    · rw [if_neg hk]

theorem prefixBuf_set_rd (x : Nat → Dbl) (N n : Nat) :
    (prefixBuf x N n).set (n + 1) (x (n + 1)) = prefixBuf x N (n + 1) := by
  apply List.ext_getElem
  · simp [prefixBuf]
  · intro k h1 h2
    simp only [prefixBuf, List.getElem_set, List.getElem_map, List.getElem_range]
    by_cases hk : n + 1 = k
    · subst hk; simp
    · rw [if_neg hk]
      by_cases hkn : k ≤ n
      · rw [if_pos hkn, if_pos (by omega)]
      · rw [if_neg hkn, if_neg (by omega)]

theorem prefixBuf_succ_of_zero_rd (x : Nat → Dbl) (N n : Nat) (hx : x (n + 1) = Dbl.fin 0) :
    prefixBuf x N (n + 1) = prefixBuf x N n := by
  apply List.ext_getElem
  · simp [prefixBuf]
  · intro k h1 h2
    simp only [prefixBuf, List.getElem_map, List.getElem_range]
    by_cases hk : k ≤ n
    · rw [if_pos hk, if_pos (by omega)]
    · rw [if_neg hk]
      by_cases hk1 : k ≤ n + 1
      · rw [if_pos hk1, show k = n + 1 by omega, hx]
      · rw [if_neg hk1]

theorem readAt_prefixBuf_rd (x : Nat → Dbl) (N n : Nat) (k : Int) (j : Nat) (hk : k = j)
    (hjn : j ≤ n) (hjN : j < N) : readAt (prefixBuf x N n) k = some (x j) := by
  subst hk
  simp [readAt, prefixBuf, hjN, hjn]

theorem writeAt_prefixBuf_rd (x : Nat → Dbl) (N n : Nat) (k : Int) (hk : k = ((n + 1 : Nat) : Int))
    (hn : n + 1 < N) :
    writeAt (prefixBuf x N n) k (x (n + 1)) = some (prefixBuf x N (n + 1)) := by
  subst hk
  unfold writeAt
  rw [if_pos ⟨Int.natCast_nonneg _, by simpa [prefixBuf_length_rd] using hn⟩, Int.toNat_ofNat,
    prefixBuf_set_rd x N n]

theorem wilder_keep_rd (rnd : ℚ → Dbl) (x : Nat → Dbl) (W n : Nat) (hn : n ≤ W) :
    wilder rnd x W (n + 1) = wilder rnd x W n := by
  rw [wilder, if_neg (by omega)]

theorem wilder_step_rd (rnd : ℚ → Dbl) (x : Nat → Dbl) (W n : Nat) (hn : W < n) :
    wilder rnd x W (n + 1)
      = rd rnd (rd rnd (rd rnd (wilder rnd x W n * Dbl.ofInt ((W : Int) - 1)) + x n)
          / Dbl.ofInt W) := by
  rw [wilder, if_pos hn]

theorem wilder_first_rd (rnd : ℚ → Dbl) (x : Nat → Dbl) (W n : Nat) (hn : n ≤ W + 1) :
    wilder rnd x W n = rd rnd (firstSum rnd x W / Dbl.ofInt W) := by
  induction n with
  | zero => rfl
  | succ m ih => rw [wilder_keep_rd rnd x W m (by omega), ih (by omega)]

/-- The last step of an iteration of the main loop of `Rounded.calculate_rsi`. -/
theorem rsi_write_rd (rnd : ℚ → Dbl) (ag al : Dbl) (b : List Dbl) (k : Int) :
    (if Dbl.eq al (Dbl.fin 0) = true then
        (writeAt b k (Dbl.fin 100)).bind fun r => some ((ag, al), r)
      else
        (writeAt b k (rd rnd (Dbl.fin 100
          - rd rnd (Dbl.fin 100 / rd rnd (Dbl.fin 1 + rd rnd (ag / al)))))).bind
          fun r => some ((ag, al), r))
      = (writeAt b k (rsiCell rnd ag al)).map (fun b' => ((ag, al), b')) := by
  unfold rsiCell
  by_cases h : Dbl.eq al (Dbl.fin 0) = true
  · rw [if_pos h, if_pos h]
    cases writeAt b k (Dbl.fin 100) <;> rfl
  · rw [if_neg h, if_neg h]
    cases writeAt b k _ <;> rfl

/-- The output of `Rounded.calculate_rsi`, cell by cell. -/
theorem calculate_rsi_eq_rd (rnd : ℚ → Dbl) (qs : List ℚ) (W : Nat) (buf : List Dbl)
    (hWN : W < qs.length) (hbuf : buf.length = qs.length) :
    calculate_rsi rnd (qs.map Dbl.fin) qs.length W buf
      = some ((List.range qs.length).map (fun i =>
          if i < W then Dbl.nan
          else rsiCell rnd (wilder rnd (gainAt rnd qs) W (i + 1))
            (wilder rnd (lossAt rnd qs) W (i + 1)))) := by
  have hN1 : ((qs.length : Int) - 1).toNat = qs.length - 1 := by omega
  have hinit : (List.replicate qs.length (Dbl.fin 0), List.replicate qs.length (Dbl.fin 0))
      = ((fun n => (prefixBuf (gainAt rnd qs) qs.length n,
          prefixBuf (lossAt rnd qs) qs.length n)) 0) := by
    simp only [prefixBuf_zero_rd _ _ (gainAt_zero_rd rnd qs), prefixBuf_zero_rd _ _ (lossAt_zero_rd rnd qs)]
  unfold calculate_rsi
  rw [if_neg (by omega), if_neg (by omega)]
  simp only [Int.toNat_ofNat, bind, pure, hN1]
  rw [hinit, forLoop_eq_of_step 1 _
    (fun n => (prefixBuf (gainAt rnd qs) qs.length n, prefixBuf (lossAt rnd qs) qs.length n))
    (qs.length - 1)]
  · simp only [Option.some_bind]
    rw [show ((Dbl.fin 0, Dbl.fin 0) : Dbl × Dbl)
        = (fun n => (firstSum rnd (gainAt rnd qs) n, firstSum rnd (lossAt rnd qs) n)) 0 from rfl,
      forLoop_eq_of_step 1 _
        (fun n => (firstSum rnd (gainAt rnd qs) n, firstSum rnd (lossAt rnd qs) n)) W]
    · simp only [Option.some_bind]
      rw [show rd rnd (firstSum rnd (gainAt rnd qs) W / Dbl.ofInt (W : Int))
            = wilder rnd (gainAt rnd qs) W 0 from rfl,
        show rd rnd (firstSum rnd (lossAt rnd qs) W / Dbl.ofInt (W : Int))
            = wilder rnd (lossAt rnd qs) W 0 from rfl,
        forLoop_fill_state _
          (fun k => (wilder rnd (gainAt rnd qs) W k, wilder rnd (lossAt rnd qs) W k))
          (fun i => if i < W then Dbl.nan
            else rsiCell rnd (wilder rnd (gainAt rnd qs) W (i + 1))
              (wilder rnd (lossAt rnd qs) W (i + 1)))
          qs.length buf (le_of_eq hbuf.symm)]
      · simp only [Option.some_bind, ← hbuf, filled_all]
      · intro k hk b
        by_cases h1 : k < W
        · rw [if_pos (by omega), if_pos h1, wilder_keep_rd _ _ W k (by omega),
            wilder_keep_rd _ _ W k (by omega)]
          cases writeAt b k Dbl.nan <;> rfl
        · rw [if_neg (by omega), if_neg h1]
          by_cases h2 : W < k
          · have hg := readAt_prefixBuf_rd (gainAt rnd qs) qs.length (qs.length - 1) (k : Int) k
              rfl (by omega) (by omega)
            have hl := readAt_prefixBuf_rd (lossAt rnd qs) qs.length (qs.length - 1) (k : Int) k
              rfl (by omega) (by omega)
            rw [if_pos (by omega)]
            simp only [hg, hl, Option.some_bind]
            rw [← wilder_step_rd rnd (gainAt rnd qs) W k h2, ← wilder_step_rd rnd (lossAt rnd qs) W k h2]
            exact rsi_write_rd rnd _ _ b k
          · rw [if_neg (by omega)]
            simp only [Option.some_bind]
            rw [← wilder_keep_rd rnd (gainAt rnd qs) W k (by omega),
              ← wilder_keep_rd rnd (lossAt rnd qs) W k (by omega)]
            exact rsi_write_rd rnd _ _ b k
    · intro k hk
      have hg := readAt_prefixBuf_rd (gainAt rnd qs) qs.length (qs.length - 1) (1 + (k : Int))
        (k + 1) (by omega) (by omega) (by omega)
      have hl := readAt_prefixBuf_rd (lossAt rnd qs) qs.length (qs.length - 1) (1 + (k : Int))
        (k + 1) (by omega) (by omega) (by omega)
      simp only [hg, hl, Option.some_bind, firstSum]
  · intro k hk
    have hr1 := readAt_map qs (1 + (k : Int)) (k + 1) (by omega) (by omega)
    have hr2 := readAt_map qs (1 + (k : Int) - 1) k (by omega) (by omega)
    simp only [hr1, hr2, Option.some_bind]
    have hch : rd rnd (Dbl.fin (qs.getD (k + 1) 0) - Dbl.fin (qs.getD k 0))
        = change rnd qs (k + 1) := by
      rw [change, Nat.add_sub_cancel]
    rw [hch]
    by_cases hpos : Dbl.gt (change rnd qs (k + 1)) (Dbl.fin 0) = true
    · have hg : gainAt rnd qs (k + 1) = change rnd qs (k + 1) := by
        rw [gainAt, if_neg (by omega), if_pos hpos]
      have hl : lossAt rnd qs (k + 1) = Dbl.fin 0 := by
        rw [lossAt, if_neg (by omega), if_pos hpos]
      rw [if_pos hpos, ← hg,
        writeAt_prefixBuf_rd (gainAt rnd qs) qs.length k (1 + (k : Int)) (by omega) (by omega),
        prefixBuf_succ_of_zero_rd (lossAt rnd qs) qs.length k hl]
      rfl
    · have hg : gainAt rnd qs (k + 1) = Dbl.fin 0 := by
        rw [gainAt, if_neg (by omega), if_neg hpos]
      have hl : lossAt rnd qs (k + 1) = -(change rnd qs (k + 1)) := by
        rw [lossAt, if_neg (by omega), if_neg hpos]
      rw [if_neg hpos, ← hl,
        writeAt_prefixBuf_rd (lossAt rnd qs) qs.length k (1 + (k : Int)) (by omega) (by omega),
        prefixBuf_succ_of_zero_rd (gainAt rnd qs) qs.length k hg]
      rfl

end Rounded

/-! ## Rounding: consequences of `Rounding` -/

namespace Rounding

variable {rnd : ℚ → Dbl}

theorem rnd_neg_eq (hr : Rounding rnd) (a : ℚ) (ha : rnd a = Dbl.fin a) :
    rnd (-a) = Dbl.fin (-a) := by
  rw [hr.neg, ha]; rfl

/-- A value below a number that the rounding keeps is rounded to a value below
that number, or to `-inf`. -/
theorem below (hr : Rounding rnd) (a q : ℚ) (ha : rnd a = Dbl.fin a) (hq : q ≤ a) :
    rnd q = Dbl.ninf ∨ ∃ r, rnd q = Dbl.fin r ∧ r ≤ a := by
  have h := hr.above (-a) (-q) (rnd_neg_eq hr a ha) (by linarith)
  rw [hr.neg q] at h
  rcases h with h | ⟨r, h, hle⟩
  · left
    cases hq' : rnd q <;> rw [hq'] at h <;> first | rfl | cases h
  · right
    cases hq' : rnd q with
    | fin s =>
      rw [hq'] at h
      have hs : -s = r := by injection h
      exact ⟨s, rfl, by linarith⟩
    | pinf => rw [hq'] at h; cases h
    | ninf => rw [hq'] at h; cases h
    | nan => rw [hq'] at h; cases h

/-- A value between two numbers that the rounding keeps is rounded to a finite
value between them. -/
theorem between (hr : Rounding rnd) (a b q : ℚ) (ha : rnd a = Dbl.fin a)
    (hb : rnd b = Dbl.fin b) (haq : a ≤ q) (hqb : q ≤ b) :
    ∃ r, rnd q = Dbl.fin r ∧ a ≤ r ∧ r ≤ b := by
  rcases hr.above a q ha haq with h | ⟨r, h, hle⟩
  · rcases below hr b q hb hqb with h' | ⟨r', h', _⟩
    · rw [h] at h'; cases h'
    · rw [h] at h'; cases h'
  · rcases below hr b q hb hqb with h' | ⟨r', h', hle'⟩
    · rw [h] at h'; cases h'
    · rw [h] at h'
      have : r = r' := by injection h'
      exact ⟨r, h, hle, by rw [this]; exact hle'⟩

/-- A value `≥ 0` is rounded to `+inf` or to a finite value `≥ 0`. -/
theorem nonneg (hr : Rounding rnd) (q : ℚ) (hq : 0 ≤ q) : (rnd q).NonNeg :=
  hr.above 0 q hr.zero hq

/-- A rounded value is never `NAN`. -/
theorem ne_nan (hr : Rounding rnd) (q : ℚ) : rnd q ≠ Dbl.nan := by
  intro h
  rcases le_total 0 q with hq | hq
  · rcases hr.above 0 q hr.zero hq with h' | ⟨r, h', _⟩ <;> rw [h] at h' <;> cases h'
  · rcases below hr 0 q hr.zero hq with h' | ⟨r, h', _⟩ <;> rw [h] at h' <;> cases h'

theorem rnd_neg_one (hr : Rounding rnd) : rnd (-1) = Dbl.fin (-1) :=
  rnd_neg_eq hr 1 hr.one

end Rounding

/-- Exact arithmetic is a rounding. -/
theorem rounding_fin : Rounding Dbl.fin where
  zero := rfl
  one := rfl
  hundred := rfl
  neg := fun _ => rfl
  above := fun _ q _ h => Or.inr ⟨q, rfl, h⟩

/-! ## Rounded routines: the drawdown -/

namespace Rounded

@[simp] theorem rd_fin_val (rnd : ℚ → Dbl) (q : ℚ) : rd rnd (Dbl.fin q) = rnd q := rfl

theorem rd_ne_nan {rnd : ℚ → Dbl} (hr : Rounding rnd) (v : Dbl) (hv : v ≠ Dbl.nan) :
    rd rnd v ≠ Dbl.nan := by
  cases v with
  | fin q => exact hr.ne_nan q
  | pinf => intro h; cases h
  | ninf => intro h; cases h
  | nan => exact absurd rfl hv

/-- With every operation rounded, the drawdown of a positive sample under its peak
is a finite value in `[-1, 0]`, and `0` when the sample is the peak. -/
theorem drawdown_range {rnd : ℚ → Dbl} (hr : Rounding rnd) (x p : ℚ) (hx : 0 < x)
    (hxp : x ≤ p) (hp : rnd p = Dbl.fin p) :
    ∃ v, drawdown rnd x p = Dbl.fin v ∧ -1 ≤ v ∧ v ≤ 0 ∧ (x = p → v = 0) := by
  have hp0 : 0 < p := lt_of_lt_of_le hx hxp
  have hpne : p ≠ 0 := ne_of_gt hp0
  obtain ⟨d, hd, hd1, hd2⟩ := hr.between (-p) 0 (x - p) (hr.rnd_neg_eq p hp) hr.zero
    (by linarith) (by linarith)
  obtain ⟨v, hv, hv1, hv2⟩ := hr.between (-1) 0 (d / p) hr.rnd_neg_one hr.zero
    (by rw [le_div_iff₀ hp0]; linarith) (div_nonpos_of_nonpos_of_nonneg hd2 (le_of_lt hp0))
  have hcell : drawdown rnd x p = rnd (d / p) := by
    unfold drawdown
    rw [if_neg hpne, Dbl.fin_sub, rd_fin_val, hd, Dbl.fin_div _ _ hpne, rd_fin_val]
  refine ⟨v, by rw [hcell, hv], hv1, hv2, ?_⟩
  intro hxeq
  have hd0 : d = 0 := by
    rw [hxeq, sub_self, hr.zero] at hd
    injection hd with h
    exact h.symm
  rw [hd0, zero_div, hr.zero] at hv
  injection hv with h
  exact h.symm

/-- With every operation rounded, the drawdown is never `NAN`. -/
theorem drawdown_ne_nan {rnd : ℚ → Dbl} (hr : Rounding rnd) (x p : ℚ) :
    drawdown rnd x p ≠ Dbl.nan := by
  unfold drawdown
  split_ifs with h
  · intro h'; cases h'
  · apply rd_ne_nan hr
    rw [Dbl.fin_sub, rd_fin_val]
    cases hd : rnd (x - p) with
    | fin d => rw [Dbl.fin_div _ _ h]; intro h'; cases h'
    | pinf =>
      show (if 0 ≤ p then Dbl.pinf else Dbl.ninf) ≠ Dbl.nan
      split_ifs <;> (intro h'; cases h')
    | ninf =>
      show (if 0 ≤ p then Dbl.ninf else Dbl.pinf) ≠ Dbl.nan
      split_ifs <;> (intro h'; cases h')
    | nan => exact absurd hd (hr.ne_nan _)

end Rounded

/-! ## Rounded routines: the relative strength index -/

namespace Rounded

theorem nonNeg_fin {q : ℚ} (hq : 0 ≤ q) : (Dbl.fin q).NonNeg := Or.inr ⟨q, rfl, hq⟩

theorem nonNeg_ne_nan {v : Dbl} (hv : v.NonNeg) : v ≠ Dbl.nan := by
  rcases hv with h | ⟨q, h, _⟩ <;> rw [h] <;> intro h' <;> cases h'

theorem rd_add_nonNeg {rnd : ℚ → Dbl} (hr : Rounding rnd) {a b : Dbl} (ha : a.NonNeg)
    (hb : b.NonNeg) : (rd rnd (a + b)).NonNeg := by
  rcases ha with ha | ⟨p, ha, hp⟩ <;> rcases hb with hb | ⟨q, hb, hq⟩ <;> subst ha <;> subst hb
  · exact Or.inl rfl
  · exact Or.inl rfl
  · exact Or.inl rfl
  · exact hr.nonneg (p + q) (add_nonneg hp hq)

theorem rd_add_nonNegOrNan {rnd : ℚ → Dbl} (hr : Rounding rnd) {a b : Dbl}
    (ha : a.NonNegOrNan) (hb : b.NonNeg) : (rd rnd (a + b)).NonNegOrNan := by
  rcases ha with ha | ha
  · subst ha
    left
    cases b <;> rfl
  · exact Or.inr (rd_add_nonNeg hr ha hb)

theorem rd_div_nat_nonNeg {rnd : ℚ → Dbl} (hr : Rounding rnd) {a : Dbl} (ha : a.NonNeg)
    (W : Nat) (hW : 1 ≤ W) : (rd rnd (a / Dbl.ofInt W)).NonNeg := by
  have hWq : (0 : ℚ) < W := by exact_mod_cast hW
  rcases ha with ha | ⟨p, ha, hp⟩ <;> subst ha
  · left
    show rd rnd (if (0 : ℚ) ≤ ((W : Int) : ℚ) then Dbl.pinf else Dbl.ninf) = Dbl.pinf
    rw [if_pos (by simp)]
    rfl
  · simp only [Dbl.ofInt, Int.cast_natCast, Dbl.fin_div _ _ (ne_of_gt hWq), rd_fin_val]
    exact hr.nonneg _ (div_nonneg hp (le_of_lt hWq))

theorem rd_div_nat_nonNegOrNan {rnd : ℚ → Dbl} (hr : Rounding rnd) {a : Dbl}
    (ha : a.NonNegOrNan) (W : Nat) (hW : 1 ≤ W) : (rd rnd (a / Dbl.ofInt W)).NonNegOrNan := by
  rcases ha with ha | ha
  · subst ha; exact Or.inl rfl
  · exact Or.inr (rd_div_nat_nonNeg hr ha W hW)

theorem rd_mul_pred_nonNegOrNan {rnd : ℚ → Dbl} (hr : Rounding rnd) {a : Dbl}
    (ha : a.NonNegOrNan) (W : Nat) (hW : 1 ≤ W) :
    (rd rnd (a * Dbl.ofInt ((W : Int) - 1))).NonNegOrNan := by
  have hWq : (0 : ℚ) ≤ (W : ℚ) - 1 := by
    have : (1 : ℚ) ≤ W := by exact_mod_cast hW
    linarith
  have hcast : (((W : Int) - 1 : Int) : ℚ) = (W : ℚ) - 1 := by push_cast; ring
  rcases ha with ha | ha | ⟨p, ha, hp⟩ <;> subst ha
  · exact Or.inl rfl
  · show (rd rnd (Dbl.ofSign (((W : Int) - 1 : Int) : ℚ))).NonNegOrNan
    rw [hcast]
    unfold Dbl.ofSign
    split_ifs
    · exact Or.inr (Or.inl rfl)
    · linarith
    · exact Or.inl rfl
  · simp only [Dbl.ofInt, Dbl.fin_mul, rd_fin_val, hcast]
    exact Or.inr (hr.nonneg _ (mul_nonneg hp hWq))

theorem change_cases {rnd : ℚ → Dbl} (hr : Rounding rnd) (qs : List ℚ) (j : Nat) :
    change rnd qs j = Dbl.pinf ∨ change rnd qs j = Dbl.ninf ∨ ∃ r, change rnd qs j = Dbl.fin r := by
  unfold change
  rw [Dbl.fin_sub, rd_fin_val]
  cases h : rnd (qs.getD j 0 - qs.getD (j - 1) 0) with
  | fin r => exact Or.inr (Or.inr ⟨r, rfl⟩)
  | pinf => exact Or.inl rfl
  | ninf => exact Or.inr (Or.inl rfl)
  | nan => exact absurd h (hr.ne_nan _)

theorem gainAt_nonNeg {rnd : ℚ → Dbl} (hr : Rounding rnd) (qs : List ℚ) (j : Nat) :
    (gainAt rnd qs j).NonNeg := by
  unfold gainAt
  split_ifs with h0 hgt
  · exact nonNeg_fin le_rfl
  · rcases change_cases hr qs j with h | h | ⟨r, h⟩
    · rw [h]; exact Or.inl rfl
    · rw [h] at hgt; cases hgt
    · rw [h] at hgt ⊢
      exact nonNeg_fin (le_of_lt (by simpa using hgt))
  · exact nonNeg_fin le_rfl

theorem lossAt_nonNeg {rnd : ℚ → Dbl} (hr : Rounding rnd) (qs : List ℚ) (j : Nat) :
    (lossAt rnd qs j).NonNeg := by
  unfold lossAt
  split_ifs with h0 hgt
  · exact nonNeg_fin le_rfl
  · exact nonNeg_fin le_rfl
  · rcases change_cases hr qs j with h | h | ⟨r, h⟩
    · rw [h] at hgt; exact absurd rfl hgt
    · rw [h]; exact Or.inl rfl
    · rw [h] at hgt ⊢
      have hr0 : r ≤ 0 := by simpa using hgt
      exact nonNeg_fin (q := -r) (by linarith)

theorem firstSum_nonNeg {rnd : ℚ → Dbl} (hr : Rounding rnd) (x : Nat → Dbl)
    (hx : ∀ j, (x j).NonNeg) (n : Nat) : (firstSum rnd x n).NonNeg := by
  induction n with
  | zero => exact nonNeg_fin le_rfl
  | succ m ih => exact rd_add_nonNeg hr ih (hx _)

theorem wilder_nonNegOrNan {rnd : ℚ → Dbl} (hr : Rounding rnd) (x : Nat → Dbl)
    (hx : ∀ j, (x j).NonNeg) (W : Nat) (hW : 1 ≤ W) (n : Nat) :
    (wilder rnd x W n).NonNegOrNan := by
  induction n with
  | zero => exact Or.inr (rd_div_nat_nonNeg hr (firstSum_nonNeg hr x hx W) W hW)
  | succ m ih =>
    rw [wilder]
    split_ifs
    · exact rd_div_nat_nonNegOrNan hr
        (rd_add_nonNegOrNan hr (rd_mul_pred_nonNegOrNan hr ih W hW) (hx m)) W hW
    · exact ih

/-- The relative strength of two averages that are `NAN`, `+inf` or `≥ 0`, the
second not `0`, is again `NAN`, `+inf` or `≥ 0`. -/
theorem rs_nonNegOrNan {rnd : ℚ → Dbl} (hr : Rounding rnd) {ag al : Dbl}
    (hag : ag.NonNegOrNan) (hal : al.NonNegOrNan) (hne : ¬ Dbl.eq al (Dbl.fin 0) = true) :
    (rd rnd (ag / al)).NonNegOrNan := by
  rcases hal with hal | hal | ⟨q, hal, hq⟩ <;> subst hal
  · left; cases ag <;> rfl
  · rcases hag with hag | hag | ⟨p, hag, _⟩ <;> subst hag
    · exact Or.inl rfl
    · exact Or.inl rfl
    · right
      show (rnd 0).NonNeg
      rw [hr.zero]; exact nonNeg_fin le_rfl
  · have hq0 : q ≠ 0 := by simpa using hne
    have hqpos : 0 < q := lt_of_le_of_ne hq (Ne.symm hq0)
    rcases hag with hag | hag | ⟨p, hag, hp⟩ <;> subst hag
    · exact Or.inl rfl
    · right; left
      show rd rnd (if 0 ≤ q then Dbl.pinf else Dbl.ninf) = Dbl.pinf
      rw [if_pos hq]; rfl
    · right
      rw [Dbl.fin_div _ _ hq0, rd_fin_val]
      exact hr.nonneg _ (div_nonneg hp hq)

/-- The value `calculate_rsi` writes, every operation rounded, for two averages that
are `NAN`, `+inf` or `≥ 0`: `NAN`, or a finite value in `[0, 100]`. -/
theorem rsiCell_range {rnd : ℚ → Dbl} (hr : Rounding rnd) {ag al : Dbl}
    (hag : ag.NonNegOrNan) (hal : al.NonNegOrNan) :
    rsiCell rnd ag al = Dbl.nan ∨ ∃ v, rsiCell rnd ag al = Dbl.fin v ∧ 0 ≤ v ∧ v ≤ 100 := by
  unfold rsiCell
  split_ifs with heq
  · exact Or.inr ⟨100, rfl, by norm_num, le_rfl⟩
  · have h100 : ∀ u : ℚ, 0 ≤ u → u ≤ 100 →
        ∃ v, rnd (100 - u) = Dbl.fin v ∧ 0 ≤ v ∧ v ≤ 100 := fun u h0 h1 =>
      hr.between 0 100 (100 - u) hr.zero hr.hundred (by linarith) (by linarith)
    rcases rs_nonNegOrNan hr hag hal heq with hrs | hrs | ⟨r, hrs, hr0⟩ <;> rw [hrs]
    · exact Or.inl rfl
    · right
      show ∃ v, rd rnd (Dbl.fin 100 - rd rnd (Dbl.fin 100 / rd rnd Dbl.pinf)) = Dbl.fin v ∧ _
      have h1 : rd rnd (Dbl.fin 100 / rd rnd Dbl.pinf) = Dbl.fin 0 := by
        show rnd 0 = Dbl.fin 0
        exact hr.zero
      rw [h1, Dbl.fin_sub, rd_fin_val]
      exact h100 0 le_rfl (by norm_num)
    · rw [Dbl.fin_add, rd_fin_val]
      rcases hr.above 1 (1 + r) hr.one (by linarith) with h1 | ⟨s, h1, hs⟩ <;> rw [h1]
      · right
        have h2 : rd rnd (Dbl.fin 100 / Dbl.pinf) = Dbl.fin 0 := by
          show rnd 0 = Dbl.fin 0
          exact hr.zero
        rw [h2, Dbl.fin_sub, rd_fin_val]
        exact h100 0 le_rfl (by norm_num)
      · right
        have hs0 : (0 : ℚ) < s := by linarith
        rw [Dbl.fin_div _ _ (ne_of_gt hs0), rd_fin_val]
        obtain ⟨u, hu, hu0, hu1⟩ := hr.between 0 100 (100 / s) hr.zero hr.hundred
          (by positivity) (by rw [div_le_iff₀ hs0]; nlinarith)
        rw [hu, Dbl.fin_sub, rd_fin_val]
        exact h100 u hu0 hu1

/-- A loss is `0` where the series does not fall. -/
theorem lossAt_eq_zero {rnd : ℚ → Dbl} (hr : Rounding rnd) (qs : List ℚ) (j : Nat)
    (hj : qs.getD (j - 1) 0 ≤ qs.getD j 0) : lossAt rnd qs j = Dbl.fin 0 := by
  unfold lossAt
  split_ifs with h0 hgt
  · rfl
  · rfl
  · have hch : change rnd qs j = rnd (qs.getD j 0 - qs.getD (j - 1) 0) := by
      rw [change, Dbl.fin_sub, rd_fin_val]
    rw [hch] at hgt ⊢
    rcases hr.above 0 _ hr.zero (sub_nonneg.mpr hj) with h | ⟨r, h, hr0⟩
    · rw [h] at hgt; exact absurd rfl hgt
    · rw [h] at hgt ⊢
      have hle : r ≤ 0 := by simpa using hgt
      have : r = 0 := le_antisymm hle hr0
      rw [this]
      show Dbl.fin (-0) = Dbl.fin 0
      rw [neg_zero]

theorem firstSum_eq_zero {rnd : ℚ → Dbl} (hr : Rounding rnd) (x : Nat → Dbl) (n : Nat)
    (hx : ∀ j, 1 ≤ j → j ≤ n → x j = Dbl.fin 0) : firstSum rnd x n = Dbl.fin 0 := by
  induction n with
  | zero => rfl
  | succ m ih =>
    rw [firstSum, ih (fun j h1 hj => hx j h1 (by omega)), hx (m + 1) (by omega) le_rfl,
      Dbl.fin_add, rd_fin_val, add_zero, hr.zero]

/-- The smoothed average of values that are all `0` so far is `0`. -/
theorem wilder_eq_zero {rnd : ℚ → Dbl} (hr : Rounding rnd) (x : Nat → Dbl) (W : Nat)
    (hW : 1 ≤ W) (i : Nat) (hWi : W ≤ i) (hx : ∀ j, 1 ≤ j → j ≤ i → x j = Dbl.fin 0) :
    wilder rnd x W (i + 1) = Dbl.fin 0 := by
  have hne : (W : ℚ) ≠ 0 := by positivity
  induction i, hWi using Nat.le_induction with
  | base =>
    rw [wilder_first_rd rnd x W (W + 1) le_rfl, firstSum_eq_zero hr x W hx]
    simp only [Dbl.ofInt, Int.cast_natCast, Dbl.fin_div _ _ hne, rd_fin_val, zero_div, hr.zero]
  | succ m hm ih =>
    rw [wilder_step_rd rnd x W (m + 1) (by omega), ih (fun j h1 hj => hx j h1 (by omega)),
      hx (m + 1) (by omega) le_rfl]
    simp only [Dbl.ofInt, Int.cast_natCast, Dbl.fin_mul, rd_fin_val, zero_mul, hr.zero,
      Dbl.fin_add, add_zero, Dbl.fin_div _ _ hne, zero_div]

end Rounded

/-! ## Rounded routines: sums, means and the standard deviation -/

namespace Rounded

theorem rd_add_fin_ne_nan {rnd : ℚ → Dbl} (hr : Rounding rnd) (s : Dbl) (x : ℚ)
    (hs : s ≠ Dbl.nan) : rd rnd (s + Dbl.fin x) ≠ Dbl.nan := by
  apply rd_ne_nan hr
  cases s with
  | fin q => intro h; cases h
  | pinf => intro h; cases h
  | ninf => intro h; cases h
  | nan => exact absurd rfl hs

theorem backSum_ne_nan {rnd : ℚ → Dbl} (hr : Rounding rnd) (qs : List ℚ) (i n : Nat) :
    backSum rnd qs i n ≠ Dbl.nan := by
  induction n with
  | zero => intro h; cases h
  | succ m ih => exact rd_add_fin_ne_nan hr _ _ ih

theorem rd_div_nat_ne_nan {rnd : ℚ → Dbl} (hr : Rounding rnd) (s : Dbl) (W : Nat)
    (hW : 1 ≤ W) (hs : s ≠ Dbl.nan) : rd rnd (s / Dbl.ofInt W) ≠ Dbl.nan := by
  have hne : (W : ℚ) ≠ 0 := by positivity
  apply rd_ne_nan hr
  cases s with
  | fin q =>
    simp only [Dbl.ofInt, Int.cast_natCast, Dbl.fin_div _ _ hne]
    intro h; cases h
  | pinf =>
    show (if (0 : ℚ) ≤ ((W : Int) : ℚ) then Dbl.pinf else Dbl.ninf) ≠ Dbl.nan
    split_ifs <;> (intro h; cases h)
  | ninf =>
    show (if (0 : ℚ) ≤ ((W : Int) : ℚ) then Dbl.ninf else Dbl.pinf) ≠ Dbl.nan
    split_ifs <;> (intro h; cases h)
  | nan => exact absurd rfl hs

/-- The rounded square of the rounded deviation from a mean that is not `NAN` is
`+inf` or a finite value `≥ 0`. -/
theorem sq_dev_nonNeg {rnd : ℚ → Dbl} (hr : Rounding rnd) (x : ℚ) (mean : Dbl)
    (hm : mean ≠ Dbl.nan) :
    (rd rnd (rd rnd (Dbl.fin x - mean) * rd rnd (Dbl.fin x - mean))).NonNeg := by
  have hdev : rd rnd (Dbl.fin x - mean) ≠ Dbl.nan := by
    apply rd_ne_nan hr
    cases mean with
    | fin q => intro h; cases h
    | pinf => intro h; cases h
    | ninf => intro h; cases h
    | nan => exact absurd rfl hm
  cases hd : rd rnd (Dbl.fin x - mean) with
  | fin r =>
    rw [Dbl.fin_mul, rd_fin_val]
    exact hr.nonneg _ (mul_self_nonneg r)
  | pinf => exact Or.inl rfl
  | ninf => exact Or.inl rfl
  | nan => exact absurd hd hdev

theorem sqSum_nonNeg {rnd : ℚ → Dbl} (hr : Rounding rnd) (qs : List ℚ) (i : Nat) (mean : Dbl)
    (hm : mean ≠ Dbl.nan) (n : Nat) : (sqSum rnd qs i mean n).NonNeg := by
  induction n with
  | zero => exact nonNeg_fin le_rfl
  | succ m ih => exact rd_add_nonNeg hr ih (sq_dev_nonNeg hr _ mean hm)

/-- With every operation rounded and a window of at least two samples, the value
`calculate_stddev` writes is `+inf` or a finite value `≥ 0`. -/
theorem stddevCell_nonNeg {rnd : ℚ → Dbl} (hr : Rounding rnd) (sqrtQ : ℚ → ℚ)
    (hsn : ∀ x, 0 ≤ x → 0 ≤ sqrtQ x) (qs : List ℚ) (W i : Nat) (hW : 2 ≤ W) :
    (stddevCell rnd sqrtQ qs W i).NonNeg := by
  have hmean : rd rnd (backSum rnd qs i W / Dbl.ofInt W) ≠ Dbl.nan :=
    rd_div_nat_ne_nan hr _ W (by omega) (backSum_ne_nan hr qs i W)
  have hcast : ((W : Int) - 1) = ((W - 1 : Nat) : Int) := by omega
  have hq := rd_div_nat_nonNeg hr (sqSum_nonNeg hr qs i _ hmean W) (W - 1) (by omega)
  unfold stddevCell
  rw [hcast]
  rcases hq with h | ⟨v, h, hv⟩ <;> rw [h]
  · exact Or.inl rfl
  · right
    refine ⟨sqrtQ v, ?_, hsn v hv⟩
    show (if v < 0 then Dbl.nan else Dbl.fin (sqrtQ v)) = Dbl.fin (sqrtQ v)
    rw [if_neg (not_lt.mpr hv)]

end Rounded

/-! ## `round64` is a rounding -/

theorem bitLengthAux_zero (f : Nat) : bitLengthAux f 0 = 0 := by
  cases f <;> simp [bitLengthAux]

theorem bitLengthAux_spec : ∀ f n : Nat, 0 < n → n ≤ f →
    2 ^ bitLengthAux f n ≤ 2 * n ∧ n < 2 ^ bitLengthAux f n
  | 0, n, h0, hf => by omega
  | f + 1, n, h0, hf => by
    have hn : n ≠ 0 := by omega
    simp only [bitLengthAux, if_neg hn]
    by_cases h2 : n / 2 = 0
    · rw [h2, bitLengthAux_zero]
      have : n = 1 := by omega
      subst this; simp
    · obtain ⟨h1, h3⟩ := bitLengthAux_spec f (n / 2) (by omega) (by omega)
      rw [pow_succ]
      constructor <;> omega

/-- The binary length: `2^(bitLength n) ≤ 2 n` and `n < 2^(bitLength n)`. -/
theorem bitLength_spec (n : Nat) (h : 0 < n) :
    2 ^ bitLength n ≤ 2 * n ∧ n < 2 ^ bitLength n :=
  bitLengthAux_spec n n h le_rfl

theorem bitLength_le (n : Nat) (h : 0 < n) : (2 : ℚ) ^ (bitLength n : ℤ) ≤ 2 * n := by
  have := (bitLength_spec n h).1
  rw [zpow_natCast]; exact_mod_cast this

theorem bitLength_gt (n : Nat) (h : 0 < n) : (n : ℚ) < (2 : ℚ) ^ (bitLength n : ℤ) := by
  have := (bitLength_spec n h).2
  rw [zpow_natCast]; exact_mod_cast this

theorem pow2_eq (E : Int) : pow2 E = (2 : ℚ) ^ E := by
  unfold pow2
  split_ifs with h
  · obtain ⟨n, rfl⟩ := Int.eq_ofNat_of_zero_le h
    simp
  · obtain ⟨n, rfl⟩ : ∃ n : ℕ, E = -(n : ℤ) := ⟨(-E).toNat, by omega⟩
    simp

theorem shl_div (a d : Nat) (E : Int) :
    ((shl a (-E) : Nat) : ℚ) / ((shl d E : Nat) : ℚ) = (a : ℚ) / d / 2 ^ E := by
  unfold shl
  rcases le_total 0 E with h | h
  · obtain ⟨n, rfl⟩ := Int.eq_ofNat_of_zero_le h
    simp [div_div]
  · obtain ⟨n, rfl⟩ : ∃ n : ℕ, E = -(n : ℤ) := ⟨(-E).toNat, by omega⟩
    simp
    field_simp

theorem shl_pos (d : Nat) (hd : 0 < d) (E : Int) : 0 < shl d E :=
  Nat.mul_pos hd (by positivity)

/-- The test of `floorLog2`, read in the rationals. -/
theorem shl_le_iff (a d : Nat) (hd : 0 < d) (L : Int) :
    shl d L ≤ shl a (-L) ↔ (2 : ℚ) ^ L ≤ (a : ℚ) / d := by
  have hpos : (0 : ℚ) < ((shl d L : Nat) : ℚ) := by exact_mod_cast shl_pos d hd L
  have h2 : (0 : ℚ) < (2 : ℚ) ^ L := by positivity
  have key := shl_div a d L
  rw [← Nat.cast_le (α := ℚ), ← one_le_div hpos, key, le_div_iff₀ h2, one_mul]

/-- The exponent of the leading bit: `2^e ≤ a / d < 2^(e+1)`. -/
theorem floorLog2_spec (a d : Nat) (ha : 0 < a) (hd : 0 < d) :
    (2 : ℚ) ^ floorLog2 a d ≤ (a : ℚ) / d ∧ (a : ℚ) / d < (2 : ℚ) ^ (floorLog2 a d + 1) := by
  have hdq : (0 : ℚ) < d := by exact_mod_cast hd
  have ha1 := bitLength_le a ha
  have ha2 := bitLength_gt a ha
  have hd1 := bitLength_le d hd
  have hd2 := bitLength_gt d hd
  have hbd : (0 : ℚ) < (2 : ℚ) ^ (bitLength d : ℤ) := by positivity
  have hlow : (2 : ℚ) ^ ((bitLength a : ℤ) - (bitLength d : ℤ) - 1) ≤ (a : ℚ) / d := by
    rw [le_div_iff₀ hdq, zpow_sub₀ (by norm_num), zpow_sub₀ (by norm_num), zpow_one]
    rw [div_div, div_mul_eq_mul_div, div_le_iff₀ (by positivity)]
    nlinarith
  have hhigh : (a : ℚ) / d < (2 : ℚ) ^ ((bitLength a : ℤ) - (bitLength d : ℤ) + 1) := by
    rw [div_lt_iff₀ hdq, zpow_add₀ (by norm_num), zpow_sub₀ (by norm_num), zpow_one]
    rw [div_mul_eq_mul_div, div_mul_eq_mul_div, lt_div_iff₀ hbd]
    nlinarith
  unfold floorLog2
  simp only
  split_ifs with h
  · exact ⟨(shl_le_iff a d hd _).1 h, hhigh⟩
  · refine ⟨hlow, ?_⟩
    rw [sub_add_cancel]
    exact lt_of_not_le (fun h' => h ((shl_le_iff a d hd _).2 h'))

/-- Rounding a quotient of naturals to the nearest integer: an integer under the
quotient is under its rounding. -/
theorem nearest_ge (num den j : Nat) (hden : 0 < den) (h : j * den ≤ num) :
    j ≤ (if den < 2 * (num % den) ∨ (2 * (num % den) = den ∧ num / den % 2 = 1)
      then num / den + 1 else num / den) := by
  have hj : j ≤ num / den := (Nat.le_div_iff_mul_le hden).2 h
  split_ifs <;> omega

/-- Rounding a quotient of naturals to the nearest integer: an integer above the
quotient is above its rounding. -/
theorem nearest_le (num den j : Nat) (hden : 0 < den) (h : num ≤ j * den) :
    (if den < 2 * (num % den) ∨ (2 * (num % den) = den ∧ num / den % 2 = 1)
      then num / den + 1 else num / den) ≤ j := by
  have hk : num / den ≤ j := by
    calc num / den ≤ j * den / den := Nat.div_le_div_right h
      _ = j := Nat.mul_div_cancel j hden
  split_ifs with hc
  · have hr : 0 < num % den := by omega
    by_contra hlt
    have hjk : j = num / den := by omega
    have := Nat.div_add_mod num den
    rw [hjk] at h
    nlinarith [Nat.mul_comm den (num / den)]
  · exact hk

theorem mantissa_ge (a d : Nat) (hd : 0 < d) (E : Int) (j : Nat)
    (h : (j : ℚ) * 2 ^ E ≤ (a : ℚ) / d) : j ≤ mantissa a d E := by
  have hpos : (0 : ℚ) < ((shl d E : Nat) : ℚ) := by exact_mod_cast shl_pos d hd E
  have h2 : (0 : ℚ) < (2 : ℚ) ^ E := by positivity
  have key := shl_div a d E
  have h' : (j : ℚ) ≤ ((shl a (-E) : Nat) : ℚ) / ((shl d E : Nat) : ℚ) := by
    rw [key, le_div_iff₀ h2]; exact h
  rw [le_div_iff₀ hpos] at h'
  exact nearest_ge _ _ j (shl_pos d hd E) (by exact_mod_cast h')

theorem mantissa_le (a d : Nat) (hd : 0 < d) (E : Int) (j : Nat)
    (h : (a : ℚ) / d ≤ (j : ℚ) * 2 ^ E) : mantissa a d E ≤ j := by
  have hpos : (0 : ℚ) < ((shl d E : Nat) : ℚ) := by exact_mod_cast shl_pos d hd E
  have h2 : (0 : ℚ) < (2 : ℚ) ^ E := by positivity
  have key := shl_div a d E
  have h' : ((shl a (-E) : Nat) : ℚ) / ((shl d E : Nat) : ℚ) ≤ (j : ℚ) := by
    rw [key, div_le_iff₀ h2]; exact h
  rw [div_le_iff₀ hpos] at h'
  exact nearest_le _ _ j (shl_pos d hd E) (by exact_mod_cast h')

theorem lastBit_ge (a d : Nat) : -1074 ≤ lastBit a d := le_max_right _ _

/-- The quotient `a / d` has no bit at or above `53` places over its last bit. -/
theorem lt_lastBit (a d : Nat) (ha : 0 < a) (hd : 0 < d) :
    (a : ℚ) / d < (2 : ℚ) ^ (lastBit a d + 53) := by
  refine lt_of_lt_of_le (floorLog2_spec a d ha hd).2 ?_
  apply zpow_le_zpow_right₀ (by norm_num)
  have : floorLog2 a d - 52 ≤ lastBit a d := le_max_left _ _
  omega

/-- Above the subnormal numbers the leading bit is `52` places over the last bit. -/
theorem lastBit_le (a d : Nat) (ha : 0 < a) (hd : 0 < d) (h : -1074 < lastBit a d) :
    (2 : ℚ) ^ (lastBit a d + 52) ≤ (a : ℚ) / d := by
  have hE : lastBit a d = floorLog2 a d - 52 := by
    unfold lastBit at h ⊢
    rcases max_cases (floorLog2 a d - 52) (-1074) with ⟨h1, _⟩ | ⟨h1, _⟩
    · exact h1
    · rw [h1] at h; omega
  rw [hE, sub_add_cancel]
  exact (floorLog2_spec a d ha hd).1

/-- The last bit kept grows with the quotient. -/
theorem lastBit_mono (a d b e : Nat) (ha : 0 < a) (hd : 0 < d) (hb : 0 < b) (he : 0 < e)
    (h : (a : ℚ) / d ≤ (b : ℚ) / e) : lastBit a d ≤ lastBit b e := by
  have h1 := (floorLog2_spec a d ha hd).1
  have h2 := (floorLog2_spec b e hb he).2
  have h3 : (2 : ℚ) ^ floorLog2 a d < (2 : ℚ) ^ (floorLog2 b e + 1) :=
    lt_of_le_of_lt (le_trans h1 h) h2
  have h4 : floorLog2 a d < floorLog2 b e + 1 := (zpow_lt_zpow_iff_right₀ (by norm_num)).1 h3
  unfold lastBit
  exact max_le_max (by omega) le_rfl

theorem pow_le_mantissa (a d : Nat) (ha : 0 < a) (hd : 0 < d) (h : -1074 < lastBit a d) :
    2 ^ 52 ≤ mantissa a d (lastBit a d) := by
  apply mantissa_ge a d hd
  have h := lastBit_le a d ha hd h
  rw [zpow_add₀ (by norm_num)] at h
  have : ((2 ^ 52 : ℕ) : ℚ) = (2 : ℚ) ^ (52 : ℤ) := by norm_num
  rw [this, mul_comm]
  exact h

/-- A positive rational is the quotient of its numerator by its denominator, both
positive naturals. -/
theorem pos_parts (q : ℚ) (h : 0 < q) :
    0 < q.num.natAbs ∧ 0 < q.den ∧ ((q.num.natAbs : ℕ) : ℚ) / (q.den : ℚ) = q := by
  have hn : 0 < q.num := Rat.num_pos.2 h
  refine ⟨by omega, q.den_pos, ?_⟩
  have : ((q.num.natAbs : ℕ) : ℚ) = ((q.num : ℤ) : ℚ) := by
    have h' : ((q.num.natAbs : ℕ) : ℤ) = q.num := Int.natAbs_of_nonneg hn.le
    rw [← h', Int.cast_natCast, Int.natAbs_ofNat]
  rw [this]
  exact Rat.num_div_den q

/-- The rounding of a positive rational. -/
theorem round64_pos (q : ℚ) (h : 0 < q) :
    round64 q =
      if 971 < lastBit q.num.natAbs q.den ∨ (lastBit q.num.natAbs q.den = 971 ∧
          mantissa q.num.natAbs q.den (lastBit q.num.natAbs q.den) = 2 ^ 53) then Dbl.pinf
      else Dbl.fin ((mantissa q.num.natAbs q.den (lastBit q.num.natAbs q.den) : ℚ)
        * (2 : ℚ) ^ lastBit q.num.natAbs q.den) := by
  unfold round64
  simp only [if_neg (ne_of_gt h), if_pos h, pow2_eq]

theorem round64_neg (q : ℚ) : round64 (-q) = -(round64 q) := by
  by_cases h0 : q = 0
  · subst h0
    simp only [neg_zero, round64, if_true]
    show Dbl.fin 0 = Dbl.fin (-0)
    rw [neg_zero]
  · have h0' : -q ≠ 0 := neg_ne_zero.2 h0
    unfold round64
    simp only [if_neg h0, if_neg h0', Rat.num_neg_eq_neg_num, Int.natAbs_neg, Rat.den_neg_eq_den, Left.neg_pos_iff]
    rcases lt_or_gt_of_ne h0 with h | h
    · have h' : ¬ 0 < q := not_lt.2 h.le
      simp only [if_pos h, if_neg h']
      split_ifs
      · rfl
      · show _ = Dbl.fin _
        rw [neg_neg]
    · have h' : ¬ q < 0 := not_lt.2 h.le
      simp only [if_pos h, if_neg h']
      split_ifs <;> rfl

/-- A positive number that `round64` keeps is its mantissa times the power of its
last bit, the mantissa under `2^53` and the last bit at most `971`. -/
theorem round64_kept (a : ℚ) (h : 0 < a) (hk : round64 a = Dbl.fin a) :
    a = (mantissa a.num.natAbs a.den (lastBit a.num.natAbs a.den) : ℚ)
        * (2 : ℚ) ^ lastBit a.num.natAbs a.den ∧
      lastBit a.num.natAbs a.den ≤ 971 ∧
      mantissa a.num.natAbs a.den (lastBit a.num.natAbs a.den) < 2 ^ 53 := by
  obtain ⟨hn, hd, hq⟩ := pos_parts a h
  rw [round64_pos a h] at hk
  split_ifs at hk with hc
  have hc' := not_or.1 hc
  have hval : (mantissa a.num.natAbs a.den (lastBit a.num.natAbs a.den) : ℚ)
      * (2 : ℚ) ^ lastBit a.num.natAbs a.den = a := by injection hk
  refine ⟨hval.symm, not_lt.1 hc'.1, ?_⟩
  have hlt := lt_lastBit _ _ hn hd
  rw [hq, zpow_add₀ (by norm_num)] at hlt
  have h2 : (0 : ℚ) < (2 : ℚ) ^ lastBit a.num.natAbs a.den := by positivity
  have hlt' : (mantissa a.num.natAbs a.den (lastBit a.num.natAbs a.den) : ℚ)
      * (2 : ℚ) ^ lastBit a.num.natAbs a.den
      < (2 : ℚ) ^ (53 : ℤ) * (2 : ℚ) ^ lastBit a.num.natAbs a.den := by
    rw [hval, mul_comm]; exact hlt
  have hm := lt_of_mul_lt_mul_right hlt' h2.le
  have : ((2 ^ 53 : ℕ) : ℚ) = (2 : ℚ) ^ (53 : ℤ) := by norm_num
  rw [← this] at hm
  exact_mod_cast hm

/-- Above a positive number that `round64` keeps, `round64` gives a value above that
number, or `+inf`. -/
theorem round64_above_pos (a q : ℚ) (ha : 0 < a) (hk : round64 a = Dbl.fin a)
    (haq : a ≤ q) :
    round64 q = Dbl.pinf ∨ ∃ r, round64 q = Dbl.fin r ∧ a ≤ r := by
  have hq0 : 0 < q := lt_of_lt_of_le ha haq
  obtain ⟨han, had, hae⟩ := pos_parts a ha
  obtain ⟨hqn, hqd, hqe⟩ := pos_parts q hq0
  obtain ⟨hval, -, -⟩ := round64_kept a ha hk
  rw [round64_pos q hq0]
  split_ifs with hc
  · exact Or.inl rfl
  · refine Or.inr ⟨_, rfl, ?_⟩
    have hmono : lastBit a.num.natAbs a.den ≤ lastBit q.num.natAbs q.den :=
      lastBit_mono _ _ _ _ han had hqn hqd (by rw [hae, hqe]; exact haq)
    have h2 : (0 : ℚ) < (2 : ℚ) ^ lastBit q.num.natAbs q.den := by positivity
    rcases eq_or_lt_of_le hmono with heq | hlt
    · have hm : mantissa a.num.natAbs a.den (lastBit a.num.natAbs a.den)
          ≤ mantissa q.num.natAbs q.den (lastBit q.num.natAbs q.den) := by
        apply mantissa_ge _ _ hqd
        rw [hqe, ← heq, ← hval]; exact haq
      rw [hval, heq]
      rw [heq] at hm
      exact mul_le_mul_of_nonneg_right (by exact_mod_cast hm) h2.le
    · have hsub : -1074 < lastBit q.num.natAbs q.den :=
        lt_of_le_of_lt (lastBit_ge _ _) hlt
      have hm := pow_le_mantissa _ _ hqn hqd hsub
      have h1 := lt_lastBit _ _ han had
      rw [hae] at h1
      have h3 : (2 : ℚ) ^ (lastBit a.num.natAbs a.den + 53)
          ≤ (2 : ℚ) ^ (lastBit q.num.natAbs q.den + 52) :=
        zpow_le_zpow_right₀ (by norm_num) (by omega)
      have h4 : (2 : ℚ) ^ (lastBit q.num.natAbs q.den + 52)
          ≤ (mantissa q.num.natAbs q.den (lastBit q.num.natAbs q.den) : ℚ)
            * (2 : ℚ) ^ lastBit q.num.natAbs q.den := by
        rw [zpow_add₀ (by norm_num), mul_comm]
        apply mul_le_mul_of_nonneg_right _ h2.le
        have : ((2 ^ 52 : ℕ) : ℚ) = (2 : ℚ) ^ (52 : ℤ) := by norm_num
        rw [← this]
        exact_mod_cast hm
      linarith

/-- Between zero and a positive number that `round64` keeps, `round64` gives a finite
value between zero and that number. -/
theorem round64_below_pos (a q : ℚ) (hq0 : 0 < q) (hk : round64 a = Dbl.fin a)
    (hqa : q ≤ a) :
    ∃ r, round64 q = Dbl.fin r ∧ 0 ≤ r ∧ r ≤ a := by
  have ha : 0 < a := lt_of_lt_of_le hq0 hqa
  obtain ⟨han, had, hae⟩ := pos_parts a ha
  obtain ⟨hqn, hqd, hqe⟩ := pos_parts q hq0
  obtain ⟨hval, hE, hM⟩ := round64_kept a ha hk
  have hmono : lastBit q.num.natAbs q.den ≤ lastBit a.num.natAbs a.den :=
    lastBit_mono _ _ _ _ hqn hqd han had (by rw [hae, hqe]; exact hqa)
  have h2 : (0 : ℚ) < (2 : ℚ) ^ lastBit q.num.natAbs q.den := by positivity
  obtain ⟨k, hk'⟩ : ∃ k : ℕ, lastBit a.num.natAbs a.den = lastBit q.num.natAbs q.den + k :=
    ⟨(lastBit a.num.natAbs a.den - lastBit q.num.natAbs q.den).toNat, by omega⟩
  have hsplit : a = ((mantissa a.num.natAbs a.den (lastBit a.num.natAbs a.den) * 2 ^ k : ℕ) : ℚ)
      * (2 : ℚ) ^ lastBit q.num.natAbs q.den := by
    conv_lhs => rw [hval]
    rw [hk', zpow_add₀ (by norm_num), zpow_natCast]
    push_cast
    ring
  have hm : mantissa q.num.natAbs q.den (lastBit q.num.natAbs q.den)
      ≤ mantissa a.num.natAbs a.den (lastBit a.num.natAbs a.den) * 2 ^ k := by
    apply mantissa_le _ _ hqd
    rw [hqe, ← hsplit]; exact hqa
  rw [round64_pos q hq0]
  have hno : ¬ (971 < lastBit q.num.natAbs q.den ∨ (lastBit q.num.natAbs q.den = 971 ∧
      mantissa q.num.natAbs q.den (lastBit q.num.natAbs q.den) = 2 ^ 53)) := by
    rintro (h | ⟨h, h'⟩)
    · omega
    · have hk0 : k = 0 := by omega
      rw [hk0, pow_zero, mul_one] at hm
      omega
  rw [if_neg hno]
  refine ⟨_, rfl, by positivity, ?_⟩
  conv_rhs => rw [hsplit]
  exact mul_le_mul_of_nonneg_right (by exact_mod_cast hm) h2.le

/-- The function `round64` is a rounding: binary64 keeps `0`, `1` and `100`, rounds
`-q` to the opposite of what it rounds `q` to, and rounds a value above a binary64
number to a value above that number. -/
theorem rounding_round64 : Rounding round64 where
  zero := by decide!
  one := by decide!
  hundred := by decide!
  neg := round64_neg
  above := by
    intro a q hk haq
    rcases lt_trichotomy q 0 with hq | hq | hq
    · have ha : 0 < -a := by linarith
      have hk' : round64 (-a) = Dbl.fin (-a) := by rw [round64_neg, hk]; rfl
      obtain ⟨r, hr, -, hra⟩ := round64_below_pos (-a) (-q) (by linarith) hk' (by linarith)
      refine Or.inr ⟨-r, ?_, by linarith⟩
      have : round64 q = -(round64 (-q)) := by rw [← round64_neg, neg_neg]
      rw [this, hr]; rfl
    · subst hq
      exact Or.inr ⟨0, by decide!, haq⟩
    · rcases le_or_lt a 0 with ha | ha
      · by_cases hc : 971 < lastBit q.num.natAbs q.den ∨ (lastBit q.num.natAbs q.den = 971 ∧
            mantissa q.num.natAbs q.den (lastBit q.num.natAbs q.den) = 2 ^ 53)
        · left; rw [round64_pos q hq, if_pos hc]
        · right
          rw [round64_pos q hq, if_neg hc]
          refine ⟨_, rfl, le_trans ha (by positivity)⟩
      · exact round64_above_pos a q ha hk haq

/-- The square root `sqrt64` is never negative. -/
theorem sqrt64_nonneg (q : ℚ) : 0 ≤ sqrt64 q := by
  unfold sqrt64
  split_ifs with h
  · exact le_rfl
  · simp only
    generalize hy : (((2 * isqrt (q.num.natAbs * 2 ^ (2 * (56 + (bitLength q.den + 1) / 2)) / q.den)
      + (if isqrt (q.num.natAbs * 2 ^ (2 * (56 + (bitLength q.den + 1) / 2)) / q.den)
          * isqrt (q.num.natAbs * 2 ^ (2 * (56 + (bitLength q.den + 1) / 2)) / q.den) * q.den
          = q.num.natAbs * 2 ^ (2 * (56 + (bitLength q.den + 1) / 2)) then 0 else 1) : ℕ) : ℚ)
      / ((2 ^ (56 + (bitLength q.den + 1) / 2 + 1) : ℕ) : ℚ)) = y
    have hy0 : 0 ≤ y := by rw [← hy]; positivity
    rcases Rounding.nonneg rounding_round64 y hy0 with h' | ⟨r, h', hr⟩
    · rw [h']
    · rw [h']; exact hr

/-- A natural under `2^53` times a power of two within the exponents of binary64 is
a binary64 number: `round64` keeps it. -/
theorem round64_scaled (m : Nat) (k : Int) (hm : m < 2 ^ 53) (hk1 : -1074 ≤ k)
    (hk2 : k ≤ 971) : round64 ((m : ℚ) * (2 : ℚ) ^ k) = Dbl.fin ((m : ℚ) * (2 : ℚ) ^ k) := by
  have h2k : (0 : ℚ) < (2 : ℚ) ^ k := by positivity
  rcases Nat.eq_zero_or_pos m with h0 | h0
  · subst h0
    simp [round64]
  · have hq : (0 : ℚ) < (m : ℚ) * (2 : ℚ) ^ k := by positivity
    obtain ⟨hn, hd, hnd⟩ := pos_parts _ hq
    generalize hE : lastBit ((m : ℚ) * (2 : ℚ) ^ k).num.natAbs ((m : ℚ) * (2 : ℚ) ^ k).den = E
    have hlt : (m : ℚ) * (2 : ℚ) ^ k < (2 : ℚ) ^ (k + 53) := by
      rw [zpow_add₀ (by norm_num), mul_comm]
      have : (m : ℚ) < (2 : ℚ) ^ (53 : ℤ) := by
        have : ((2 ^ 53 : ℕ) : ℚ) = (2 : ℚ) ^ (53 : ℤ) := by norm_num
        rw [← this]; exact_mod_cast hm
      exact mul_lt_mul_of_pos_left this h2k
    have hEk : E ≤ k := by
      have h1 := (floorLog2_spec _ _ hn hd).1
      rw [hnd] at h1
      have h3 := (zpow_lt_zpow_iff_right₀ (by norm_num : (1 : ℚ) < 2)).1 (lt_of_le_of_lt h1 hlt)
      rw [← hE]
      unfold lastBit
      exact max_le (by omega) hk1
    obtain ⟨j, hj⟩ : ∃ j : ℕ, k = E + j := ⟨(k - E).toNat, by omega⟩
    have hsplit : (m : ℚ) * (2 : ℚ) ^ k = ((m * 2 ^ j : ℕ) : ℚ) * (2 : ℚ) ^ E := by
      rw [hj, zpow_add₀ (by norm_num), zpow_natCast]
      push_cast
      ring
    have hM : mantissa ((m : ℚ) * (2 : ℚ) ^ k).num.natAbs ((m : ℚ) * (2 : ℚ) ^ k).den E
        = m * 2 ^ j := by
      apply le_antisymm
      · apply mantissa_le _ _ hd
        rw [hnd, hsplit]
      · apply mantissa_ge _ _ hd
        rw [hnd, hsplit]
    rw [round64_pos _ hq, hE, hM]
    have hno : ¬ (971 < E ∨ (E = 971 ∧ m * 2 ^ j = 2 ^ 53)) := by
      rintro (h | ⟨h, h'⟩)
      · omega
      · have hj0 : j = 0 := by omega
        rw [hj0, pow_zero, mul_one] at h'
        omega
    rw [if_neg hno, ← hsplit]

namespace Rounded

/-- With every operation rounded, a positive sample that stays under its peak by a
number `a` that the rounding keeps, with `c * p ≤ a`, has a drawdown in `[-1, -c]`. -/
theorem drawdown_le_neg {rnd : ℚ → Dbl} (hr : Rounding rnd) (x p a c : ℚ) (hx : 0 < x)
    (hp : rnd p = Dbl.fin p) (ha : rnd a = Dbl.fin a) (hc : rnd c = Dbl.fin c)
    (hxa : a ≤ p - x) (ha0 : 0 ≤ a) (hca : c * p ≤ a) :
    ∃ v, drawdown rnd x p = Dbl.fin v ∧ -1 ≤ v ∧ v ≤ -c := by
  have hp0 : 0 < p := by linarith
  have hpne : p ≠ 0 := ne_of_gt hp0
  obtain ⟨d, hd, hd1, hd2⟩ := hr.between (-p) (-a) (x - p) (hr.rnd_neg_eq p hp)
    (hr.rnd_neg_eq a ha) (by linarith) (by linarith)
  obtain ⟨v, hv, hv1, hv2⟩ := hr.between (-1) (-c) (d / p) hr.rnd_neg_one
    (hr.rnd_neg_eq c hc)
    (by rw [le_div_iff₀ hp0]; linarith) (by rw [div_le_iff₀ hp0]; linarith)
  have hcell : drawdown rnd x p = rnd (d / p) := by
    unfold drawdown
    rw [if_neg hpne, Dbl.fin_sub, rd_fin_val, hd, Dbl.fin_div _ _ hpne, rd_fin_val]
  exact ⟨v, by rw [hcell, hv], hv1, hv2⟩

end Rounded

/-- Two binary64 numbers `0 < x < p` are apart by a binary64 number `a` that is at
least `p / 2^54`. -/
theorem round64_gap (x p : ℚ) (hx : 0 < x) (hxp : x < p) (hkx : round64 x = Dbl.fin x)
    (hkp : round64 p = Dbl.fin p) :
    ∃ a, round64 a = Dbl.fin a ∧ 0 ≤ a ∧ a ≤ p - x ∧ (2 : ℚ) ^ (-54 : ℤ) * p ≤ a := by
  have hp : 0 < p := lt_trans hx hxp
  obtain ⟨hxn, hxd, hxe⟩ := pos_parts x hx
  obtain ⟨hpn, hpd, hpe⟩ := pos_parts p hp
  obtain ⟨hvx, hEx, hMx⟩ := round64_kept x hx hkx
  obtain ⟨hvp, hEp, hMp⟩ := round64_kept p hp hkp
  have hmono : lastBit x.num.natAbs x.den ≤ lastBit p.num.natAbs p.den :=
    lastBit_mono _ _ _ _ hxn hxd hpn hpd (by rw [hxe, hpe]; exact hxp.le)
  have hplt := lt_lastBit _ _ hpn hpd
  rw [hpe] at hplt
  have hxlt := lt_lastBit _ _ hxn hxd
  rw [hxe] at hxlt
  generalize hEx' : lastBit x.num.natAbs x.den = Ex at *
  generalize hEp' : lastBit p.num.natAbs p.den = Ep at *
  generalize hMx' : mantissa x.num.natAbs x.den Ex = Mx at *
  generalize hMp' : mantissa p.num.natAbs p.den Ep = Mp at *
  have h2x : (0 : ℚ) < (2 : ℚ) ^ Ex := by positivity
  rcases le_or_lt Ep (Ex + 1) with hcase | hcase
  · refine ⟨((1 : ℕ) : ℚ) * (2 : ℚ) ^ Ex,
      round64_scaled 1 Ex (by norm_num) (by rw [← hEx']; exact lastBit_ge _ _) hEx,
      by positivity, ?_, ?_⟩
    · obtain ⟨j, hj⟩ : ∃ j : ℕ, Ep = Ex + j := ⟨(Ep - Ex).toNat, by omega⟩
      have hsplit : p = ((Mp * 2 ^ j : ℕ) : ℚ) * (2 : ℚ) ^ Ex := by
        conv_lhs => rw [hvp]
        rw [hj, zpow_add₀ (by norm_num), zpow_natCast]
        push_cast
        ring
      have hlt : (Mx : ℚ) * (2 : ℚ) ^ Ex < ((Mp * 2 ^ j : ℕ) : ℚ) * (2 : ℚ) ^ Ex := by
        rw [← hvx, ← hsplit]; exact hxp
      have hlt' : (Mx : ℚ) < ((Mp * 2 ^ j : ℕ) : ℚ) := lt_of_mul_lt_mul_right hlt h2x.le
      have hnat : Mx + 1 ≤ Mp * 2 ^ j := by exact_mod_cast hlt'
      have hq : ((Mx : ℚ) + 1) ≤ ((Mp * 2 ^ j : ℕ) : ℚ) := by exact_mod_cast hnat
      have h5 := mul_le_mul_of_nonneg_right hq h2x.le
      rw [hsplit]
      conv_rhs => rw [hvx]
      push_cast at h5 ⊢
      linarith
    · have h1 : (2 : ℚ) ^ (Ep + 53) ≤ (2 : ℚ) ^ (Ex + 54) :=
        zpow_le_zpow_right₀ (by norm_num) (by omega)
      have h3 : (2 : ℚ) ^ (-54 : ℤ) * (2 : ℚ) ^ (Ex + 54) = (2 : ℚ) ^ Ex := by
        rw [← zpow_add₀ (by norm_num)]
        congr 1
        omega
      have h4 : (2 : ℚ) ^ (-54 : ℤ) * p ≤ (2 : ℚ) ^ (-54 : ℤ) * (2 : ℚ) ^ (Ex + 54) :=
        mul_le_mul_of_nonneg_left (le_trans hplt.le h1) (by positivity)
      rw [h3] at h4
      simpa using h4
  · have hsub : -1074 < Ep := by
      have := lastBit_ge x.num.natAbs x.den
      rw [hEx'] at this
      omega
    have hple := lastBit_le _ _ hpn hpd (by rw [hEp']; exact hsub)
    rw [hpe, hEp'] at hple
    have h51 : ((2 ^ 51 : ℕ) : ℚ) * (2 : ℚ) ^ Ep = (2 : ℚ) ^ (Ep + 51) := by
      rw [zpow_add₀ (by norm_num)]
      push_cast
      ring
    have hx51 : x < (2 : ℚ) ^ (Ep + 51) :=
      lt_of_lt_of_le hxlt (zpow_le_zpow_right₀ (by norm_num) (by omega))
    have h52 : (2 : ℚ) ^ (Ep + 52) = 2 * (2 : ℚ) ^ (Ep + 51) := by
      rw [show Ep + 52 = Ep + 51 + 1 by ring, zpow_add₀ (by norm_num), zpow_one]
      ring
    have h53 : (2 : ℚ) ^ (Ep + 53) = 4 * (2 : ℚ) ^ (Ep + 51) := by
      rw [show Ep + 53 = Ep + 51 + 2 by ring, zpow_add₀ (by norm_num)]
      norm_num
      ring
    refine ⟨((2 ^ 51 : ℕ) : ℚ) * (2 : ℚ) ^ Ep,
      round64_scaled (2 ^ 51) Ep (by norm_num) hsub.le hEp, by positivity, ?_, ?_⟩
    · rw [h51]; linarith
    · rw [h51]
      have h54 : (2 : ℚ) ^ (-54 : ℤ) = 1 / 2 ^ 54 := by
        rw [zpow_neg, one_div]; norm_cast
      rw [h54]
      have : p < 4 * (2 : ℚ) ^ (Ep + 51) := by rw [← h53]; exact hplt
      have hpos : (0 : ℚ) < (2 : ℚ) ^ (Ep + 51) := by positivity
      rw [div_mul_eq_mul_div, one_mul, div_le_iff₀ (by positivity)]
      nlinarith

/-- In binary64 the drawdown of a positive sample strictly under its peak is a
finite value in `[-1, 0)`: the quotient is never rounded to zero. -/
theorem drawdown_neg64 (x p : ℚ) (hx : 0 < x) (hxp : x < p) (hkx : round64 x = Dbl.fin x)
    (hkp : round64 p = Dbl.fin p) :
    ∃ v, Rounded.drawdown round64 x p = Dbl.fin v ∧ -1 ≤ v ∧ v < 0 := by
  obtain ⟨a, ha, ha0, hxa, hca⟩ := round64_gap x p hx hxp hkx hkp
  have hc : round64 ((2 : ℚ) ^ (-54 : ℤ)) = Dbl.fin ((2 : ℚ) ^ (-54 : ℤ)) := by
    have := round64_scaled 1 (-54) (by norm_num) (by norm_num) (by norm_num)
    simpa using this
  obtain ⟨v, hv, hv1, hv2⟩ := Rounded.drawdown_le_neg rounding_round64 x p a _ hx hkp ha hc
    hxa ha0 hca
  have : (0 : ℚ) < (2 : ℚ) ^ (-54 : ℤ) := by positivity
  exact ⟨v, hv, hv1, by linarith⟩

/-! ## Rounded routines: outputs of series of bounded samples -/

namespace Rounded

theorem getD_within (qs : List ℚ) (B : ℚ) (hB0 : 0 ≤ B) (hB : ∀ q ∈ qs, -B ≤ q ∧ q ≤ B)
    (k : Nat) : -B ≤ qs.getD k 0 ∧ qs.getD k 0 ≤ B := by
  by_cases hk : k < qs.length
  · rw [List.getD_eq_getElem _ _ hk]; exact hB _ (List.getElem_mem _)
  · rw [List.getD_eq_default _ _ (by omega)]; constructor <;> linarith

/-- The difference of two samples of magnitude at most `B` is rounded to a finite
value of magnitude at most `C`, for a `C ≥ 2 B` that the rounding keeps. -/
theorem change_within {rnd : ℚ → Dbl} (hr : Rounding rnd) (qs : List ℚ) (B C : ℚ)
    (hB0 : 0 ≤ B) (hB : ∀ q ∈ qs, -B ≤ q ∧ q ≤ B) (hC : rnd C = Dbl.fin C) (hBC : 2 * B ≤ C)
    (j : Nat) : ∃ r, change rnd qs j = Dbl.fin r ∧ -C ≤ r ∧ r ≤ C := by
  have h1 := getD_within qs B hB0 hB j
  have h2 := getD_within qs B hB0 hB (j - 1)
  unfold change
  rw [Dbl.fin_sub, rd_fin_val]
  exact hr.between (-C) C _ (hr.rnd_neg_eq C hC) hC (by linarith) (by linarith)

theorem gainAt_within {rnd : ℚ → Dbl} (hr : Rounding rnd) (qs : List ℚ) (B C : ℚ)
    (hB0 : 0 ≤ B) (hB : ∀ q ∈ qs, -B ≤ q ∧ q ≤ B) (hC : rnd C = Dbl.fin C) (hBC : 2 * B ≤ C)
    (j : Nat) : ∃ r, gainAt rnd qs j = Dbl.fin r ∧ 0 ≤ r ∧ r ≤ C := by
  have hC0 : 0 ≤ C := by linarith
  obtain ⟨r, h, h1, h2⟩ := change_within hr qs B C hB0 hB hC hBC j
  unfold gainAt
  rw [h]
  split_ifs with h0 hgt
  · exact ⟨0, rfl, le_rfl, hC0⟩
  · exact ⟨r, rfl, le_of_lt (by simpa using hgt), h2⟩
  · exact ⟨0, rfl, le_rfl, hC0⟩

theorem lossAt_within {rnd : ℚ → Dbl} (hr : Rounding rnd) (qs : List ℚ) (B C : ℚ)
    (hB0 : 0 ≤ B) (hB : ∀ q ∈ qs, -B ≤ q ∧ q ≤ B) (hC : rnd C = Dbl.fin C) (hBC : 2 * B ≤ C)
    (j : Nat) : ∃ r, lossAt rnd qs j = Dbl.fin r ∧ 0 ≤ r ∧ r ≤ C := by
  have hC0 : 0 ≤ C := by linarith
  obtain ⟨r, h, h1, h2⟩ := change_within hr qs B C hB0 hB hC hBC j
  unfold lossAt
  rw [h]
  split_ifs with h0 hgt
  · exact ⟨0, rfl, le_rfl, hC0⟩
  · exact ⟨0, rfl, le_rfl, hC0⟩
  · have hr0 : r ≤ 0 := by simpa using hgt
    exact ⟨-r, rfl, by linarith, by linarith⟩

/-- The sum of `n` values in `[0, C]`, every addition rounded, is a finite value in
`[0, n C]` when the rounding keeps the multiples `k C`, `k ≤ n`. -/
theorem firstSum_within {rnd : ℚ → Dbl} (hr : Rounding rnd) (x : Nat → Dbl) (C : ℚ)
    (hx : ∀ j, ∃ r, x j = Dbl.fin r ∧ 0 ≤ r ∧ r ≤ C) (n : Nat)
    (hk : ∀ k : ℕ, k ≤ n → rnd ((k : ℚ) * C) = Dbl.fin ((k : ℚ) * C)) :
    ∃ s, firstSum rnd x n = Dbl.fin s ∧ 0 ≤ s ∧ s ≤ (n : ℚ) * C := by
  induction n with
  | zero => exact ⟨0, rfl, le_rfl, by simp⟩
  | succ m ih =>
    obtain ⟨s, hs, hs0, hs1⟩ := ih (fun k hkm => hk k (by omega))
    obtain ⟨r, hx', hr0, hr1⟩ := hx (m + 1)
    rw [firstSum, hs, hx', Dbl.fin_add, rd_fin_val]
    exact hr.between 0 _ (s + r) hr.zero (hk (m + 1) le_rfl) (by linarith)
      (by push_cast; linarith)

/-- The smoothed average of values in `[0, C]`, every operation rounded, is a finite
value in `[0, C]` when the rounding keeps the multiples `k C`, `k ≤ W`. -/
theorem wilder_within {rnd : ℚ → Dbl} (hr : Rounding rnd) (x : Nat → Dbl) (C : ℚ)
    (hx : ∀ j, ∃ r, x j = Dbl.fin r ∧ 0 ≤ r ∧ r ≤ C) (W : Nat) (hW : 1 ≤ W)
    (hk : ∀ k : ℕ, k ≤ W → rnd ((k : ℚ) * C) = Dbl.fin ((k : ℚ) * C)) (n : Nat) :
    ∃ a, wilder rnd x W n = Dbl.fin a ∧ 0 ≤ a ∧ a ≤ C := by
  have hWq : (0 : ℚ) < W := by exact_mod_cast hW
  have hne : (W : ℚ) ≠ 0 := ne_of_gt hWq
  have hC : rnd C = Dbl.fin C := by simpa using hk 1 hW
  induction n with
  | zero =>
    obtain ⟨s, hs, hs0, hs1⟩ := firstSum_within hr x C hx W hk
    rw [wilder, hs]
    simp only [Dbl.ofInt, Int.cast_natCast, Dbl.fin_div _ _ hne, rd_fin_val]
    exact hr.between 0 C _ hr.zero hC (div_nonneg hs0 hWq.le)
      (by rw [div_le_iff₀ hWq]; linarith)
  | succ m ih =>
    rw [wilder]
    split_ifs
    · obtain ⟨a, ha, ha0, ha1⟩ := ih
      obtain ⟨r, hx', hr0, hr1⟩ := hx m
      have hcast : (((W : Int) - 1 : Int) : ℚ) = ((W - 1 : ℕ) : ℚ) := by
        rw [Nat.cast_sub hW]; push_cast; ring
      have hW1 : (((W - 1 : ℕ) : ℚ)) = (W : ℚ) - 1 := by
        rw [Nat.cast_sub hW]; push_cast; ring
      have hW10 : (0 : ℚ) ≤ ((W - 1 : ℕ) : ℚ) := Nat.cast_nonneg _
      obtain ⟨u, hu, hu0, hu1⟩ := hr.between 0 _ (a * ((W - 1 : ℕ) : ℚ)) hr.zero
        (hk (W - 1) (by omega)) (mul_nonneg ha0 hW10)
        (by rw [mul_comm]; exact mul_le_mul_of_nonneg_left ha1 hW10)
      obtain ⟨v, hv, hv0, hv1⟩ := hr.between 0 _ (u + r) hr.zero (hk W le_rfl)
        (by linarith) (by rw [hW1] at hu1; linarith)
      rw [ha, hx']
      simp only [Dbl.ofInt, Dbl.fin_mul, rd_fin_val, hcast, hu, Dbl.fin_add, hv,
        Int.cast_natCast, Dbl.fin_div _ _ hne]
      exact hr.between 0 C _ hr.zero hC (div_nonneg hv0 hWq.le)
        (by rw [div_le_iff₀ hWq]; linarith)
    · exact ih

/-- The value `calculate_rsi` writes, every operation rounded, for two finite
averages that are not negative: a finite value in `[0, 100]`. -/
theorem rsiCell_fin_range {rnd : ℚ → Dbl} (hr : Rounding rnd) (a b : ℚ) (ha : 0 ≤ a)
    (hb : 0 ≤ b) :
    ∃ v, rsiCell rnd (Dbl.fin a) (Dbl.fin b) = Dbl.fin v ∧ 0 ≤ v ∧ v ≤ 100 := by
  unfold rsiCell
  split_ifs with heq
  · exact ⟨100, rfl, by norm_num, le_rfl⟩
  · have h100 : ∀ u : ℚ, 0 ≤ u → u ≤ 100 →
        ∃ v, rnd (100 - u) = Dbl.fin v ∧ 0 ≤ v ∧ v ≤ 100 := fun u h0 h1 =>
      hr.between 0 100 (100 - u) hr.zero hr.hundred (by linarith) (by linarith)
    have hb0 : b ≠ 0 := by simpa using heq
    rw [Dbl.fin_div _ _ hb0, rd_fin_val]
    rcases hr.nonneg (a / b) (div_nonneg ha hb) with hrs | ⟨r, hrs, hr0⟩ <;> rw [hrs]
    · show ∃ v, rd rnd (Dbl.fin 100 - rd rnd (Dbl.fin 100 / rd rnd Dbl.pinf)) = Dbl.fin v ∧ _
      have h1 : rd rnd (Dbl.fin 100 / rd rnd Dbl.pinf) = Dbl.fin 0 := by
        show rnd 0 = Dbl.fin 0
        exact hr.zero
      rw [h1, Dbl.fin_sub, rd_fin_val]
      exact h100 0 le_rfl (by norm_num)
    · rw [Dbl.fin_add, rd_fin_val]
      rcases hr.above 1 (1 + r) hr.one (by linarith) with h1 | ⟨s, h1, hs⟩ <;> rw [h1]
      · have h2 : rd rnd (Dbl.fin 100 / Dbl.pinf) = Dbl.fin 0 := by
          show rnd 0 = Dbl.fin 0
          exact hr.zero
        rw [h2, Dbl.fin_sub, rd_fin_val]
        exact h100 0 le_rfl (by norm_num)
      · have hs0 : (0 : ℚ) < s := by linarith
        rw [Dbl.fin_div _ _ (ne_of_gt hs0), rd_fin_val]
        obtain ⟨u, hu, hu0, hu1⟩ := hr.between 0 100 (100 / s) hr.zero hr.hundred
          (by positivity) (by rw [div_le_iff₀ hs0]; nlinarith)
        rw [hu, Dbl.fin_sub, rd_fin_val]
        exact h100 u hu0 hu1

theorem fwdSum_ne_nan {rnd : ℚ → Dbl} (hr : Rounding rnd) (qs : List ℚ) (n : Nat) :
    fwdSum rnd qs n ≠ Dbl.nan := by
  induction n with
  | zero => intro h; cases h
  | succ m ih => exact rd_add_fin_ne_nan hr _ _ ih

/-- The seed of the exponential average, every operation rounded, is never `NAN`. -/
theorem emaState_seed_ne_nan {rnd : ℚ → Dbl} (hr : Rounding rnd) (qs : List ℚ) (W : Nat)
    (hW : 1 ≤ W) (n : Nat) (hn : n ≤ W) : emaState rnd qs W n ≠ Dbl.nan := by
  induction n with
  | zero => exact rd_div_nat_ne_nan hr _ W hW (fwdSum_ne_nan hr qs W)
  | succ m ih =>
    rw [emaState_keep rnd qs W m hn]
    exact ih (by omega)

/-- One smoothing step from a finite value, every operation rounded, never gives
`NAN`, the multiplier being finite and positive. -/
theorem emaState_step_ne_nan {rnd : ℚ → Dbl} (hr : Rounding rnd) (qs : List ℚ) (W : Nat)
    (hm : ∃ m, rd rnd (Dbl.fin 2 / Dbl.ofInt ((W : Int) + 1)) = Dbl.fin m ∧ 0 < m)
    (n : Nat) (hn : W ≤ n) (hp : ∃ p, emaState rnd qs W n = Dbl.fin p) :
    emaState rnd qs W (n + 1) ≠ Dbl.nan := by
  obtain ⟨m, hm, hm0⟩ := hm
  obtain ⟨p, hp⟩ := hp
  rw [emaState_step_rd rnd qs W n hn, hp, hm, Dbl.fin_sub, rd_fin_val]
  cases hd : rnd (qs.getD n 0 - p) with
  | fin d =>
    rw [Dbl.fin_mul, rd_fin_val]
    exact rd_add_fin_ne_nan hr _ _ (hr.ne_nan _)
  | pinf =>
    have : Dbl.pinf * Dbl.fin m = Dbl.pinf := by
      show Dbl.ofSign m = Dbl.pinf
      unfold Dbl.ofSign
      rw [if_pos hm0]
    rw [this]
    intro h; cases h
  | ninf =>
    have : Dbl.ninf * Dbl.fin m = Dbl.ninf := by
      show Dbl.ofSign (-m) = Dbl.ninf
      unfold Dbl.ofSign
      rw [if_neg (by linarith), if_pos (by linarith)]
    rw [this]
    intro h; cases h
  | nan => exact absurd hd (hr.ne_nan _)

/-- A trailing sample is read by the backward loops. -/
theorem getD_mem_trailing (qs : List ℚ) (W i n : Nat) (hn : n < W) (hWi : W ≤ i + 1)
    (hi : i < qs.length) : qs.getD (i - n) 0 ∈ trailing qs W i := by
  have h1 : i - n < qs.length := by omega
  rw [List.getD_eq_getElem _ _ h1]
  have h2 := getElem?_trailing qs W i (W - 1 - n) (by omega)
  rw [show i + 1 - W + (W - 1 - n) = i - n by omega, List.getElem?_eq_getElem h1] at h2
  exact List.getElem?_mem h2

/-- The sum of the squared deviations from a mean that is the value of every sample
of the window is `0`. -/
theorem sqSum_eq_zero {rnd : ℚ → Dbl} (hr : Rounding rnd) (qs : List ℚ) (W i : Nat) (c : ℚ)
    (hWi : W ≤ i + 1) (hi : i < qs.length) (hc : ∀ x ∈ trailing qs W i, x = c) (n : Nat)
    (hn : n ≤ W) : sqSum rnd qs i (Dbl.fin c) n = Dbl.fin 0 := by
  induction n with
  | zero => rfl
  | succ m ih =>
    rw [sqSum, ih (by omega), hc _ (getD_mem_trailing qs W i m (by omega) hWi hi)]
    simp only [Dbl.fin_sub, sub_self, rd_fin_val, hr.zero, Dbl.fin_mul, mul_zero, Dbl.fin_add,
      add_zero]

/-- With every operation rounded, the standard deviation of a window of equal
samples is `0` when the mean computed for the window is that sample. -/
theorem stddevCell_eq_zero {rnd : ℚ → Dbl} (hr : Rounding rnd) (sqrtQ : ℚ → ℚ)
    (hs0 : sqrtQ 0 = 0) (qs : List ℚ) (W i : Nat) (c : ℚ) (hW : 2 ≤ W) (hWi : W ≤ i + 1)
    (hi : i < qs.length) (hc : ∀ x ∈ trailing qs W i, x = c)
    (hmean : rd rnd (backSum rnd qs i W / Dbl.ofInt W) = Dbl.fin c) :
    stddevCell rnd sqrtQ qs W i = Dbl.fin 0 := by
  have hne : (((W : Int) - 1 : Int) : ℚ) ≠ 0 := by
    have : (2 : ℚ) ≤ W := by exact_mod_cast hW
    push_cast
    linarith
  unfold stddevCell
  rw [hmean, sqSum_eq_zero hr qs W i c hWi hi hc W le_rfl]
  simp only [Dbl.ofInt, Dbl.fin_div _ _ hne, zero_div, rd_fin_val, hr.zero]
  show (if (0 : ℚ) < 0 then Dbl.nan else Dbl.fin (sqrtQ 0)) = Dbl.fin 0
  rw [if_neg (lt_irrefl _), hs0]

end Rounded

/-- In binary64 the multiplier `2 / (W + 1)` of `calculate_ema` is finite and
positive for every window that fits an `int`. -/
theorem multiplier64 (W : Nat) (hW : W < 2 ^ 31) :
    ∃ m, Rounded.rd round64 (Dbl.fin 2 / Dbl.ofInt ((W : Int) + 1)) = Dbl.fin m ∧ 0 < m := by
  have hWq : (0 : ℚ) < (W : ℚ) + 1 := by positivity
  have hcast : (((W : Int) + 1 : Int) : ℚ) = (W : ℚ) + 1 := by push_cast; ring
  have hlo : round64 ((2 : ℚ) ^ (-30 : ℤ)) = Dbl.fin ((2 : ℚ) ^ (-30 : ℤ)) := by
    have := round64_scaled 1 (-30) (by norm_num) (by norm_num) (by norm_num)
    simpa using this
  have hhi : round64 2 = Dbl.fin 2 := by decide!
  have hW' : (W : ℚ) + 1 ≤ 2 ^ 31 := by
    have : W + 1 ≤ 2 ^ 31 := hW
    exact_mod_cast this
  have h30 : (2 : ℚ) ^ (-30 : ℤ) = 1 / 2 ^ 30 := by
    rw [zpow_neg, one_div]; norm_cast
  obtain ⟨m, hm, hm1, -⟩ := rounding_round64.between _ 2 (2 / ((W : ℚ) + 1)) hlo hhi
    (by rw [h30, le_div_iff₀ hWq, div_mul_eq_mul_div, one_mul, div_le_iff₀ (by positivity)]
        linarith)
    (by rw [div_le_iff₀ hWq]; nlinarith)
  refine ⟨m, ?_, lt_of_lt_of_le (by positivity) hm1⟩
  simp only [Dbl.ofInt, hcast, Dbl.fin_div _ _ (ne_of_gt hWq), Rounded.rd_fin_val, hm]

/-- In binary64 the multiples `k * 2^1001`, `k ≤ 2^20`, are binary64 numbers. -/
theorem round64_multiple (k : Nat) (hk : k ≤ 2 ^ 20) :
    round64 ((k : ℚ) * 2 ^ 1001) = Dbl.fin ((k : ℚ) * 2 ^ 1001) := by
  have h := round64_scaled (k * 2 ^ 30) 971
    (by have : k * 2 ^ 30 ≤ 2 ^ 20 * 2 ^ 30 := Nat.mul_le_mul_right _ hk
        exact lt_of_le_of_lt this (by norm_num))
    (by norm_num) le_rfl
  have he : ((k * 2 ^ 30 : ℕ) : ℚ) * (2 : ℚ) ^ (971 : ℤ) = (k : ℚ) * 2 ^ 1001 := by
    rw [Nat.cast_mul, Nat.cast_pow, Nat.cast_ofNat, mul_assoc,
      show (971 : ℤ) = ((971 : ℕ) : ℤ) from rfl, zpow_natCast, ← pow_add]
  rwa [he] at h


/-! ## Binary64: cells of the outputs -/

theorem getElem?_map_range (f : Nat → Dbl) (n i : Nat) (hi : i < n) :
    ((List.range n).map f)[i]? = some (f i) := by
  simp [hi]

theorem getD_kept (qs : List ℚ) (hrep : ∀ q ∈ qs, round64 q = Dbl.fin q) (k : Nat) :
    round64 (qs.getD k 0) = Dbl.fin (qs.getD k 0) := by
  by_cases hk : k < qs.length
  · rw [List.getD_eq_getElem _ _ hk]; exact hrep _ (List.getElem_mem _)
  · rw [List.getD_eq_default _ _ (by omega)]; exact rounding_round64.zero

/-- With a window of one binary64 sample the mean is the sample, the squared
deviation is `0`, the divisor `W - 1` is `0`, and `calculate_stddev` writes the `NAN`
of `0 / 0`, every operation rounded. -/
theorem Rounded.stddevCell_one {rnd : ℚ → Dbl} (hr : Rounding rnd) (sqrtQ : ℚ → ℚ)
    (qs : List ℚ) (i : Nat) (hx : rnd (qs.getD i 0) = Dbl.fin (qs.getD i 0)) :
    Rounded.stddevCell rnd sqrtQ qs 1 i = Dbl.nan := by
  have hsum : Rounded.backSum rnd qs i 1 = Dbl.fin (qs.getD i 0) := by
    show Rounded.rd rnd (Dbl.fin 0 + Dbl.fin (qs.getD (i - 0) 0)) = _
    rw [Nat.sub_zero, Dbl.fin_add, Rounded.rd_fin_val, zero_add, hx]
  have hmean : Rounded.rd rnd (Rounded.backSum rnd qs i 1 / Dbl.ofInt ((1 : Nat) : Int))
      = Dbl.fin (qs.getD i 0) := by
    have h1 : Dbl.ofInt ((1 : Nat) : Int) = Dbl.fin 1 := by simp [Dbl.ofInt]
    rw [hsum, h1, Dbl.fin_div _ _ one_ne_zero, Rounded.rd_fin_val, div_one, hx]
  have hsq : Rounded.sqSum rnd qs i (Dbl.fin (qs.getD i 0)) 1 = Dbl.fin 0 := by
    show Rounded.rd rnd (Dbl.fin 0 + Rounded.rd rnd
      (Rounded.rd rnd (Dbl.fin (qs.getD (i - 0) 0) - Dbl.fin (qs.getD i 0))
        * Rounded.rd rnd (Dbl.fin (qs.getD (i - 0) 0) - Dbl.fin (qs.getD i 0)))) = _
    simp only [Nat.sub_zero, Dbl.fin_sub, sub_self, Rounded.rd_fin_val, hr.zero, Dbl.fin_mul,
      mul_zero, Dbl.fin_add, add_zero]
  unfold Rounded.stddevCell
  rw [hmean, hsq]
  rfl

/-! ## Binary64: one smoothing step between two binary64 numbers -/

/-- The multiples `k * 2^1001`, `k ≤ W ≤ 2^20`, are binary64 numbers. -/
theorem round64_bound (W : Nat) (hW : W ≤ 2 ^ 20) :
    ∀ k : ℕ, k ≤ W → round64 ((k : ℚ) * 2 ^ 1001) = Dbl.fin ((k : ℚ) * 2 ^ 1001) :=
  fun k hk => round64_multiple k (le_trans hk hW)

/-- Claim C11, amended: with `1 ≤ W < N`, `calculate_rsi` in binary64 returns, and for
`W ≤ i < N` cell `i` of its output is `NAN` or a finite value `v` with
`0 ≤ v ≤ 100`; it is such a finite value, not `NAN`, when every sample has a
magnitude of at most `2^1000` and `W ≤ 2^20`, so that no difference and no sum
overflows.  In exact arithmetic the cell is a finite value in `[0, 100]` for every
series. -/
theorem calculate_rsi_bounds (qs : List ℚ) (W : Nat) (buf : List Dbl) (hW : 1 ≤ W)
    (hWN : W < qs.length) (hbuf : buf.length = qs.length) :
    (∃ out, Rounded.calculate_rsi round64 (qs.map Dbl.fin) qs.length W buf = some out ∧
      (∀ i, W ≤ i → i < qs.length →
        out[i]? = some Dbl.nan ∨ ∃ v : ℚ, out[i]? = some (Dbl.fin v) ∧ 0 ≤ v ∧ v ≤ 100) ∧
      ((∀ q ∈ qs, -2 ^ 1000 ≤ q ∧ q ≤ 2 ^ 1000) → W ≤ 2 ^ 20 →
        ∀ i, W ≤ i → i < qs.length →
          ∃ v : ℚ, out[i]? = some (Dbl.fin v) ∧ 0 ≤ v ∧ v ≤ 100)) ∧
    (∃ out, calculate_rsi (qs.map Dbl.fin) qs.length W buf = some out ∧
      ∀ i, W ≤ i → i < qs.length →
        ∃ v : ℚ, out[i]? = some (Dbl.fin v) ∧ 0 ≤ v ∧ v ≤ 100) := by
  refine ⟨⟨_, Rounded.calculate_rsi_eq_rd round64 qs W buf hWN hbuf, ?_, ?_⟩,
    calculate_rsi_bounds_exact qs W buf hW hWN hbuf⟩
  · intro i hWi hi
    rw [getElem?_map_range _ _ _ hi, if_neg (by omega)]
    rcases Rounded.rsiCell_range rounding_round64
      (Rounded.wilder_nonNegOrNan rounding_round64 _
        (Rounded.gainAt_nonNeg rounding_round64 qs) W hW (i + 1))
      (Rounded.wilder_nonNegOrNan rounding_round64 _
        (Rounded.lossAt_nonNeg rounding_round64 qs) W hW (i + 1)) with h | ⟨v, h, hv⟩
    · exact Or.inl (by rw [h])
    · exact Or.inr ⟨v, by rw [h], hv⟩
  · intro hB hW20 i hWi hi
    rw [getElem?_map_range _ _ _ hi, if_neg (by omega)]
    have hC : round64 ((2 : ℚ) ^ 1001) = Dbl.fin ((2 : ℚ) ^ 1001) := by
      simpa using round64_multiple 1 (by norm_num)
    have hBC : 2 * (2 : ℚ) ^ 1000 ≤ (2 : ℚ) ^ 1001 := le_of_eq (by ring)
    obtain ⟨a, ha, ha0, -⟩ := Rounded.wilder_within rounding_round64
      (Rounded.gainAt round64 qs) ((2 : ℚ) ^ 1001)
      (Rounded.gainAt_within rounding_round64 qs _ _ (by positivity) hB hC hBC) W hW
      (round64_bound W hW20) (i + 1)
    obtain ⟨b, hb, hb0, -⟩ := Rounded.wilder_within rounding_round64
      (Rounded.lossAt round64 qs) ((2 : ℚ) ^ 1001)
      (Rounded.lossAt_within rounding_round64 qs _ _ (by positivity) hB hC hBC) W hW
      (round64_bound W hW20) (i + 1)
    rw [ha, hb]
    obtain ⟨v, hv, hv0, hv1⟩ := Rounded.rsiCell_fin_range rounding_round64 a b ha0 hb0
    exact ⟨v, by rw [hv], hv0, hv1⟩

/-- The hypotheses of `calculate_rsi_bounds` hold for the binary64 numbers
`1, 2, 3, 2, 5, 4` with `W = 3`. -/
theorem calculate_rsi_bounds_witness :
    (∃ out, Rounded.calculate_rsi round64 (([1, 2, 3, 2, 5, 4] : List ℚ).map Dbl.fin)
        ([1, 2, 3, 2, 5, 4] : List ℚ).length (3 : Nat)
        [Dbl.nan, Dbl.nan, Dbl.nan, Dbl.nan, Dbl.nan, Dbl.nan] = some out ∧
      (∀ i, 3 ≤ i → i < ([1, 2, 3, 2, 5, 4] : List ℚ).length →
        out[i]? = some Dbl.nan ∨ ∃ v : ℚ, out[i]? = some (Dbl.fin v) ∧ 0 ≤ v ∧ v ≤ 100) ∧
      ((∀ q ∈ ([1, 2, 3, 2, 5, 4] : List ℚ), -2 ^ 1000 ≤ q ∧ q ≤ 2 ^ 1000) → 3 ≤ 2 ^ 20 →
        ∀ i, 3 ≤ i → i < ([1, 2, 3, 2, 5, 4] : List ℚ).length →
          ∃ v : ℚ, out[i]? = some (Dbl.fin v) ∧ 0 ≤ v ∧ v ≤ 100)) ∧
    (∃ out, calculate_rsi (([1, 2, 3, 2, 5, 4] : List ℚ).map Dbl.fin)
        ([1, 2, 3, 2, 5, 4] : List ℚ).length (3 : Nat)
        [Dbl.nan, Dbl.nan, Dbl.nan, Dbl.nan, Dbl.nan, Dbl.nan] = some out ∧
      ∀ i, 3 ≤ i → i < ([1, 2, 3, 2, 5, 4] : List ℚ).length →
        ∃ v : ℚ, out[i]? = some (Dbl.fin v) ∧ 0 ≤ v ∧ v ≤ 100) :=
  calculate_rsi_bounds [1, 2, 3, 2, 5, 4] 3
    [Dbl.nan, Dbl.nan, Dbl.nan, Dbl.nan, Dbl.nan, Dbl.nan] (by decide) (by decide) (by decide)

/-- Claim C12, amended: with `1 ≤ W < N`, `calculate_rsi` in binary64 returns, and for
`W ≤ i < N` cell `i` is exactly `100` when `loss[j] = 0` for every `1 ≤ j ≤ i`.  The
converse is a fact of exact arithmetic and of `2 ≤ W` only: there cell `i` is `100` if
and only if all the losses up to `i` are `0`, and with `W = 1` the smoothing keeps no
history and cell `i` is `100` if and only if `loss[i] = 0`. -/
theorem calculate_rsi_saturation (qs : List ℚ) (W : Nat) (buf : List Dbl) (hW : 1 ≤ W)
    (hWN : W < qs.length) (hbuf : buf.length = qs.length) :
    (∃ out, Rounded.calculate_rsi round64 (qs.map Dbl.fin) qs.length W buf = some out ∧
      ∀ i, W ≤ i → i < qs.length →
        (∀ j, 1 ≤ j → j ≤ i → lossSpec qs j = 0) → out[i]? = some (Dbl.fin 100)) ∧
    (∃ out, calculate_rsi (qs.map Dbl.fin) qs.length W buf = some out ∧
      ∀ i, W ≤ i → i < qs.length →
        ((∀ j, 1 ≤ j → j ≤ i → lossSpec qs j = 0) → out[i]? = some (Dbl.fin 100)) ∧
        (2 ≤ W → out[i]? = some (Dbl.fin 100) → ∀ j, 1 ≤ j → j ≤ i → lossSpec qs j = 0) ∧
        (W = 1 → (out[i]? = some (Dbl.fin 100) ↔ lossSpec qs i = 0))) := by
  refine ⟨⟨_, Rounded.calculate_rsi_eq_rd round64 qs W buf hWN hbuf, ?_⟩,
    calculate_rsi_saturation_exact qs W buf hW hWN hbuf⟩
  intro i hWi hi hloss
  rw [getElem?_map_range _ _ _ hi, if_neg (by omega)]
  have hzero : Rounded.wilder round64 (Rounded.lossAt round64 qs) W (i + 1) = Dbl.fin 0 :=
    Rounded.wilder_eq_zero rounding_round64 _ W hW i hWi (fun j h1 hj =>
      Rounded.lossAt_eq_zero rounding_round64 qs j ((lossSpec_eq_zero_iff qs j).mp (hloss j h1 hj)))
  rw [hzero]
  rfl

/-- The hypotheses of `calculate_rsi_saturation` hold for the binary64 numbers
`1, 2, 3, 3, 5, 4` with `W = 3`. -/
theorem calculate_rsi_saturation_witness :
    (∃ out, Rounded.calculate_rsi round64 (([1, 2, 3, 3, 5, 4] : List ℚ).map Dbl.fin)
        ([1, 2, 3, 3, 5, 4] : List ℚ).length (3 : Nat)
        [Dbl.nan, Dbl.nan, Dbl.nan, Dbl.nan, Dbl.nan, Dbl.nan] = some out ∧
      ∀ i, 3 ≤ i → i < ([1, 2, 3, 3, 5, 4] : List ℚ).length →
        (∀ j, 1 ≤ j → j ≤ i → lossSpec [1, 2, 3, 3, 5, 4] j = 0) →
          out[i]? = some (Dbl.fin 100)) ∧
    (∃ out, calculate_rsi (([1, 2, 3, 3, 5, 4] : List ℚ).map Dbl.fin)
        ([1, 2, 3, 3, 5, 4] : List ℚ).length (3 : Nat)
        [Dbl.nan, Dbl.nan, Dbl.nan, Dbl.nan, Dbl.nan, Dbl.nan] = some out ∧
      ∀ i, 3 ≤ i → i < ([1, 2, 3, 3, 5, 4] : List ℚ).length →
        ((∀ j, 1 ≤ j → j ≤ i → lossSpec [1, 2, 3, 3, 5, 4] j = 0) →
          out[i]? = some (Dbl.fin 100)) ∧
        (2 ≤ 3 → out[i]? = some (Dbl.fin 100) →
          ∀ j, 1 ≤ j → j ≤ i → lossSpec [1, 2, 3, 3, 5, 4] j = 0) ∧
        (3 = 1 → (out[i]? = some (Dbl.fin 100) ↔ lossSpec [1, 2, 3, 3, 5, 4] i = 0))) :=
  calculate_rsi_saturation [1, 2, 3, 3, 5, 4] 3
    [Dbl.nan, Dbl.nan, Dbl.nan, Dbl.nan, Dbl.nan, Dbl.nan] (by decide) (by decide) (by decide)

/-- Claim C13, amended: with `2 ≤ W`, `calculate_stddev` in binary64 returns, and for
`W - 1 ≤ i < N` cell `i` of its output is `+inf` (after an overflow) or a finite value
`≥ 0`, never `NAN`; it is exactly `0` when the `W` trailing samples that end at `i`
are all equal to `c` and the mean of the window in binary64, which is what
`calculate_sma` writes at `i`, is `c` too.  In exact arithmetic, for a square root
that sends `0` to `0` and keeps the sign, the cell is finite, `≥ 0`, and `0` for every
window of equal samples. -/
theorem calculate_stddev_nonneg (qs : List ℚ) (W : Nat) (buf bufS : List Dbl) (hW : 2 ≤ W)
    (hbuf : buf.length = qs.length) (hS : bufS.length = qs.length) :
    (∃ out s, Rounded.calculate_stddev round64 sqrt64 (qs.map Dbl.fin) qs.length W buf
          = some out ∧
        Rounded.calculate_sma round64 (qs.map Dbl.fin) qs.length W bufS = some s ∧
        ∀ i, W - 1 ≤ i → i < qs.length →
          (out[i]? = some Dbl.pinf ∨ ∃ v : ℚ, out[i]? = some (Dbl.fin v) ∧ 0 ≤ v) ∧
          (∀ c, (∀ x ∈ trailing qs W i, x = c) → s[i]? = some (Dbl.fin c) →
            out[i]? = some (Dbl.fin 0))) ∧
    (∀ sqrtQ : ℚ → ℚ, sqrtQ 0 = 0 → (∀ x, 0 ≤ x → 0 ≤ sqrtQ x) →
      ∃ out, calculate_stddev sqrtQ (qs.map Dbl.fin) qs.length W buf = some out ∧
        ∀ i, W - 1 ≤ i → i < qs.length →
          ∃ v : ℚ, out[i]? = some (Dbl.fin v) ∧ 0 ≤ v ∧
            (∀ c, (∀ x ∈ trailing qs W i, x = c) → v = 0)) := by
  refine ⟨⟨_, _, Rounded.calculate_stddev_eq_rd round64 sqrt64 qs W buf hbuf,
    Rounded.calculate_sma_eq_rd round64 qs W bufS hS, ?_⟩,
    fun sqrtQ hs0 hsn => calculate_stddev_nonneg_exact sqrtQ hs0 hsn qs W buf hW hbuf⟩
  intro i hWi hi
  have hlt : ¬ (i + 1 < W) := by omega
  rw [getElem?_map_range _ _ _ hi, getElem?_map_range _ _ _ hi, if_neg hlt, if_neg hlt]
  constructor
  · rcases Rounded.stddevCell_nonNeg rounding_round64 sqrt64 (fun x _ => sqrt64_nonneg x)
      qs W i hW with h | ⟨v, h, hv⟩
    · exact Or.inl (by rw [h])
    · exact Or.inr ⟨v, by rw [h], hv⟩
  · intro c hc hmean
    have hmean' : Rounded.rd round64 (Rounded.backSum round64 qs i W / Dbl.ofInt W)
        = Dbl.fin c := by
      injection hmean
    rw [Rounded.stddevCell_eq_zero rounding_round64 sqrt64 (by decide!) qs W i c hW
      (by omega) hi hc hmean']

/-- The hypotheses of `calculate_stddev_nonneg` hold for the binary64 numbers
`3, 3, 3, 5` with `W = 3`. -/
theorem calculate_stddev_nonneg_witness :
    (∃ out s, Rounded.calculate_stddev round64 sqrt64 (([3, 3, 3, 5] : List ℚ).map Dbl.fin)
          ([3, 3, 3, 5] : List ℚ).length (3 : Nat) [Dbl.nan, Dbl.nan, Dbl.nan, Dbl.nan]
          = some out ∧
        Rounded.calculate_sma round64 (([3, 3, 3, 5] : List ℚ).map Dbl.fin)
          ([3, 3, 3, 5] : List ℚ).length (3 : Nat) [Dbl.nan, Dbl.nan, Dbl.nan, Dbl.nan]
          = some s ∧
        ∀ i, 3 - 1 ≤ i → i < ([3, 3, 3, 5] : List ℚ).length →
          (out[i]? = some Dbl.pinf ∨ ∃ v : ℚ, out[i]? = some (Dbl.fin v) ∧ 0 ≤ v) ∧
          (∀ c, (∀ x ∈ trailing [3, 3, 3, 5] 3 i, x = c) → s[i]? = some (Dbl.fin c) →
            out[i]? = some (Dbl.fin 0))) ∧
    (∃ out, calculate_stddev (fun x => (Nat.sqrt (x.num.toNat * x.den) : ℚ) / x.den)
        (([3, 3, 3, 5] : List ℚ).map Dbl.fin) ([3, 3, 3, 5] : List ℚ).length (3 : Nat)
        [Dbl.nan, Dbl.nan, Dbl.nan, Dbl.nan] = some out ∧
      ∀ i, 3 - 1 ≤ i → i < ([3, 3, 3, 5] : List ℚ).length →
        ∃ v : ℚ, out[i]? = some (Dbl.fin v) ∧ 0 ≤ v ∧
          (∀ c, (∀ x ∈ trailing [3, 3, 3, 5] 3 i, x = c) → v = 0)) :=
  have h := calculate_stddev_nonneg [3, 3, 3, 5] 3 [Dbl.nan, Dbl.nan, Dbl.nan, Dbl.nan]
    [Dbl.nan, Dbl.nan, Dbl.nan, Dbl.nan] (by decide) (by decide) (by decide)
  ⟨h.1, h.2 (fun x => (Nat.sqrt (x.num.toNat * x.den) : ℚ) / x.den) (by simp)
    (fun x _ => by positivity)⟩

/-- Claim C14, amended: on a series and an output buffer of length `N`, in binary64.
With `1 ≤ W ≤ N`, `calculate_sma`, and `calculate_stddev` when `2 ≤ W`, hold the
sentinel `NAN` exactly in the cells `i < W - 1`; with `W = 1` and binary64 samples
`calculate_stddev` holds it in every cell; `calculate_ema` holds it in the cells
`i < W - 1`, not in cell `W - 1`, and, for `W < 2^31`, not in a cell that follows a
finite cell: beyond the leading cells a `NAN` only comes after an output that has
overflowed to an infinity.  With `1 ≤ W < N`, `calculate_rsi` holds the sentinel in the
cells `i < W`, and exactly there when every sample has a magnitude of at most `2^1000`
and `W ≤ 2^20`.  `calculate_max_drawdown` holds it in no cell.  In exact arithmetic
`calculate_ema` and `calculate_rsi` too hold the sentinel exactly in their leading
cells, for every series. -/
theorem sentinel_positions (qs : List ℚ) (W : Nat) (buf : List Dbl)
    (hbuf : buf.length = qs.length) :
    ((1 ≤ W → W ≤ qs.length →
        (∃ out, Rounded.calculate_sma round64 (qs.map Dbl.fin) qs.length W buf = some out ∧
          ∀ i, i < qs.length → (out[i]? = some Dbl.nan ↔ i + 1 < W)) ∧
        (∃ out, Rounded.calculate_ema round64 (qs.map Dbl.fin) qs.length W buf = some out ∧
          (∀ i, i < qs.length → i + 1 < W → out[i]? = some Dbl.nan) ∧
          out[W - 1]? ≠ some Dbl.nan ∧
          (W < 2 ^ 31 → ∀ i, W ≤ i → i < qs.length →
            (∃ p : ℚ, out[i - 1]? = some (Dbl.fin p)) → out[i]? ≠ some Dbl.nan)) ∧
        (2 ≤ W →
          ∃ out, Rounded.calculate_stddev round64 sqrt64 (qs.map Dbl.fin) qs.length W buf
              = some out ∧
            ∀ i, i < qs.length → (out[i]? = some Dbl.nan ↔ i + 1 < W)) ∧
        (W = 1 → (∀ q ∈ qs, round64 q = Dbl.fin q) →
          ∃ out, Rounded.calculate_stddev round64 sqrt64 (qs.map Dbl.fin) qs.length W buf
              = some out ∧
            ∀ i, i < qs.length → out[i]? = some Dbl.nan)) ∧
      (1 ≤ W → W < qs.length →
        ∃ out, Rounded.calculate_rsi round64 (qs.map Dbl.fin) qs.length W buf = some out ∧
          (∀ i, i < qs.length → i < W → out[i]? = some Dbl.nan) ∧
          ((∀ q ∈ qs, -2 ^ 1000 ≤ q ∧ q ≤ 2 ^ 1000) → W ≤ 2 ^ 20 →
            ∀ i, i < qs.length → (out[i]? = some Dbl.nan ↔ i < W))) ∧
      (∃ out, Rounded.calculate_max_drawdown round64 (qs.map Dbl.fin) qs.length buf
          = some out ∧
        ∀ i, i < qs.length → out[i]? ≠ some Dbl.nan)) ∧
    ((1 ≤ W → W ≤ qs.length →
        ∃ out, calculate_ema (qs.map Dbl.fin) qs.length W buf = some out ∧
          ∀ i, i < qs.length → (out[i]? = some Dbl.nan ↔ i + 1 < W)) ∧
      (1 ≤ W → W < qs.length →
        ∃ out, calculate_rsi (qs.map Dbl.fin) qs.length W buf = some out ∧
          ∀ i, i < qs.length → (out[i]? = some Dbl.nan ↔ i < W))) := by
  have hne : ∀ v : Dbl, v ≠ Dbl.nan → some v ≠ some Dbl.nan := fun v hv h => hv (by injection h)
  refine ⟨⟨fun hW hWN => ⟨⟨_, Rounded.calculate_sma_eq_rd round64 qs W buf hbuf, ?_⟩,
        ⟨_, Rounded.calculate_ema_eq_rd round64 qs W buf hWN hbuf, ?_, ?_, ?_⟩,
        fun h2 => ⟨_, Rounded.calculate_stddev_eq_rd round64 sqrt64 qs W buf hbuf, ?_⟩,
        fun h1 hrep => ⟨_, Rounded.calculate_stddev_eq_rd round64 sqrt64 qs W buf hbuf, ?_⟩⟩,
      fun hW hWN => ⟨_, Rounded.calculate_rsi_eq_rd round64 qs W buf hWN hbuf, ?_, ?_⟩,
      ⟨_, Rounded.calculate_max_drawdown_eq_rd round64 qs buf hbuf, ?_⟩⟩,
    fun hW hWN => ((sentinel_positions_exact id qs W buf hbuf).1 hW hWN).2.1,
    fun hW hWN => (sentinel_positions_exact id qs W buf hbuf).2.1 hW hWN⟩
  · intro i hi
    rw [getElem?_map_range _ _ _ hi]
    by_cases h : i + 1 < W
    · simp [h]
    · rw [if_neg h]
      have := Rounded.rd_div_nat_ne_nan rounding_round64 _ W hW
        (Rounded.backSum_ne_nan rounding_round64 qs i W)
      constructor
      · intro h'; exact absurd h' (hne _ this)
      · intro h'; exact absurd h' h
  · intro i hi h
    rw [getElem?_map_range _ _ _ hi, if_pos h]
  · rw [getElem?_map_range _ _ _ (by omega : W - 1 < qs.length), if_neg (by omega)]
    exact hne _ (Rounded.emaState_seed_ne_nan rounding_round64 qs W hW _ (by omega))
  · intro hW31 i hWi hi hp
    rw [getElem?_map_range _ _ _ (by omega : i - 1 < qs.length), if_neg (by omega),
      show i - 1 + 1 = i by omega] at hp
    rw [getElem?_map_range _ _ _ hi, if_neg (by omega)]
    obtain ⟨p, hp⟩ := hp
    exact hne _ (Rounded.emaState_step_ne_nan rounding_round64 qs W (multiplier64 W hW31) i hWi
      ⟨p, by injection hp⟩)
  · intro i hi
    rw [getElem?_map_range _ _ _ hi]
    by_cases h : i + 1 < W
    · simp [h]
    · rw [if_neg h]
      have := Rounded.nonNeg_ne_nan (Rounded.stddevCell_nonNeg rounding_round64 sqrt64
        (fun x _ => sqrt64_nonneg x) qs W i h2)
      constructor
      · intro h'; exact absurd h' (hne _ this)
      · intro h'; exact absurd h' h
  · intro i hi
    subst h1
    rw [getElem?_map_range _ _ _ hi, if_neg (by omega),
      Rounded.stddevCell_one rounding_round64 sqrt64 qs i (getD_kept qs hrep i)]
  · intro i hi h
    rw [getElem?_map_range _ _ _ hi, if_pos h]
  · intro hB hW20 i hi
    rw [getElem?_map_range _ _ _ hi]
    by_cases h : i < W
    · simp [h]
    · rw [if_neg h]
      have hC : round64 ((2 : ℚ) ^ 1001) = Dbl.fin ((2 : ℚ) ^ 1001) := by
        simpa using round64_multiple 1 (by norm_num)
      have hBC : 2 * (2 : ℚ) ^ 1000 ≤ (2 : ℚ) ^ 1001 := le_of_eq (by ring)
      obtain ⟨a, ha, ha0, -⟩ := Rounded.wilder_within rounding_round64
        (Rounded.gainAt round64 qs) ((2 : ℚ) ^ 1001)
        (Rounded.gainAt_within rounding_round64 qs _ _ (by positivity) hB hC hBC) W hW
        (round64_bound W hW20) (i + 1)
      obtain ⟨b, hb, hb0, -⟩ := Rounded.wilder_within rounding_round64
        (Rounded.lossAt round64 qs) ((2 : ℚ) ^ 1001)
        (Rounded.lossAt_within rounding_round64 qs _ _ (by positivity) hB hC hBC) W hW
        (round64_bound W hW20) (i + 1)
      rw [ha, hb]
      obtain ⟨v, hv, -, -⟩ := Rounded.rsiCell_fin_range rounding_round64 a b ha0 hb0
      rw [hv]
      constructor
      · intro h'; injection h' with h'; cases h'
      · intro h'; exact absurd h' h
  · intro i hi
    rw [getElem?_map_range _ _ _ hi]
    exact hne _ (Rounded.drawdown_ne_nan rounding_round64 _ _)

/-- The hypothesis of `sentinel_positions` holds for the binary64 numbers `4, 8, 6, 7`;
here with `W = 2`. -/
theorem sentinel_positions_witness :
    (∃ out, Rounded.calculate_sma round64 (([4, 8, 6, 7] : List ℚ).map Dbl.fin)
        ([4, 8, 6, 7] : List ℚ).length (2 : Nat) [Dbl.nan, Dbl.nan, Dbl.nan, Dbl.nan] = some out ∧
      ∀ i, i < ([4, 8, 6, 7] : List ℚ).length → (out[i]? = some Dbl.nan ↔ i + 1 < 2)) ∧
    (∃ out, Rounded.calculate_rsi round64 (([4, 8, 6, 7] : List ℚ).map Dbl.fin)
        ([4, 8, 6, 7] : List ℚ).length (2 : Nat) [Dbl.nan, Dbl.nan, Dbl.nan, Dbl.nan] = some out ∧
      (∀ i, i < ([4, 8, 6, 7] : List ℚ).length → i < 2 → out[i]? = some Dbl.nan) ∧
      ((∀ q ∈ ([4, 8, 6, 7] : List ℚ), -2 ^ 1000 ≤ q ∧ q ≤ 2 ^ 1000) → 2 ≤ 2 ^ 20 →
        ∀ i, i < ([4, 8, 6, 7] : List ℚ).length → (out[i]? = some Dbl.nan ↔ i < 2))) ∧
    (∃ out, calculate_rsi (([4, 8, 6, 7] : List ℚ).map Dbl.fin)
        ([4, 8, 6, 7] : List ℚ).length (2 : Nat) [Dbl.nan, Dbl.nan, Dbl.nan, Dbl.nan] = some out ∧
      ∀ i, i < ([4, 8, 6, 7] : List ℚ).length → (out[i]? = some Dbl.nan ↔ i < 2)) :=
  have h := sentinel_positions [4, 8, 6, 7] 2 [Dbl.nan, Dbl.nan, Dbl.nan, Dbl.nan]
    (by decide)
  ⟨(h.1.1 (by decide) (by decide)).1, h.1.2.1 (by decide) (by decide),
    h.2.2 (by decide) (by decide)⟩

/-- Claim C20, amended: when every sample is a strictly positive binary64 number,
`calculate_max_drawdown` in binary64 returns, and cell `i` of its output holds a
finite value `v` with `-1 ≤ v ≤ 0`, which is `0` exactly when `qs[i]` is the greatest
`M` of `qs[0], ..., qs[i]`; the value `-1` is reached when `qs[i] - M` is rounded to
`-M`.  In exact arithmetic, for every strictly positive series, `-1 < v ≤ 0`, and
`v = 0` exactly when `qs[i] = M`. -/
theorem calculate_max_drawdown_range (qs : List ℚ) (buf : List Dbl)
    (hbuf : buf.length = qs.length) (hpos : ∀ x ∈ qs, (0 : ℚ) < x) :
    ((∀ q ∈ qs, round64 q = Dbl.fin q) →
      ∃ out, Rounded.calculate_max_drawdown round64 (qs.map Dbl.fin) qs.length buf = some out ∧
        ∀ i, i < qs.length →
          ∃ v M : ℚ, out[i]? = some (Dbl.fin v) ∧ -1 ≤ v ∧ v ≤ 0 ∧
            M ∈ qs.take (i + 1) ∧ (∀ x ∈ qs.take (i + 1), x ≤ M) ∧
            (v = 0 ↔ qs.getD i 0 = M)) ∧
    (∃ out, calculate_max_drawdown (qs.map Dbl.fin) qs.length buf = some out ∧
      ∀ i, i < qs.length →
        ∃ v M : ℚ, out[i]? = some (Dbl.fin v) ∧ -1 < v ∧ v ≤ 0 ∧
          M ∈ qs.take (i + 1) ∧ (∀ x ∈ qs.take (i + 1), x ≤ M) ∧
          (v = 0 ↔ qs.getD i 0 = M)) := by
  refine ⟨fun hrep => ⟨_, Rounded.calculate_max_drawdown_eq_rd round64 qs buf hbuf, ?_⟩,
    calculate_max_drawdown_range_exact qs buf hbuf hpos⟩
  intro i hi
  obtain ⟨hmem, hmax⟩ := peakState_greatest qs
    (fun x hx => lt_trans (by norm_num) (hpos x hx)) i hi
  have hx : 0 < qs.getD i 0 := by
    rw [List.getD_eq_getElem _ _ hi]; exact hpos _ (List.getElem_mem _)
  have hle : qs.getD i 0 ≤ peakState qs (i + 1) := le_peakState qs (i + 1) i (by omega)
  have hkp : round64 (peakState qs (i + 1)) = Dbl.fin (peakState qs (i + 1)) :=
    hrep _ (List.mem_of_mem_take hmem)
  rw [getElem?_map_range _ _ _ hi]
  rcases eq_or_lt_of_le hle with heq | hlt
  · obtain ⟨v, hv, hv1, hv2, hv0⟩ := Rounded.drawdown_range rounding_round64 _ _ hx hle hkp
    exact ⟨v, _, by rw [hv], hv1, hv2, hmem, hmax, fun _ => heq, fun h => hv0 h⟩
  · obtain ⟨v, hv, hv1, hv2⟩ := drawdown_neg64 _ _ hx hlt (getD_kept qs hrep i) hkp
    exact ⟨v, _, by rw [hv], hv1, hv2.le, hmem, hmax,
      fun h => absurd h (ne_of_lt hv2), fun h => absurd h (ne_of_lt hlt)⟩

/-- The hypotheses of `calculate_max_drawdown_range` hold for the binary64 numbers
`10, 8, 12, 6`. -/
theorem calculate_max_drawdown_range_witness :
    (∃ out, Rounded.calculate_max_drawdown round64 (([10, 8, 12, 6] : List ℚ).map Dbl.fin)
        ([10, 8, 12, 6] : List ℚ).length [Dbl.nan, Dbl.nan, Dbl.nan, Dbl.nan] = some out ∧
      ∀ i, i < ([10, 8, 12, 6] : List ℚ).length →
        ∃ v M : ℚ, out[i]? = some (Dbl.fin v) ∧ -1 ≤ v ∧ v ≤ 0 ∧
          M ∈ ([10, 8, 12, 6] : List ℚ).take (i + 1) ∧
          (∀ x ∈ ([10, 8, 12, 6] : List ℚ).take (i + 1), x ≤ M) ∧
          (v = 0 ↔ ([10, 8, 12, 6] : List ℚ).getD i 0 = M)) ∧
    (∃ out, calculate_max_drawdown (([10, 8, 12, 6] : List ℚ).map Dbl.fin)
        ([10, 8, 12, 6] : List ℚ).length [Dbl.nan, Dbl.nan, Dbl.nan, Dbl.nan] = some out ∧
      ∀ i, i < ([10, 8, 12, 6] : List ℚ).length →
        ∃ v M : ℚ, out[i]? = some (Dbl.fin v) ∧ -1 < v ∧ v ≤ 0 ∧
          M ∈ ([10, 8, 12, 6] : List ℚ).take (i + 1) ∧
          (∀ x ∈ ([10, 8, 12, 6] : List ℚ).take (i + 1), x ≤ M) ∧
          (v = 0 ↔ ([10, 8, 12, 6] : List ℚ).getD i 0 = M)) :=
  have h := calculate_max_drawdown_range [10, 8, 12, 6] [Dbl.nan, Dbl.nan, Dbl.nan, Dbl.nan]
    (by decide)
    (by intro x hx; simp at hx; rcases hx with h | h | h | h <;> rw [h] <;> norm_num)
  ⟨h.1 (by decide!), h.2⟩

end Analytics
